import Mathlib

/-!
Timer manager and rate helper of the ROS client runtime

A shallow embedding of `core/roscpp/include/ros/timer_manager.h` and
`core/roslib/src/rate.cpp`, followed by the properties proved about them.

Conventions of the embedding:

* `TimerManager<T, D, E>` is a template over the clock type `T` and the
  duration type `D`; both are instantiated with `Int`, a count of nanoseconds.
* `boost::shared_ptr<TimerInfo>` is an address into `heap`.  A heap cell keeps
  the strong reference count; `weak_ptr::lock()` succeeds exactly when that
  count is positive.  Addresses name allocations and are never reused.
* `std::sort` is a parameter `sort` of every operation that calls it; the
  theorems assume only its contract (`StdSortSpec`).
* `T::now()` is an argument of every operation that reads the clock.
* `callback_queue->addCallback(cb)` appends to the log `added_callbacks`.
-/

namespace ros

/-- Modelled from the spec: `ros/time.h` is not part of the sources.  A time
point is identified with its total nanosecond count `sec * 10^9 + nsec`; the
spec states that arithmetic is exact and that the order is the order of that
count. -/
abbrev Time := Int

/-- Modelled from the spec: a signed duration, as a nanosecond count. -/
abbrev Duration := Int

/-- Modelled from the spec: the wall clock domain, as a nanosecond count. -/
abbrev WallTime := Int

/-- Modelled from the spec: a wall clock duration, as a nanosecond count. -/
abbrev WallDuration := Int

/-- The address of a `TimerInfo` allocation (the target of a `TimerInfoPtr`
or `TimerInfoWPtr`). -/
abbrev Addr := Nat

/-- `VoidPtr`: a strong reference to a tracked object, `none` when null. -/
abbrev VoidPtr := Option Nat

/-- `VoidWPtr`: a weak reference to a tracked object, `none` when empty. -/
abbrev VoidWPtr := Option Nat

/-- `uint32_t` arithmetic: increment. -/
def u32inc (n : Nat) : Nat := (n + 1) % 2 ^ 32

/-- `uint32_t` arithmetic: decrement. -/
def u32dec (n : Nat) : Nat := (n + 2 ^ 32 - 1) % 2 ^ 32

/-- Conversion of a `uint32_t` value to `int32_t` (two's complement). -/
def toInt32 (n : Nat) : Int :=
  if n % 2 ^ 32 < 2 ^ 31 then ((n % 2 ^ 32 : Nat) : Int) else ((n % 2 ^ 32 : Nat) : Int) - 2 ^ 32

/-- `struct TimerInfo` (the mutex carries no data). -/
structure TimerInfo where
  handle : Int
  period : Duration
  callback : Nat
  callback_queue : Nat
  last_cb_duration : WallDuration
  last_expected : Time
  next_expected : Time
  last_real : Time
  removed : Bool
  tracked_object : VoidWPtr
  has_tracked_object : Bool
  waiting_callbacks : Nat
  total_calls : Nat

/-- A heap cell owned by `boost::shared_ptr`: the strong count and the object.
The object of a cell whose count is `0` has been destroyed. -/
structure Cell where
  use_count : Nat
  obj : TimerInfo

/-- The contents of memory that was never allocated. -/
def Cell.unallocated : Cell :=
  { use_count := 0
    obj :=
      { handle := 0, period := 0, callback := 0, callback_queue := 0
        last_cb_duration := 0, last_expected := 0, next_expected := 0
        last_real := 0, removed := false, tracked_object := none
        has_tracked_object := false, waiting_callbacks := 0, total_calls := 0 } }

/-- The data members of `class TimerQueueCallback`. -/
structure TimerQueueCallback where
  info_ : Addr
  last_expected_ : Time
  last_real_ : Time
  current_expected_ : Time
  called_ : Bool
  deriving DecidableEq

/-- The event record `E` handed to the user callback. -/
structure TimerEvent where
  last_expected : Time
  last_real : Time
  current_expected : Time
  current_real : Time
  last_duration : WallDuration

/-- `CallbackInterface::CallResult`. -/
inductive CallResult where
  | Success
  | TryAgain
  | Invalid
  deriving DecidableEq, Repr

/-- The data members of `TimerManager`, together with the memory it manages
(`heap`, `next_addr`) and the log of every `addCallback` it has issued, as
pairs of the queue and the callback object, oldest first. -/
structure TimerManager where
  heap : Addr → Cell
  next_addr : Addr
  timers_ : List Addr
  id_counter_ : Nat
  thread_started_ : Bool
  quit_ : Bool
  added_callbacks : List (Nat × TimerQueueCallback)

/-- `TimerManager::TimerManager()`. -/
def TimerManager.new : TimerManager :=
  { heap := fun _ => Cell.unallocated
    next_addr := 0
    timers_ := []
    id_counter_ := 0
    thread_started_ := false
    quit_ := false
    added_callbacks := [] }

/-- Dereference of a `TimerInfoPtr`. -/
def TimerManager.deref (m : TimerManager) (p : Addr) : TimerInfo := (m.heap p).obj

/-- Assignment through a `TimerInfoPtr`. -/
def TimerManager.store (m : TimerManager) (p : Addr) (v : TimerInfo) : TimerManager :=
  { m with heap := fun q => if q = p then { m.heap p with obj := v } else m.heap q }

/-- `TimerInfoWPtr::lock()`: the object when it is still alive. -/
def TimerManager.lock (m : TimerManager) (p : Addr) : Option TimerInfo :=
  if (m.heap p).use_count = 0 then none else some (m.heap p).obj

/-- `VoidWPtr::lock()` as a truth value, given which tracked objects are alive. -/
def lockTracked (live : Nat → Bool) (w : VoidWPtr) : Bool :=
  match w with
  | none => false
  | some o => live o

/-- `TimerManager::timerCompare`. -/
def timerCompare (m : TimerManager) (lhs rhs : Addr) : Bool :=
  decide ((m.deref lhs).next_expected < (m.deref rhs).next_expected)

/-- `TimerManager::findTimer`. -/
def findTimer (m : TimerManager) (handle : Int) : Option Addr :=
  m.timers_.find? (fun it => decide ((m.deref it).handle = handle))

/-- `TimerManager::hasPending`, with `now` the value of `T::now()`. -/
def hasPending (live : Nat → Bool) (now : Time) (m : TimerManager) (handle : Int) : Bool :=
  match findTimer m handle with
  | none => false
  | some info =>
    if (m.deref info).has_tracked_object && !lockTracked live (m.deref info).tracked_object then
      false
    else
      decide ((m.deref info).next_expected ≤ now) || decide ((m.deref info).waiting_callbacks ≠ 0)

/-- The type of the `std::sort` routine applied to `timers_` with a
"less than" comparator. -/
abbrev SortFn := (Addr → Addr → Bool) → List Addr → List Addr

/-- The contract of `std::sort` used by the manager: the result is a
rearrangement of the input in non-decreasing order, for a comparator that
compares an integer key (as `timerCompare` does).  The order of equal keys is unspecified. -/
structure StdSortSpec (sort : SortFn) : Prop where
  perm : ∀ (key : Addr → Int) (l : List Addr),
    (sort (fun a b => decide (key a < key b)) l).Perm l
  sorted : ∀ (key : Addr → Int) (l : List Addr),
    (sort (fun a b => decide (key a < key b)) l).Pairwise (fun a b => key a ≤ key b)

/-- Insertion of one element into a sorted list, before the first element
that does not compare less. -/
def orderedInsert (lt : Addr → Addr → Bool) (a : Addr) : List Addr → List Addr
  | [] => [a]
  | b :: l => if lt b a then b :: orderedInsert lt a l else a :: b :: l

/-- A reference implementation of the `std::sort` contract (insertion sort). -/
def insertionSort : SortFn := fun lt l => l.foldr (orderedInsert lt) []

/-- `TimerManager::add`, with `now` the value of `T::now()`.  Returns the new
state and the handle. -/
def add (sort : SortFn) (now : Time) (m : TimerManager) (period : Duration) (callback : Nat)
    (callback_queue : Nat) (tracked_object : VoidPtr) : TimerManager × Int :=
  let info : Addr := m.next_addr
  let obj0 : TimerInfo :=
    { handle := 0
      period := period
      callback := callback
      callback_queue := callback_queue
      last_cb_duration := 0
      last_expected := now
      next_expected := now + period
      last_real := 0
      removed := false
      tracked_object := none
      has_tracked_object := false
      waiting_callbacks := 0
      total_calls := 0 }
  let obj1 : TimerInfo :=
    match tracked_object with
    | some o => { obj0 with tracked_object := some o, has_tracked_object := true }
    | none => obj0
  let obj2 : TimerInfo := { obj1 with handle := toInt32 m.id_counter_ }
  let m1 : TimerManager :=
    { m with
      heap := fun q => if q = info then { use_count := 1, obj := obj2 } else m.heap q
      next_addr := info + 1
      id_counter_ := u32inc m.id_counter_ }
  let m2 : TimerManager := { m1 with timers_ := m1.timers_ ++ [info] }
  let m3 : TimerManager := { m2 with timers_ := sort (timerCompare m2) m2.timers_ }
  let m4 : TimerManager := { m3 with thread_started_ := true }
  (m4, (m4.deref info).handle)

/-- The destructor of a `TimerInfoPtr`: one strong reference less. -/
def TimerManager.release (m : TimerManager) (p : Addr) : TimerManager :=
  { m with
    heap := fun q => if q = p then { m.heap p with use_count := (m.heap p).use_count - 1 } else m.heap q }

/-- `TimerManager::remove`. -/
def remove (m : TimerManager) (handle : Int) : TimerManager :=
  match m.timers_.find? (fun it => decide ((m.deref it).handle = handle)) with
  | none => m
  | some info =>
    let m1 := m.store info { m.deref info with removed := true }
    let m2 : TimerManager :=
      { m1 with timers_ := m1.timers_.eraseP (fun it => decide ((m.deref it).handle = handle)) }
    m2.release info

/-- The constructor of `TimerQueueCallback`. -/
def TimerQueueCallback.create (m : TimerManager) (info : Addr) (last_expected last_real
    current_expected : Time) : TimerManager × TimerQueueCallback :=
  (m.store info
      { m.deref info with waiting_callbacks := u32inc (m.deref info).waiting_callbacks },
    { info_ := info
      last_expected_ := last_expected
      last_real_ := last_real
      current_expected_ := current_expected
      called_ := false })

/-- The destructor of `TimerQueueCallback`. -/
def TimerQueueCallback.destroy (m : TimerManager) (cb : TimerQueueCallback) : TimerManager :=
  match m.lock cb.info_ with
  | none => m
  | some info => m.store cb.info_ { info with waiting_callbacks := u32dec info.waiting_callbacks }

/-- What one `call()` does: its result, the memory and the callback object
afterwards, and the invocations of the user callback it made, each as the
callback and the event passed to it. -/
structure CallOutcome where
  result : CallResult
  mgr : TimerManager
  cb : TimerQueueCallback
  invoked : List (Nat × TimerEvent)

/-- `TimerQueueCallback::call`, with `now` the value of `T::now()` and
`cb_start`, `cb_end` the two values of `WallTime::now()`. -/
def TimerQueueCallback.call (live : Nat → Bool) (now : Time) (cb_start cb_end : WallTime)
    (m : TimerManager) (cb : TimerQueueCallback) : CallOutcome :=
  match m.lock cb.info_ with
  | none => { result := CallResult.Invalid, mgr := m, cb := cb, invoked := [] }
  | some info =>
    let info1 : TimerInfo := { info with total_calls := u32inc info.total_calls }
    let cb1 : TimerQueueCallback := { cb with called_ := true }
    if info1.removed then
      { result := CallResult.Invalid, mgr := m.store cb.info_ info1, cb := cb1, invoked := [] }
    else if info1.has_tracked_object && !lockTracked live info1.tracked_object then
      { result := CallResult.Invalid, mgr := m.store cb.info_ info1, cb := cb1, invoked := [] }
    else
      let event : TimerEvent :=
        { last_expected := cb.last_expected_
          last_real := cb.last_real_
          current_expected := cb.current_expected_
          current_real := now
          last_duration := info1.last_cb_duration }
      let info2 : TimerInfo := { info1 with last_cb_duration := cb_end - cb_start }
      let info3 : TimerInfo := { info2 with last_real := event.current_real }
      { result := CallResult.Success
        mgr := m.store cb.info_ info3
        cb := cb1
        invoked := [(info1.callback, event)] }

/-- The body of the inner `while` loop of `TimerManager::threadFunc` for the
front timer `info`, up to and including the `std::sort`. -/
def threadFuncDispatch (sort : SortFn) (m : TimerManager) (info : Addr) : TimerManager :=
  let r := TimerQueueCallback.create m info (m.deref info).last_expected (m.deref info).last_real
    (m.deref info).next_expected
  let m1 : TimerManager :=
    { r.1 with added_callbacks := r.1.added_callbacks ++ [((r.1.deref info).callback_queue, r.2)] }
  let m2 := m1.store info { m1.deref info with last_expected := (m1.deref info).next_expected }
  let m3 := m2.store info
    { m2.deref info with next_expected := (m2.deref info).next_expected + (m2.deref info).period }
  { m3 with timers_ := sort (timerCompare m3) m3.timers_ }

/-- The whole body of the inner `while` loop of `TimerManager::threadFunc`:
the new state and the new front timer, or `none` when `timers_.front()` is
taken of an empty vector. -/
def threadFuncBody (sort : SortFn) (m : TimerManager) (info : Addr) :
    Option (TimerManager × Addr) :=
  match (threadFuncDispatch sort m info).timers_ with
  | [] => none
  | front :: _ => some (threadFuncDispatch sort m info, front)

/-- The inner `while` loop of `TimerManager::threadFunc`.  `clock i` is the
value of the `i`-th evaluation of `T::now()`; `none` when the fuel runs out. -/
def threadFuncLoop (sort : SortFn) : Nat → (Nat → Time) → TimerManager → Addr →
    Option (TimerManager × Addr)
  | 0, _, _, _ => none
  | fuel + 1, clock, m, info =>
    if (m.deref info).next_expected ≤ clock 0 then
      match threadFuncBody sort m info with
      | none => none
      | some r => threadFuncLoop sort fuel (fun i => clock (i + 1)) r.1 r.2
    else
      some (m, info)

/-- One pass of the locked section of `TimerManager::threadFunc`: the state
afterwards and `sleep_end`.  `D(0.1)` is 100000000 ns. -/
def threadFuncPass (sort : SortFn) (fuel : Nat) (clock : Nat → Time) (m : TimerManager) :
    Option (TimerManager × Time) :=
  match m.timers_ with
  | [] => some (m, clock 0 + 100000000)
  | info :: _ =>
    match threadFuncLoop sort fuel clock m info with
    | none => none
    | some r => some (r.1, (r.1.deref r.2).next_expected)

/-- The callbacks the manager has enqueued for the timer at address `a`,
oldest first. -/
def callbacksOf (m : TimerManager) (a : Addr) : List TimerQueueCallback :=
  (m.added_callbacks.map Prod.snd).filter (fun cb => decide (cb.info_ = a))

/-- One atomic action on a manager: an `add`, a `remove`, one iteration of the
dispatcher's inner loop on the front timer when its guard holds, a `call()` of
an enqueued callback, or the destruction of an enqueued callback. -/
inductive Step (sort : SortFn) : TimerManager → TimerManager → Prop
  | add (m : TimerManager) (now : Time) (period : Duration) (callback callback_queue : Nat)
      (tracked : VoidPtr) : Step sort m (add sort now m period callback callback_queue tracked).1
  | remove (m : TimerManager) (handle : Int) : Step sort m (remove m handle)
  | dispatch (m : TimerManager) (now : Time) (info : Addr) (rest : List Addr)
      (r : TimerManager × Addr) : m.timers_ = info :: rest →
      (m.deref info).next_expected ≤ now → threadFuncBody sort m info = some r → Step sort m r.1
  | call (m : TimerManager) (live : Nat → Bool) (now : Time) (cb_start cb_end : WallTime)
      (q : Nat) (cb : TimerQueueCallback) : (q, cb) ∈ m.added_callbacks →
      Step sort m (TimerQueueCallback.call live now cb_start cb_end m cb).mgr
  | destroy (m : TimerManager) (q : Nat) (cb : TimerQueueCallback) :
      (q, cb) ∈ m.added_callbacks → Step sort m (TimerQueueCallback.destroy m cb)

/-- The states a manager can reach from `m` by any number of actions. -/
def Reachable (sort : SortFn) (m m' : TimerManager) : Prop :=
  Relation.ReflTransGen (Step sort) m m'

/-- The handles returned by a sequence of `add` calls, one per entry of
`calls` (clock reading, period, callback, queue, tracked object), in order. -/
def addMany (sort : SortFn) : TimerManager → List (Time × Duration × Nat × Nat × VoidPtr) →
    List Int
  | _, [] => []
  | m, c :: cs =>
    let r := add sort c.1 m c.2.1 c.2.2.1 c.2.2.2.1 c.2.2.2.2
    r.2 :: addMany sort r.1 cs

/-- A thread draining a callback queue: `call()` on each callback in turn,
each followed by the destruction of the callback object.  Every entry carries
the callback and the clock readings of its call.  Returns the final state,
the results in order, and all invocations of user callbacks made. -/
def drain (live : Nat → Bool) : TimerManager →
    List (TimerQueueCallback × Time × WallTime × WallTime) →
    TimerManager × List CallResult × List (Nat × TimerEvent)
  | m, [] => (m, [], [])
  | m, c :: cs =>
    let out := TimerQueueCallback.call live c.2.1 c.2.2.1 c.2.2.2 m c.1
    let r := drain live (TimerQueueCallback.destroy out.mgr out.cb) cs
    (r.1, out.result :: r.2.1, out.invoked ++ r.2.2)

/-- The timer at `a` can no longer run its user callback: the object is
destroyed or its `removed` flag is set. -/
def Retired (m : TimerManager) (a : Addr) : Prop :=
  (m.heap a).use_count = 0 ∨ (m.deref a).removed = true

/-- The state after one dispatcher pass; the state is left as it is when the
fuel does not suffice. -/
def afterPass (sort : SortFn) (fuel : Nat) (clock : Nat → Time) (m : TimerManager) :
    TimerManager :=
  match threadFuncPass sort fuel clock m with
  | some r => r.1
  | none => m

/-- Every address held in `timers_` or in an enqueued callback has been
allocated. -/
def WellFormed (m : TimerManager) : Prop :=
  (∀ a ∈ m.timers_, a < m.next_addr) ∧ (∀ c ∈ m.added_callbacks, c.2.info_ < m.next_addr)

/-- A manager with one timer of period 10 added at clock reading 0, whose
tracked object is object 7. -/
def trackedExample : TimerManager :=
  (add insertionSort 0 TimerManager.new 10 4 3 (some 7)).1

/-- A manager with one timer of period 10 added at clock reading 0 and
dispatched at clock reading 25. -/
def dispatchedExample : TimerManager :=
  afterPass insertionSort 5 (fun _ => 25) (add insertionSort 0 TimerManager.new 10 4 3 none).1

/-- The bookkeeping of the timer at `a`, added at clock reading `start` with
period `p`: the address is allocated; callback number `k` (from 0) enqueued
for it has `current_expected = start + (k+1)*p` and
`last_expected = start + k*p`; and while the timer is in `timers_`, its
period is `p` and its `last_expected` and `next_expected` are `start + n*p`
and `start + (n+1)*p`, with `n` the number of callbacks enqueued for it. -/
def DriftInv (a : Addr) (start p : Int) (m : TimerManager) : Prop :=
  a < m.next_addr ∧
  (∀ (k : Nat) (c : TimerQueueCallback), (callbacksOf m a)[k]? = some c →
    c.current_expected_ = start + ((k : Int) + 1) * p ∧ c.last_expected_ = start + (k : Int) * p) ∧
  (a ∈ m.timers_ →
    (m.deref a).period = p ∧
    (m.deref a).last_expected = start + ((callbacksOf m a).length : Int) * p ∧
    (m.deref a).next_expected = start + (((callbacksOf m a).length : Int) + 1) * p)

/-- The second callback enqueued in `dispatchedExample`. -/
def secondCallback : TimerQueueCallback :=
  { info_ := 0, last_expected_ := 10, last_real_ := 0, current_expected_ := 20, called_ := false }

/-- The data members of `Rate`. -/
structure Rate where
  start_ : Time
  expected_cycle_time_ : Duration
  actual_cycle_time_ : Duration

/-- What one `sleep()` does: the object afterwards, the value returned, and
the duration slept (`none` when `Duration::sleep` is not called). -/
structure SleepOutcome (R : Type) where
  rate : R
  result : Bool
  slept : Option Duration

/-- `Rate::sleep`, with `now` the value of `Time::now()`. -/
def Rate.sleep (now : Time) (r : Rate) : SleepOutcome Rate :=
  let expected_end : Time := r.start_ + r.expected_cycle_time_
  let actual_end : Time := now
  let sleep_time : Duration := expected_end - actual_end
  let r1 : Rate := { r with actual_cycle_time_ := actual_end - r.start_ }
  if sleep_time < 0 then
    { rate := { r1 with start_ := expected_end }, result := false, slept := none }
  else
    { rate := { r1 with start_ := expected_end }, result := true, slept := some sleep_time }

/-- The data members of `WallRate`. -/
structure WallRate where
  start_ : WallTime
  expected_cycle_time_ : WallDuration
  actual_cycle_time_ : WallDuration

/-- `WallRate::sleep`, with `now` the value of `WallTime::now()`. -/
def WallRate.sleep (now : WallTime) (r : WallRate) : SleepOutcome WallRate :=
  let expected_end : WallTime := r.start_ + r.expected_cycle_time_
  let actual_end : WallTime := now
  let sleep_time : WallDuration := expected_end - actual_end
  let r1 : WallRate := { r with actual_cycle_time_ := actual_end - r.start_ }
  if sleep_time < 0 then
    { rate := { r1 with start_ := expected_end }, result := false, slept := none }
  else
    { rate := { r1 with start_ := expected_end }, result := true, slept := some sleep_time }

/-- `Rate::Rate(double frequency)`, with `now` the value of `Time::now()` and
`expected_cycle_time` the duration that `1.0 / frequency` converts to. -/
def Rate.new (now : Time) (expected_cycle_time : Duration) : Rate :=
  { start_ := now, expected_cycle_time_ := expected_cycle_time, actual_cycle_time_ := 0 }

/-- `Rate::reset`, with `now` the value of `Time::now()`. -/
def Rate.reset (now : Time) (r : Rate) : Rate := { r with start_ := now }

/-- `Rate::cycleTime`. -/
def Rate.cycleTime (r : Rate) : Duration := r.actual_cycle_time_

/-- Successive calls of `Rate::sleep`, one per clock reading of the list, with
no other call in between: the object after the last call. -/
def Rate.sleepMany : Rate → List Time → Rate
  | r, [] => r
  | r, now :: rest => Rate.sleepMany (Rate.sleep now r).rate rest

/-- `WallRate::WallRate(double frequency)`, with `now` the value of
`WallTime::now()` and `expected_cycle_time` the duration that
`1.0 / frequency` converts to. -/
def WallRate.new (now : WallTime) (expected_cycle_time : WallDuration) : WallRate :=
  { start_ := now, expected_cycle_time_ := expected_cycle_time, actual_cycle_time_ := 0 }

/-- `WallRate::reset`, with `now` the value of `WallTime::now()`. -/
def WallRate.reset (now : WallTime) (r : WallRate) : WallRate := { r with start_ := now }

/-- `WallRate::cycleTime`. -/
def WallRate.cycleTime (r : WallRate) : WallDuration := r.actual_cycle_time_

/-- An `XmlRpc::XmlRpcValue`, by its identity. -/
abbrev XmlRpcValue := Nat

/-- The data members of `Subscription::PendingConnection`: the RPC client, the
datagram transport when there is one, and the weak reference to the parent
`Subscription` (`none` when empty). -/
structure PendingConnection where
  client_ : Nat
  udp_transport_ : Option Nat
  parent_ : Option Nat
  deriving DecidableEq

/-- The calls `PendingConnection::check` makes on its collaborators:
`client_->executeCheckDone(result)` on an RPC client, and
`parent->pendingConnectionDone(this, result)` on a live parent. -/
inductive CheckAction where
  | executeCheckDone (client : Nat)
  | pendingConnectionDone (parent : Nat) (pending_conn : PendingConnection) (result : XmlRpcValue)
  deriving DecidableEq

/-- What one `check()` does: the value returned and the calls made, in order. -/
structure CheckOutcome where
  result : Bool
  actions : List CheckAction
  deriving DecidableEq

/-- `SubscriptionWPtr::lock()`, given which subscriptions are alive. -/
def lockParent (live : Nat → Bool) (w : Option Nat) : Option Nat :=
  match w with
  | none => none
  | some s => if live s then some s else none

/-- `Subscription::PendingConnection::check`.  `executeCheckDone` is what the
RPC client answers when it is polled: whether the call is complete, and the
value it stores into `result`. -/
def PendingConnection.check (live : Nat → Bool) (executeCheckDone : Bool × XmlRpcValue)
    (pc : PendingConnection) : CheckOutcome :=
  match lockParent live pc.parent_ with
  | none => { result := true, actions := [] }
  | some parent =>
    if executeCheckDone.1 then
      { result := true
        actions := [CheckAction.executeCheckDone pc.client_,
          CheckAction.pendingConnectionDone parent pc executeCheckDone.2] }
    else
      { result := false, actions := [CheckAction.executeCheckDone pc.client_] }

/-- Modelled from the spec: the class `Time` of `ros/time.h`, which is not
part of the sources, as its pair of members `sec` and `nsec`.  The members
are unbounded integers: the range of the machine representation is not
modelled. -/
structure TimeRep where
  sec : Int
  nsec : Int
  deriving DecidableEq

/-- Modelled from the spec: the class `Duration` of `ros/duration.h`, which is
not part of the sources, as its pair of signed members `sec` and `nsec`. -/
structure DurationRep where
  sec : Int
  nsec : Int
  deriving DecidableEq

/-- Modelled from the spec: normalisation of a raw `(sec, nsec)` pair, which
carries the whole seconds of `nsec` into `sec` and leaves `nsec` in
`[0, 10^9)`, borrowing from `sec` when `nsec` is negative. -/
def normalizeSecNSec (sec nsec : Int) : Int × Int :=
  (sec + nsec / 1000000000, nsec % 1000000000)

/-- Modelled from the spec: the constructor `Time(sec, nsec)`, which
normalises. -/
def TimeRep.new (sec nsec : Int) : TimeRep :=
  { sec := (normalizeSecNSec sec nsec).1, nsec := (normalizeSecNSec sec nsec).2 }

/-- Modelled from the spec: the constructor `Duration(sec, nsec)`, which
normalises. -/
def DurationRep.new (sec nsec : Int) : DurationRep :=
  { sec := (normalizeSecNSec sec nsec).1, nsec := (normalizeSecNSec sec nsec).2 }

/-- Modelled from the spec: the total nanosecond count `sec * 10^9 + nsec` of
a `Time`. -/
def TimeRep.toNSec (t : TimeRep) : Int := t.sec * 1000000000 + t.nsec

/-- Modelled from the spec: the total nanosecond count of a `Duration`. -/
def DurationRep.toNSec (d : DurationRep) : Int := d.sec * 1000000000 + d.nsec

/-- Modelled from the spec: the normalisation invariant `nsec ∈ [0, 10^9)` of
a `Time`. -/
def TimeRep.Normalized (t : TimeRep) : Prop := 0 ≤ t.nsec ∧ t.nsec < 1000000000

/-- Modelled from the spec: the normalisation invariant of a `Duration`. -/
def DurationRep.Normalized (d : DurationRep) : Prop := 0 ≤ d.nsec ∧ d.nsec < 1000000000

/-- Modelled from the spec: `Time::operator+(Duration)`, memberwise sum
followed by normalisation. -/
def TimeRep.add (t : TimeRep) (d : DurationRep) : TimeRep :=
  TimeRep.new (t.sec + d.sec) (t.nsec + d.nsec)

/-- Modelled from the spec: `Time::operator-(Duration)`, memberwise difference
followed by normalisation. -/
def TimeRep.sub (t : TimeRep) (d : DurationRep) : TimeRep :=
  TimeRep.new (t.sec - d.sec) (t.nsec - d.nsec)

/-- Modelled from the spec: `Time::operator+=(Duration)`; the value of the
left operand afterwards. -/
def TimeRep.addAssign (t : TimeRep) (d : DurationRep) : TimeRep :=
  TimeRep.new (t.sec + d.sec) (t.nsec + d.nsec)

/-- Modelled from the spec: `Time::operator-=(Duration)`; the value of the
left operand afterwards. -/
def TimeRep.subAssign (t : TimeRep) (d : DurationRep) : TimeRep :=
  TimeRep.new (t.sec - d.sec) (t.nsec - d.nsec)

/-- Modelled from the spec: `Time::operator<`, comparing `sec` first and
`nsec` on equal `sec`. -/
def TimeRep.lt (a b : TimeRep) : Bool :=
  if a.sec < b.sec then true
  else if a.sec = b.sec ∧ a.nsec < b.nsec then true
  else false

/-- Modelled from the spec: `Time::operator>`. -/
def TimeRep.gt (a b : TimeRep) : Bool :=
  if a.sec > b.sec then true
  else if a.sec = b.sec ∧ a.nsec > b.nsec then true
  else false

/-- Modelled from the spec: `Time::operator<=`. -/
def TimeRep.le (a b : TimeRep) : Bool :=
  if a.sec < b.sec then true
  else if a.sec = b.sec ∧ a.nsec ≤ b.nsec then true
  else false

/-- Modelled from the spec: `Time::operator>=`. -/
def TimeRep.ge (a b : TimeRep) : Bool :=
  if a.sec > b.sec then true
  else if a.sec = b.sec ∧ a.nsec ≥ b.nsec then true
  else false

/-- Modelled from the spec: `Time::operator==`, equality of both members. -/
def TimeRep.eq (a b : TimeRep) : Bool := decide (a.sec = b.sec ∧ a.nsec = b.nsec)

/-- Modelled from the spec: `Time::operator!=`. -/
def TimeRep.ne (a b : TimeRep) : Bool := !(TimeRep.eq a b)

/-- Modelled from the spec: `Duration::operator<`. -/
def DurationRep.lt (a b : DurationRep) : Bool :=
  if a.sec < b.sec then true
  else if a.sec = b.sec ∧ a.nsec < b.nsec then true
  else false

/-- Modelled from the spec: `Duration::operator>`. -/
def DurationRep.gt (a b : DurationRep) : Bool :=
  if a.sec > b.sec then true
  else if a.sec = b.sec ∧ a.nsec > b.nsec then true
  else false

/-- Modelled from the spec: `Duration::operator<=`. -/
def DurationRep.le (a b : DurationRep) : Bool :=
  if a.sec < b.sec then true
  else if a.sec = b.sec ∧ a.nsec ≤ b.nsec then true
  else false

/-- Modelled from the spec: `Duration::operator>=`. -/
def DurationRep.ge (a b : DurationRep) : Bool :=
  if a.sec > b.sec then true
  else if a.sec = b.sec ∧ a.nsec ≥ b.nsec then true
  else false

/-- Modelled from the spec: `Duration::operator==`. -/
def DurationRep.eq (a b : DurationRep) : Bool := decide (a.sec = b.sec ∧ a.nsec = b.nsec)

/-- Modelled from the spec: `Duration::operator!=`. -/
def DurationRep.ne (a b : DurationRep) : Bool := !(DurationRep.eq a b)

/-- Modelled from the spec: `Subscription::MessageInfo`, the serialized
message and the connection header, each by its identity. -/
structure MessageInfo where
  serialized_message_ : Nat
  connection_header_ : Nat
  deriving DecidableEq

/-- Modelled from the spec: the data members of `Subscription` that
`handleMessage` reads and writes, as declared in `subscription.h`, together
with the log of the messages passed to `invokeCallback` in place and the
number of notifications of `inbox_cond_`. -/
structure Subscription where
  dropped_ : Bool
  threaded_ : Bool
  max_queue_ : Int
  inbox_ : List MessageInfo
  queue_full_ : Bool
  invoked : List MessageInfo
  notified : Nat
  deriving DecidableEq

/-- Modelled from the spec: `Subscription::handleMessage`, whose body
(`subscription.cpp`) is not part of the sources.  A dropped subscription
returns false.  Unthreaded, the message goes to `invokeCallback` in place.
Threaded, when `max_queue > 0` and the inbox holds `max_queue` entries the
oldest entry is dropped and `queue_full` is set; then the new entry is
appended and the worker notified.  Returns the state afterwards and the
value returned. -/
def Subscription.handleMessage (s : Subscription) (msg : MessageInfo) : Subscription × Bool :=
  if s.dropped_ then (s, false)
  else if !s.threaded_ then ({ s with invoked := s.invoked ++ [msg] }, true)
  else
    let s1 : Subscription :=
      if 0 < s.max_queue_ ∧ (s.inbox_.length : Int) = s.max_queue_ then
        { s with inbox_ := s.inbox_.tail, queue_full_ := true }
      else s
    ({ s1 with inbox_ := s1.inbox_ ++ [msg], notified := s1.notified + 1 }, true)

/-- Modelled from the spec: `handleMessage` called with each message of a
list in turn while the worker dequeues nothing; the final state and the
values returned, in order. -/
def Subscription.handleMessages : Subscription → List MessageInfo → Subscription × List Bool
  | s, [] => (s, [])
  | s, msg :: rest =>
    let r := Subscription.handleMessages (s.handleMessage msg).1 rest
    (r.1, (s.handleMessage msg).2 :: r.2)

/-- The number of ticks `next + j * period`, `j = 0, 1, ...`, of a timer with
a positive period that are not later than `now`. -/
def dueTicks (now next : Time) (period : Duration) : Nat :=
  if next ≤ now then ((now - next) / period).toNat + 1 else 0

/-- The ticks `next + j * period` of a timer that are not later than `now`,
earliest first. -/
def dueTickTimes (now next : Time) (period : Duration) : List Time :=
  (List.range (dueTicks now next period)).map (fun j : Nat => next + (j : Int) * period)

/-- The number of due ticks at clock reading `now`, summed over `timers_`. -/
def totalDue (now : Time) (m : TimerManager) : Nat :=
  (m.timers_.map
    (fun a => dueTicks now (m.deref a).next_expected (m.deref a).period)).sum

/-- The list `timers_` is in non-decreasing order of `next_expected`. -/
def SortedTimers (m : TimerManager) : Prop :=
  m.timers_.Pairwise (fun a b => (m.deref a).next_expected ≤ (m.deref b).next_expected)

/-- A thread that called `handleMessage` five times on a threaded
subscription with `max_queue = 2`. -/
def inboxExample : Subscription × List Bool :=
  Subscription.handleMessages
    { dropped_ := false, threaded_ := true, max_queue_ := 2, inbox_ := [], queue_full_ := false
      invoked := [], notified := 0 }
    [⟨1, 0⟩, ⟨2, 0⟩, ⟨3, 0⟩, ⟨4, 0⟩, ⟨5, 0⟩]

/-- Every timer in `timers_` has `next_expected = last_expected + period`. -/
def ScheduleInv (m : TimerManager) : Prop :=
  ∀ a ∈ m.timers_,
    (m.deref a).next_expected = (m.deref a).last_expected + (m.deref a).period

/-- Successive calls of `Rate::sleep`, one per clock reading of the list, with
no other call in between: for each call the value returned and the duration
slept. -/
def Rate.sleepResults : Rate → List Time → List (Bool × Option Duration)
  | _, [] => []
  | r, now :: rest =>
    ((Rate.sleep now r).result, (Rate.sleep now r).slept) ::
      Rate.sleepResults (Rate.sleep now r).rate rest

/-- Successive calls of `WallRate::sleep`, one per clock reading of the list:
for each call the value returned and the duration slept. -/
def WallRate.sleepResults : WallRate → List WallTime → List (Bool × Option WallDuration)
  | _, [] => []
  | r, now :: rest =>
    ((WallRate.sleep now r).result, (WallRate.sleep now r).slept) ::
      WallRate.sleepResults (WallRate.sleep now r).rate rest

/-- A manager with two timers, of period 200000000 ns and 142857142 ns, both
added at clock reading 0. -/
def twoTimerExample : TimerManager :=
  (add insertionSort 0 (add insertionSort 0 TimerManager.new 200000000 4 3 none).1
    142857142 5 3 none).1

/-- A manager together with the `TimerQueueCallback` objects that exist: those
constructed and not yet destroyed. -/
structure Runtime where
  mgr : TimerManager
  callbacks : List TimerQueueCallback

/-- A newly constructed manager, with no callback object. -/
def Runtime.new : Runtime := { mgr := TimerManager.new, callbacks := [] }

/-- The number of existing callback objects whose owner is the timer at `a`. -/
def Runtime.inFlight (rt : Runtime) (a : Addr) : Nat :=
  rt.callbacks.countP (fun cb => decide (cb.info_ = a))

/-- One atomic action with the life cycle of the callback objects: an `add`,
a `remove`, one iteration of the dispatcher's inner loop (the only place that
constructs a `TimerQueueCallback`), a `call()` of an existing callback, or
the destruction of an existing callback, which then exists no more. -/
inductive RStep (sort : SortFn) : Runtime → Runtime → Prop
  | add (rt : Runtime) (now : Time) (period : Duration) (callback callback_queue : Nat)
      (tracked : VoidPtr) :
      RStep sort rt
        { mgr := (add sort now rt.mgr period callback callback_queue tracked).1
          callbacks := rt.callbacks }
  | remove (rt : Runtime) (handle : Int) :
      RStep sort rt { mgr := remove rt.mgr handle, callbacks := rt.callbacks }
  | dispatch (rt : Runtime) (now : Time) (info : Addr) (rest : List Addr)
      (r : TimerManager × Addr) : rt.mgr.timers_ = info :: rest →
      (rt.mgr.deref info).next_expected ≤ now → threadFuncBody sort rt.mgr info = some r →
      RStep sort rt
        { mgr := r.1
          callbacks := rt.callbacks ++
            [(TimerQueueCallback.create rt.mgr info (rt.mgr.deref info).last_expected
              (rt.mgr.deref info).last_real (rt.mgr.deref info).next_expected).2] }
  | call (rt : Runtime) (live : Nat → Bool) (now : Time) (cb_start cb_end : WallTime)
      (cb : TimerQueueCallback) : cb ∈ rt.callbacks →
      RStep sort rt
        { mgr := (TimerQueueCallback.call live now cb_start cb_end rt.mgr cb).mgr
          callbacks := rt.callbacks.erase cb ++
            [(TimerQueueCallback.call live now cb_start cb_end rt.mgr cb).cb] }
  | destroy (rt : Runtime) (cb : TimerQueueCallback) : cb ∈ rt.callbacks →
      RStep sort rt
        { mgr := TimerQueueCallback.destroy rt.mgr cb, callbacks := rt.callbacks.erase cb }

/-- The states reachable from `rt` by any number of such actions. -/
def RReachable (sort : SortFn) (rt rt' : Runtime) : Prop :=
  Relation.ReflTransGen (RStep sort) rt rt'

/-- The accounting of callbacks in flight: every address held is allocated,
and the `waiting_callbacks` of every live timer is the number of callback
objects that exist for it, as a `uint32_t`. -/
def Accounted (rt : Runtime) : Prop :=
  (∀ a ∈ rt.mgr.timers_, a < rt.mgr.next_addr) ∧
  (∀ cb ∈ rt.callbacks, cb.info_ < rt.mgr.next_addr) ∧
  ∀ a, (rt.mgr.heap a).use_count ≠ 0 →
    (rt.mgr.deref a).waiting_callbacks = rt.inFlight a % 2 ^ 32

/-- A timer of period 1 ns is added at clock reading 0 to a new manager and
the first dispatcher pass runs at the constant clock reading `now`; none of
the callbacks it enqueues has been destroyed. -/
def singleTimerRun (sort : SortFn) (fuel : Nat) (now : Time) : Runtime :=
  { mgr := afterPass sort fuel (fun _ => now) (add sort 0 TimerManager.new 1 0 0 none).1
    callbacks := (afterPass sort fuel (fun _ => now)
      (add sort 0 TimerManager.new 1 0 0 none).1).added_callbacks.map Prod.snd }

/-- The run of `singleTimerRun` whose pass is at clock reading 4294967296. -/
def overflowExample : Runtime := singleTimerRun insertionSort 4294967297 4294967296

/-- The run of `singleTimerRun` whose pass is at clock reading 3. -/
def inFlightExample : Runtime := singleTimerRun insertionSort 4 3

/-! ## The sorting contract -/

theorem orderedInsert_perm (lt : Addr → Addr → Bool) (a : Addr) (l : List Addr) :
    (orderedInsert lt a l).Perm (a :: l) := by
  induction l with
  | nil => simp [orderedInsert]
  | cons b l ih =>
    unfold orderedInsert
    split
    · exact (List.Perm.cons b ih).trans (List.Perm.swap a b l)
    · exact List.Perm.refl _

theorem insertionSort_perm (lt : Addr → Addr → Bool) (l : List Addr) :
    (insertionSort lt l).Perm l := by
  induction l with
  | nil => simp [insertionSort]
  | cons b l ih =>
    have h : insertionSort lt (b :: l) = orderedInsert lt b (insertionSort lt l) := rfl
    rw [h]
    exact (orderedInsert_perm lt b _).trans (List.Perm.cons b ih)

theorem orderedInsert_sorted (key : Addr → Int) (a : Addr) (l : List Addr)
    (h : l.Pairwise (fun x y => key x ≤ key y)) :
    (orderedInsert (fun x y => decide (key x < key y)) a l).Pairwise
      (fun x y => key x ≤ key y) := by
  induction l with
  | nil => simp [orderedInsert]
  | cons b l ih =>
    rw [List.pairwise_cons] at h
    unfold orderedInsert
    split
    · rename_i hlt
      have hba : key b < key a := by simpa using hlt
      rw [List.pairwise_cons]
      refine ⟨?_, ih h.2⟩
      intro y hy
      have hy2 := (orderedInsert_perm _ a l).mem_iff.mp hy
      rcases List.mem_cons.mp hy2 with rfl | hy3
      · exact le_of_lt hba
      · exact h.1 y hy3
    · rename_i hlt
      have hab : key a ≤ key b := by simpa using hlt
      rw [List.pairwise_cons]
      refine ⟨?_, List.pairwise_cons.mpr h⟩
      intro y hy
      rcases List.mem_cons.mp hy with rfl | hy3
      · exact hab
      · exact le_trans hab (h.1 y hy3)

theorem insertionSort_sorted (key : Addr → Int) (l : List Addr) :
    (insertionSort (fun x y => decide (key x < key y)) l).Pairwise
      (fun x y => key x ≤ key y) := by
  induction l with
  | nil => simp [insertionSort]
  | cons b l ih => exact orderedInsert_sorted key b _ ih

theorem insertionSort_spec : StdSortSpec insertionSort :=
  ⟨fun _ l => insertionSort_perm _ l, insertionSort_sorted⟩

theorem timerCompare_eq (m : TimerManager) :
    timerCompare m = fun a b => decide ((m.deref a).next_expected < (m.deref b).next_expected) :=
  rfl

theorem sort_timers_perm {sort : SortFn} (hs : StdSortSpec sort) (m : TimerManager)
    (l : List Addr) : (sort (timerCompare m) l).Perm l := by
  rw [timerCompare_eq]
  exact hs.perm (fun a => (m.deref a).next_expected) l

/-! ## hasPending -/

theorem findTimer_none_iff (m : TimerManager) (handle : Int) :
    findTimer m handle = none ↔ ∀ a ∈ m.timers_, (m.deref a).handle ≠ handle := by
  simp [findTimer, List.find?_eq_none]

/-- C1: `hasPending(handle)` at clock reading `now`.  When `findTimer` locates
the timer `info`, the result is true exactly when (the timer has no tracked
object or its tracked object is alive) and (`next_expected <= now` or
`waiting_callbacks != 0`); when no timer in `timers_` carries the handle, the
result is false. -/
theorem hasPending_spec (live : Nat → Bool) (now : Time) (m : TimerManager) (handle : Int) :
    (∀ info, findTimer m handle = some info →
      (hasPending live now m handle = true ↔
        (((m.deref info).has_tracked_object = false ∨
            lockTracked live (m.deref info).tracked_object = true) ∧
          ((m.deref info).next_expected ≤ now ∨ (m.deref info).waiting_callbacks ≠ 0)))) ∧
    ((∀ a ∈ m.timers_, (m.deref a).handle ≠ handle) → hasPending live now m handle = false) := by
  constructor
  · intro info hfind
    unfold hasPending
    rw [hfind]
    cases htr : (m.deref info).has_tracked_object <;>
      cases hl : lockTracked live (m.deref info).tracked_object <;> simp [htr, hl]
  · intro hno
    unfold hasPending
    rw [(findTimer_none_iff m handle).mpr hno]

/-! ## Memory lemmas -/

@[simp] theorem deref_store (m : TimerManager) (p q : Addr) (v : TimerInfo) :
    (m.store p v).deref q = if q = p then v else m.deref q := by
  unfold TimerManager.store TimerManager.deref
  by_cases h : q = p <;> simp [h]

@[simp] theorem use_count_store (m : TimerManager) (p q : Addr) (v : TimerInfo) :
    ((m.store p v).heap q).use_count = (m.heap q).use_count := by
  unfold TimerManager.store
  by_cases h : q = p <;> simp [h]

@[simp] theorem timers_store (m : TimerManager) (p : Addr) (v : TimerInfo) :
    (m.store p v).timers_ = m.timers_ := rfl

@[simp] theorem added_callbacks_store (m : TimerManager) (p : Addr) (v : TimerInfo) :
    (m.store p v).added_callbacks = m.added_callbacks := rfl

@[simp] theorem next_addr_store (m : TimerManager) (p : Addr) (v : TimerInfo) :
    (m.store p v).next_addr = m.next_addr := rfl

@[simp] theorem id_counter_store (m : TimerManager) (p : Addr) (v : TimerInfo) :
    (m.store p v).id_counter_ = m.id_counter_ := rfl

theorem lock_eq_none_iff (m : TimerManager) (p : Addr) :
    m.lock p = none ↔ (m.heap p).use_count = 0 := by
  unfold TimerManager.lock
  split <;> simp_all

theorem lock_eq_some_iff (m : TimerManager) (p : Addr) (info : TimerInfo) :
    m.lock p = some info ↔ (m.heap p).use_count ≠ 0 ∧ m.deref p = info := by
  unfold TimerManager.lock TimerManager.deref
  split <;> simp_all

/-! ## TimerQueueCallback::call -/

/-- C5: `call()` returns `Success` exactly when the weak reference to the
owning `TimerInfo` upgrades, its `removed` flag is false, and it has no
tracked object or its tracked object is alive; otherwise it returns
`Invalid`.  On `Success` the owner's user callback is invoked exactly once,
on `Invalid` not at all. -/
theorem call_spec (live : Nat → Bool) (now : Time) (cb_start cb_end : WallTime)
    (m : TimerManager) (cb : TimerQueueCallback) :
    ((TimerQueueCallback.call live now cb_start cb_end m cb).result = CallResult.Success ↔
      ∃ info, m.lock cb.info_ = some info ∧ info.removed = false ∧
        (info.has_tracked_object = false ∨ lockTracked live info.tracked_object = true)) ∧
    ((TimerQueueCallback.call live now cb_start cb_end m cb).result = CallResult.Success ∨
      (TimerQueueCallback.call live now cb_start cb_end m cb).result = CallResult.Invalid) ∧
    ((TimerQueueCallback.call live now cb_start cb_end m cb).result = CallResult.Success →
      ∃ ev, (TimerQueueCallback.call live now cb_start cb_end m cb).invoked =
        [((m.deref cb.info_).callback, ev)]) ∧
    ((TimerQueueCallback.call live now cb_start cb_end m cb).result = CallResult.Invalid →
      (TimerQueueCallback.call live now cb_start cb_end m cb).invoked = []) := by
  unfold TimerQueueCallback.call
  cases hl : m.lock cb.info_ with
  | none => simp
  | some info =>
    have hd := ((lock_eq_some_iff m cb.info_ info).mp hl).2
    cases hr : info.removed <;> cases ht : info.has_tracked_object <;>
      cases hk : lockTracked live info.tracked_object <;> simp [hr, ht, hk, hd]

/-! ## Lazy removal -/

theorem findTimer_some_handle (m : TimerManager) (handle : Int) (info : Addr)
    (h : findTimer m handle = some info) : (m.deref info).handle = handle := by
  unfold findTimer at h
  have := List.find?_some h
  simpa using this

theorem remove_of_find (m : TimerManager) (handle : Int) (info : Addr)
    (h : findTimer m handle = some info) :
    remove m handle =
      TimerManager.release
        { m.store info { m.deref info with removed := true } with
          timers_ := m.timers_.eraseP (fun it => decide ((m.deref it).handle = handle)) } info := by
  unfold findTimer at h
  unfold remove
  rw [h]
  rfl

theorem remove_retired (m : TimerManager) (handle : Int) (info : Addr)
    (h : findTimer m handle = some info) : Retired (remove m handle) info := by
  rw [remove_of_find m handle info h]
  right
  simp [TimerManager.release, TimerManager.deref, TimerManager.store]

theorem call_retired (live : Nat → Bool) (now : Time) (cb_start cb_end : WallTime)
    (m : TimerManager) (cb : TimerQueueCallback) (h : Retired m cb.info_) :
    (TimerQueueCallback.call live now cb_start cb_end m cb).result = CallResult.Invalid ∧
    (TimerQueueCallback.call live now cb_start cb_end m cb).invoked = [] ∧
    (TimerQueueCallback.call live now cb_start cb_end m cb).cb.info_ = cb.info_ ∧
    Retired (TimerQueueCallback.call live now cb_start cb_end m cb).mgr cb.info_ := by
  unfold TimerQueueCallback.call
  cases hl : m.lock cb.info_ with
  | none => simp [h]
  | some info =>
    obtain ⟨hu, hd⟩ := (lock_eq_some_iff m cb.info_ info).mp hl
    have hr : info.removed = true := by
      rcases h with h | h
      · exact absurd h hu
      · rw [← hd]; exact h
    simp [hr, Retired]

theorem destroy_retired (m : TimerManager) (cb : TimerQueueCallback) (h : Retired m cb.info_) :
    Retired (TimerQueueCallback.destroy m cb) cb.info_ := by
  unfold TimerQueueCallback.destroy
  cases hl : m.lock cb.info_ with
  | none => simpa using h
  | some info =>
    obtain ⟨hu, hd⟩ := (lock_eq_some_iff m cb.info_ info).mp hl
    rcases h with h | h
    · exact absurd h hu
    · right
      rw [← hd] at *
      simpa using h

theorem drain_retired (live : Nat → Bool) (a : Addr) :
    ∀ (cbs : List (TimerQueueCallback × Time × WallTime × WallTime)) (m : TimerManager),
      Retired m a → (∀ c ∈ cbs, c.1.info_ = a) →
      (drain live m cbs).2.1 = List.replicate cbs.length CallResult.Invalid ∧
      (drain live m cbs).2.2 = [] := by
  intro cbs
  induction cbs with
  | nil => intro m _ _; simp [drain]
  | cons c cs ih =>
    intro m hm hall
    have hc : c.1.info_ = a := hall c (List.mem_cons_self _ _)
    have hm2 : Retired m c.1.info_ := by rw [hc]; exact hm
    obtain ⟨h1, h2, h3, h4⟩ := call_retired live c.2.1 c.2.2.1 c.2.2.2 m c.1 hm2
    have h5 := destroy_retired (TimerQueueCallback.call live c.2.1 c.2.2.1 c.2.2.2 m c.1).mgr
      (TimerQueueCallback.call live c.2.1 c.2.2.1 c.2.2.2 m c.1).cb (by rw [h3]; exact h4)
    rw [h3, hc] at h5
    have := ih _ h5 (fun c' hc' => hall c' (List.mem_cons_of_mem _ hc'))
    simp only [drain, h1, h2, this, List.length_cons, List.replicate_succ, List.nil_append,
      and_self]

/-- C4: lazy removal.  When `remove(handle)` has removed the timer `info`,
draining any number of callback objects that were enqueued for that timer
yields `Invalid` for each of them and no invocation of a user callback. -/
theorem remove_then_drain (live : Nat → Bool) (m : TimerManager) (handle : Int) (info : Addr)
    (cbs : List (TimerQueueCallback × Time × WallTime × WallTime))
    (hfind : findTimer m handle = some info) (hcbs : ∀ c ∈ cbs, c.1.info_ = info) :
    (drain live (remove m handle) cbs).2.1 = List.replicate cbs.length CallResult.Invalid ∧
    (drain live (remove m handle) cbs).2.2 = [] :=
  drain_retired live info cbs (remove m handle) (remove_retired m handle info hfind) hcbs

theorem remove_then_drain_witness :
    findTimer dispatchedExample 0 = some 0 ∧
    (∀ c ∈ (callbacksOf dispatchedExample 0).map (fun cb => (cb, (30 : Int), (31 : Int), (32 : Int))),
      c.1.info_ = 0) ∧
    (drain (fun _ => true) (remove dispatchedExample 0)
      ((callbacksOf dispatchedExample 0).map (fun cb => (cb, 30, 31, 32)))).2.1 =
      List.replicate
        ((callbacksOf dispatchedExample 0).map
          (fun cb => (cb, (30 : Int), (31 : Int), (32 : Int)))).length CallResult.Invalid ∧
    (drain (fun _ => true) (remove dispatchedExample 0)
      ((callbacksOf dispatchedExample 0).map (fun cb => (cb, 30, 31, 32)))).2.2 = [] :=
  ⟨by decide, by decide,
    remove_then_drain (fun _ => true) dispatchedExample 0 0 _ (by decide) (by decide)⟩

/-! ## hasPending without the tracked-object gate -/

/-- C6, as stated, fails: a timer whose tracked object has been released
has a tick due at clock reading 100, and `hasPending` is false. -/
theorem hasPending_due_but_false :
    findTimer trackedExample 0 = some 0 ∧
    (trackedExample.deref 0).next_expected ≤ 100 ∧
    hasPending (fun _ => false) 100 trackedExample 0 = false := by
  decide

/-- C6, amended: for a handle that `findTimer` locates and whose timer has no
tracked object or a tracked object that is still alive, `hasPending` is true
exactly when a tick is due (`next_expected <= now`) or a dispatch is in
flight (`waiting_callbacks > 0`). -/
theorem hasPending_iff_due_or_in_flight (live : Nat → Bool) (now : Time) (m : TimerManager)
    (handle : Int) (info : Addr) (hfind : findTimer m handle = some info)
    (htracked : (m.deref info).has_tracked_object = false ∨
      lockTracked live (m.deref info).tracked_object = true) :
    hasPending live now m handle = true ↔
      ((m.deref info).next_expected ≤ now ∨ 0 < (m.deref info).waiting_callbacks) := by
  unfold hasPending
  rw [hfind]
  rcases htracked with h | h <;> simp [h, Nat.pos_iff_ne_zero]

theorem hasPending_iff_due_or_in_flight_witness :
    findTimer trackedExample 0 = some 0 ∧
    ((trackedExample.deref 0).has_tracked_object = false ∨
      lockTracked (fun _ => true) (trackedExample.deref 0).tracked_object = true) ∧
    (hasPending (fun _ => true) 100 trackedExample 0 = true ↔
      ((trackedExample.deref 0).next_expected ≤ 100 ∨
        0 < (trackedExample.deref 0).waiting_callbacks)) :=
  ⟨by decide, by decide,
    hasPending_iff_due_or_in_flight (fun _ => true) 100 trackedExample 0 0 (by decide)
      (by decide)⟩

/-! ## remove -/

/-- C9: `remove(handle)`.  When `findTimer` locates the timer `info`, that
timer is the first in `timers_` carrying the handle; its `removed` flag
becomes true and its other fields stay; it is erased from `timers_` while the
timers before and after it keep their order; one strong reference to it is
released; every other heap cell and every other member of the manager is
unchanged.  When no timer carries the handle, the state is unchanged. -/
theorem remove_spec (m : TimerManager) (handle : Int) :
    (∀ info, findTimer m handle = some info →
      ∃ l1 l2, m.timers_ = l1 ++ info :: l2 ∧
        (∀ b ∈ l1, (m.deref b).handle ≠ handle) ∧
        (remove m handle).timers_ = l1 ++ l2 ∧
        ((remove m handle).deref info).removed = true ∧
        (remove m handle).deref info = { m.deref info with removed := true } ∧
        ((remove m handle).heap info).use_count = (m.heap info).use_count - 1 ∧
        (∀ q, q ≠ info → (remove m handle).heap q = m.heap q) ∧
        (remove m handle).next_addr = m.next_addr ∧
        (remove m handle).id_counter_ = m.id_counter_ ∧
        (remove m handle).thread_started_ = m.thread_started_ ∧
        (remove m handle).quit_ = m.quit_ ∧
        (remove m handle).added_callbacks = m.added_callbacks) ∧
    ((∀ a ∈ m.timers_, (m.deref a).handle ≠ handle) → remove m handle = m) := by
  constructor
  · intro info hfind
    have hp : (m.deref info).handle = handle := findTimer_some_handle m handle info hfind
    have hmem : info ∈ m.timers_ := List.mem_of_find?_eq_some hfind
    obtain ⟨a, l1, l2, hl1, ha, hsplit, herase⟩ :=
      List.exists_of_eraseP (p := fun it => decide ((m.deref it).handle = handle)) hmem
        (by simpa using hp)
    have hfa : findTimer m handle = some a := by
      unfold findTimer
      rw [hsplit, List.find?_append]
      have hnone : List.find? (fun it => decide ((m.deref it).handle = handle)) l1 = none := by
        rw [List.find?_eq_none]
        exact hl1
      rw [hnone]
      simp only [Option.none_or, List.find?_cons]
      rw [ha]
    have hai : a = info := by
      rw [hfind] at hfa
      exact (Option.some.inj hfa).symm
    subst hai
    rw [remove_of_find m handle a hfind]
    refine ⟨l1, l2, hsplit, ?_, ?_, ?_, ?_, ?_, ?_, rfl, rfl, rfl, rfl, rfl⟩
    · intro b hb
      simpa using hl1 b hb
    · exact herase
    · simp [TimerManager.release, TimerManager.deref, TimerManager.store]
    · simp [TimerManager.release, TimerManager.deref, TimerManager.store]
    · simp [TimerManager.release, TimerManager.store]
    · intro q hq
      simp [TimerManager.release, TimerManager.store, hq]
  · intro hno
    unfold remove
    have h := (findTimer_none_iff m handle).mpr hno
    unfold findTimer at h
    rw [h]

/-! ## Rate::sleep -/

/-- C10: `Rate::sleep()` and `WallRate::sleep()` at clock reading `now`.  The
call returns false without sleeping exactly when `now` is strictly later than
`start + expected_cycle_time`; otherwise, also when `now` equals that
deadline, it sleeps for `start + expected_cycle_time - now` and returns true. -/
theorem sleep_spec (now : Int) (r : Rate) (w : WallRate) :
    (((Rate.sleep now r).result = false ↔ r.start_ + r.expected_cycle_time_ < now) ∧
      (r.start_ + r.expected_cycle_time_ < now → (Rate.sleep now r).slept = none) ∧
      (now ≤ r.start_ + r.expected_cycle_time_ →
        (Rate.sleep now r).result = true ∧
        (Rate.sleep now r).slept = some (r.start_ + r.expected_cycle_time_ - now))) ∧
    (((WallRate.sleep now w).result = false ↔ w.start_ + w.expected_cycle_time_ < now) ∧
      (w.start_ + w.expected_cycle_time_ < now → (WallRate.sleep now w).slept = none) ∧
      (now ≤ w.start_ + w.expected_cycle_time_ →
        (WallRate.sleep now w).result = true ∧
        (WallRate.sleep now w).slept = some (w.start_ + w.expected_cycle_time_ - now))) := by
  refine ⟨?_, ?_⟩
  · unfold Rate.sleep
    by_cases h : r.start_ + r.expected_cycle_time_ - now < 0
    · have h2 : r.start_ + r.expected_cycle_time_ < now := sub_neg.mp h
      simp [h, h2]
    · have h2 : ¬ r.start_ + r.expected_cycle_time_ < now := fun h2 => h (sub_neg.mpr h2)
      have h3 : now ≤ r.start_ + r.expected_cycle_time_ := not_lt.mp h2
      simp [h, h2, h3]
  · unfold WallRate.sleep
    by_cases h : w.start_ + w.expected_cycle_time_ - now < 0
    · have h2 : w.start_ + w.expected_cycle_time_ < now := sub_neg.mp h
      simp [h, h2]
    · have h2 : ¬ w.start_ + w.expected_cycle_time_ < now := fun h2 => h (sub_neg.mpr h2)
      have h3 : now ≤ w.start_ + w.expected_cycle_time_ := not_lt.mp h2
      simp [h, h2, h3]

/-! ## add -/

theorem add_timers (sort : SortFn) (now : Time) (m : TimerManager) (period : Duration)
    (callback callback_queue : Nat) (tracked : VoidPtr) :
    ∃ m2 : TimerManager,
      (add sort now m period callback callback_queue tracked).1.timers_ =
        sort (timerCompare m2) (m.timers_ ++ [m.next_addr]) :=
  ⟨_, rfl⟩

theorem add_heap (sort : SortFn) (now : Time) (m : TimerManager) (period : Duration)
    (callback callback_queue : Nat) (tracked : VoidPtr) (q : Addr) (hq : q ≠ m.next_addr) :
    (add sort now m period callback callback_queue tracked).1.heap q = m.heap q := by
  simp [add, hq]

theorem add_handle (sort : SortFn) (now : Time) (m : TimerManager) (period : Duration)
    (callback callback_queue : Nat) (tracked : VoidPtr) :
    (add sort now m period callback callback_queue tracked).2 = toInt32 m.id_counter_ := by
  simp [add, TimerManager.deref]

theorem add_id_counter (sort : SortFn) (now : Time) (m : TimerManager) (period : Duration)
    (callback callback_queue : Nat) (tracked : VoidPtr) :
    (add sort now m period callback callback_queue tracked).1.id_counter_ =
      u32inc m.id_counter_ := rfl

/-- C7: `add(period, callback, queue, tracked)` at clock reading `now`, on a
manager whose timers all lie at allocated addresses.  The timer list becomes
a rearrangement of the old list and one new address; the new `TimerInfo` has
`last_expected = now`, `next_expected = now + period`, `removed = false`,
`waiting_callbacks = 0`, `total_calls = 0`, and `has_tracked_object` is true
exactly when `tracked` is non-null; the value returned is that timer's
handle; every heap cell other than the new one, so every timer already
present, is unchanged. -/
theorem add_spec {sort : SortFn} (hs : StdSortSpec sort) (now : Time) (m : TimerManager)
    (period : Duration) (callback callback_queue : Nat) (tracked : VoidPtr)
    (hwf : WellFormed m) :
    m.next_addr ∉ m.timers_ ∧
    (add sort now m period callback callback_queue tracked).1.timers_.Perm
      (m.timers_ ++ [m.next_addr]) ∧
    ((add sort now m period callback callback_queue tracked).1.deref m.next_addr).last_expected
      = now ∧
    ((add sort now m period callback callback_queue tracked).1.deref m.next_addr).next_expected
      = now + period ∧
    ((add sort now m period callback callback_queue tracked).1.deref m.next_addr).period
      = period ∧
    ((add sort now m period callback callback_queue tracked).1.deref m.next_addr).callback
      = callback ∧
    ((add sort now m period callback callback_queue tracked).1.deref m.next_addr).callback_queue
      = callback_queue ∧
    ((add sort now m period callback callback_queue tracked).1.deref m.next_addr).removed
      = false ∧
    ((add sort now m period callback callback_queue tracked).1.deref
      m.next_addr).waiting_callbacks = 0 ∧
    ((add sort now m period callback callback_queue tracked).1.deref m.next_addr).total_calls
      = 0 ∧
    (((add sort now m period callback callback_queue tracked).1.deref
      m.next_addr).has_tracked_object = true ↔ tracked ≠ none) ∧
    ((add sort now m period callback callback_queue tracked).1.deref m.next_addr).tracked_object
      = tracked ∧
    (add sort now m period callback callback_queue tracked).2 =
      ((add sort now m period callback callback_queue tracked).1.deref m.next_addr).handle ∧
    (∀ a ∈ m.timers_,
      (add sort now m period callback callback_queue tracked).1.heap a = m.heap a) ∧
    (∀ q, q ≠ m.next_addr →
      (add sort now m period callback callback_queue tracked).1.heap q = m.heap q) := by
  have hfresh : m.next_addr ∉ m.timers_ := fun h => Nat.lt_irrefl _ (hwf.1 _ h)
  obtain ⟨m2, hm2⟩ := add_timers sort now m period callback callback_queue tracked
  refine ⟨hfresh, ?_, ?_, ?_, ?_, ?_, ?_, ?_, ?_, ?_, ?_, ?_, ?_, ?_, ?_⟩
  · rw [hm2]
    exact sort_timers_perm hs m2 _
  · cases tracked <;> simp [add, TimerManager.deref]
  · cases tracked <;> simp [add, TimerManager.deref]
  · cases tracked <;> simp [add, TimerManager.deref]
  · cases tracked <;> simp [add, TimerManager.deref]
  · cases tracked <;> simp [add, TimerManager.deref]
  · cases tracked <;> simp [add, TimerManager.deref]
  · cases tracked <;> simp [add, TimerManager.deref]
  · cases tracked <;> simp [add, TimerManager.deref]
  · cases tracked <;> simp [add, TimerManager.deref]
  · cases tracked <;> simp [add, TimerManager.deref]
  · simp [add, TimerManager.deref]
  · intro a ha
    exact add_heap sort now m period callback callback_queue tracked a
      (fun h => hfresh (h ▸ ha))
  · intro q hq
    exact add_heap sort now m period callback callback_queue tracked q hq

theorem wellFormed_trackedExample : WellFormed trackedExample := by
  unfold WellFormed
  decide

theorem add_spec_witness :
    WellFormed trackedExample ∧
    trackedExample.next_addr ∉ trackedExample.timers_ ∧
    (add insertionSort 5 trackedExample 3 8 9 none).1.timers_.Perm
      (trackedExample.timers_ ++ [trackedExample.next_addr]) ∧
    ((add insertionSort 5 trackedExample 3 8 9 none).1.deref
      trackedExample.next_addr).next_expected = 5 + 3 :=
  ⟨wellFormed_trackedExample,
    (add_spec insertionSort_spec 5 trackedExample 3 8 9 none wellFormed_trackedExample).1,
    (add_spec insertionSort_spec 5 trackedExample 3 8 9 none wellFormed_trackedExample).2.1,
    (add_spec insertionSort_spec 5 trackedExample 3 8 9 none
      wellFormed_trackedExample).2.2.2.1⟩

/-! ## Handle allocation -/

theorem toInt32_mod (n : Nat) : toInt32 (n % 2 ^ 32) = toInt32 n := by
  unfold toInt32
  rw [Nat.mod_mod]

theorem toInt32_u32inc_add (c i : Nat) : toInt32 (u32inc c + i) = toInt32 (c + (i + 1)) := by
  rw [← toInt32_mod (u32inc c + i), ← toInt32_mod (c + (i + 1))]
  congr 1
  unfold u32inc
  omega

theorem addMany_length (sort : SortFn) :
    ∀ (calls : List (Time × Duration × Nat × Nat × VoidPtr)) (m : TimerManager),
      (addMany sort m calls).length = calls.length := by
  intro calls
  induction calls with
  | nil => intro m; rfl
  | cons c cs ih => intro m; simp [addMany, ih]

theorem addMany_getElem? (sort : SortFn) :
    ∀ (calls : List (Time × Duration × Nat × Nat × VoidPtr)) (m : TimerManager) (i : Nat),
      i < calls.length → (addMany sort m calls)[i]? = some (toInt32 (m.id_counter_ + i)) := by
  intro calls
  induction calls with
  | nil => intro m i hi; simp at hi
  | cons c cs ih =>
    intro m i hi
    cases i with
    | zero => simp [addMany, add_handle]
    | succ j =>
      have hj : j < cs.length := by simpa using hi
      simp only [addMany, List.getElem?_cons_succ]
      rw [ih _ j hj, add_id_counter, toInt32_u32inc_add]

/-- C8, as stated, fails: in a run of 2147483649 `add` calls on a new
manager the first call returns handle 0 and the last returns -2147483648, so
a later handle is smaller than an earlier one. -/
theorem handle_wraps_negative :
    (addMany insertionSort TimerManager.new
      (List.replicate 2147483649 (0, 1, 0, 0, none)))[0]? = some 0 ∧
    (addMany insertionSort TimerManager.new
      (List.replicate 2147483649 (0, 1, 0, 0, none)))[2147483648]? = some (-2147483648) := by
  constructor
  · rw [addMany_getElem? insertionSort _ _ 0 (by rw [List.length_replicate]; decide)]
    decide
  · rw [addMany_getElem? insertionSort _ _ 2147483648 (by rw [List.length_replicate]; decide)]
    decide

theorem toInt32_of_lt (i : Nat) (hi : i < 2 ^ 31) : toInt32 i = (i : Int) := by
  unfold toInt32
  have h1 : i % 2 ^ 32 = i := Nat.mod_eq_of_lt (by omega)
  rw [h1, if_pos hi]

theorem toInt32_injOn (i j : Nat) (hi : i < 2 ^ 32) (hj : j < 2 ^ 32)
    (h : toInt32 i = toInt32 j) : i = j := by
  unfold toInt32 at h
  rw [Nat.mod_eq_of_lt hi, Nat.mod_eq_of_lt hj] at h
  split_ifs at h <;> omega

/-- C8, amended: in every run of at most 2^32 `add` calls on a new manager no
two calls return the same handle; and when the run has at most 2^31 calls,
call number `i` (counting from 0) returns the handle `i`, so each handle is
strictly greater than every handle returned earlier. -/
theorem handles_increasing (sort : SortFn)
    (calls : List (Time × Duration × Nat × Nat × VoidPtr)) (hlen : calls.length ≤ 2 ^ 32) :
    (addMany sort TimerManager.new calls).Nodup ∧
    (calls.length ≤ 2 ^ 31 →
      (∀ i, i < calls.length → (addMany sort TimerManager.new calls)[i]? = some (i : Int)) ∧
      (addMany sort TimerManager.new calls).Pairwise (fun a b => a < b)) := by
  have hget : ∀ i, i < calls.length →
      (addMany sort TimerManager.new calls)[i]? = some (toInt32 i) := by
    intro i hi
    have h := addMany_getElem? sort calls TimerManager.new i hi
    have h0 : TimerManager.new.id_counter_ = 0 := rfl
    rw [h0, Nat.zero_add] at h
    exact h
  constructor
  · unfold List.Nodup
    rw [List.pairwise_iff_getElem]
    intro i j hi hj hij
    rw [addMany_length] at hi hj
    have hi2 := hget i hi
    have hj2 := hget j hj
    rw [List.getElem?_eq_getElem (by rw [addMany_length]; exact hi)] at hi2
    rw [List.getElem?_eq_getElem (by rw [addMany_length]; exact hj)] at hj2
    rw [Option.some.inj hi2, Option.some.inj hj2]
    intro heq
    have := toInt32_injOn i j (by omega) (by omega) heq
    omega
  · intro hlen2
    constructor
    · intro i hi
      rw [hget i hi, toInt32_of_lt i (by omega)]
    · rw [List.pairwise_iff_getElem]
      intro i j hi hj hij
      rw [addMany_length] at hi hj
      have hi2 := hget i hi
      have hj2 := hget j hj
      rw [List.getElem?_eq_getElem (by rw [addMany_length]; exact hi)] at hi2
      rw [List.getElem?_eq_getElem (by rw [addMany_length]; exact hj)] at hj2
      rw [Option.some.inj hi2, Option.some.inj hj2, toInt32_of_lt i (by omega),
        toInt32_of_lt j (by omega)]
      exact_mod_cast hij

theorem handles_increasing_witness :
    [((0 : Int), (1 : Int), 0, 0, (none : VoidPtr)), (0, 1, 0, 0, none),
      (0, 1, 0, 0, none)].length ≤ 2 ^ 32 ∧
    (addMany insertionSort TimerManager.new
      [(0, 1, 0, 0, none), (0, 1, 0, 0, none), (0, 1, 0, 0, none)]).Nodup :=
  ⟨by decide, (handles_increasing insertionSort _ (by decide)).1⟩

/-! ## The dispatcher loop -/

theorem dispatch_added_callbacks (sort : SortFn) (m : TimerManager) (info : Addr) :
    (threadFuncDispatch sort m info).added_callbacks =
      m.added_callbacks ++
        [((m.deref info).callback_queue,
          { info_ := info
            last_expected_ := (m.deref info).last_expected
            last_real_ := (m.deref info).last_real
            current_expected_ := (m.deref info).next_expected
            called_ := false })] := by
  simp [threadFuncDispatch, TimerQueueCallback.create, TimerManager.store, TimerManager.deref]

theorem dispatch_deref_self (sort : SortFn) (m : TimerManager) (info : Addr) :
    (threadFuncDispatch sort m info).deref info =
      { m.deref info with
        waiting_callbacks := u32inc (m.deref info).waiting_callbacks
        last_expected := (m.deref info).next_expected
        next_expected := (m.deref info).next_expected + (m.deref info).period } := by
  simp [threadFuncDispatch, TimerQueueCallback.create, TimerManager.store, TimerManager.deref]

theorem dispatch_heap_other (sort : SortFn) (m : TimerManager) (info q : Addr) (hq : q ≠ info) :
    (threadFuncDispatch sort m info).heap q = m.heap q := by
  simp [threadFuncDispatch, TimerQueueCallback.create, TimerManager.store, TimerManager.deref, hq]

theorem dispatch_next_addr (sort : SortFn) (m : TimerManager) (info : Addr) :
    (threadFuncDispatch sort m info).next_addr = m.next_addr := rfl

theorem dispatch_timers (sort : SortFn) (m : TimerManager) (info : Addr) :
    ∃ m3 : TimerManager,
      (threadFuncDispatch sort m info).timers_ = sort (timerCompare m3) m.timers_ :=
  ⟨_, rfl⟩

theorem dispatch_timers_perm {sort : SortFn} (hs : StdSortSpec sort) (m : TimerManager)
    (info : Addr) : (threadFuncDispatch sort m info).timers_.Perm m.timers_ := by
  obtain ⟨m3, h⟩ := dispatch_timers sort m info
  rw [h]
  exact sort_timers_perm hs m3 _

theorem body_single {sort : SortFn} (hs : StdSortSpec sort) (m : TimerManager) (a : Addr)
    (h : m.timers_ = [a]) :
    threadFuncBody sort m a = some (threadFuncDispatch sort m a, a) := by
  have hp := dispatch_timers_perm hs m a
  rw [h, List.perm_singleton] at hp
  unfold threadFuncBody
  rw [hp]

theorem loop_single {sort : SortFn} (hs : StdSortSpec sort) (a : Addr) (p now : Int)
    (hp : 0 < p) :
    ∀ (n : Nat) (m : TimerManager) (fuel : Nat), m.timers_ = [a] → (m.deref a).period = p →
      (m.deref a).next_expected = (m.deref a).last_expected + p →
      (m.deref a).last_expected + n * p ≤ now →
      now < (m.deref a).last_expected + (n + 1) * p → n < fuel →
      ∃ m', threadFuncLoop sort fuel (fun _ => now) m a = some (m', a) ∧
        m'.added_callbacks = m.added_callbacks ++
          (List.range n).map (fun k : Nat =>
            ((m.deref a).callback_queue,
              ({ info_ := a
                 last_expected_ := (m.deref a).last_expected + k * p
                 last_real_ := (m.deref a).last_real
                 current_expected_ := (m.deref a).last_expected + (k + 1) * p
                 called_ := false } : TimerQueueCallback))) ∧
        (m'.deref a).next_expected = (m.deref a).last_expected + (n + 1) * p := by
  intro n
  induction n with
  | zero =>
    intro m fuel _ _ hnext _ hlt hfuel
    obtain ⟨f, rfl⟩ : ∃ f, fuel = f + 1 := ⟨fuel - 1, by omega⟩
    refine ⟨m, ?_, ?_, ?_⟩
    · unfold threadFuncLoop
      have : ¬ (m.deref a).next_expected ≤ now := by
        rw [hnext]; simp at hlt; linarith
      simp [this]
    · simp
    · rw [hnext]; simp
  | succ n ih =>
    intro m fuel htim hper hnext hle hlt hfuel
    obtain ⟨f, rfl⟩ : ∃ f, fuel = f + 1 := ⟨fuel - 1, by omega⟩
    have hn0 : (0 : Int) ≤ (n : Int) := Int.natCast_nonneg n
    have hdue : (m.deref a).next_expected ≤ now := by
      rw [hnext]
      push_cast at hle
      nlinarith
    have hd := dispatch_deref_self sort m a
    have htim' : (threadFuncDispatch sort m a).timers_ = [a] := by
      have hp2 := dispatch_timers_perm hs m a
      rw [htim, List.perm_singleton] at hp2
      exact hp2
    have hper' : ((threadFuncDispatch sort m a).deref a).period = p := by rw [hd]; exact hper
    have hlast' : ((threadFuncDispatch sort m a).deref a).last_expected =
        (m.deref a).last_expected + p := by rw [hd]; exact hnext
    have hnext' : ((threadFuncDispatch sort m a).deref a).next_expected =
        ((threadFuncDispatch sort m a).deref a).last_expected + p := by
      rw [hlast', hd]; simp only; rw [hnext, hper]
    obtain ⟨m', hloop, hlog, hfin⟩ := ih (threadFuncDispatch sort m a) f htim' hper' hnext'
      (by rw [hlast']; push_cast at hle; linarith)
      (by rw [hlast']; push_cast at hlt; linarith) (by omega)
    refine ⟨m', ?_, ?_, ?_⟩
    · unfold threadFuncLoop
      simp only [hdue, if_true, body_single hs m a htim]
      exact hloop
    · rw [hlog, dispatch_added_callbacks, List.range_succ_eq_map, List.map_cons, List.map_map,
        List.append_assoc, List.singleton_append]
      have hq : ((threadFuncDispatch sort m a).deref a).callback_queue =
          (m.deref a).callback_queue := by rw [hd]
      have hr : ((threadFuncDispatch sort m a).deref a).last_real = (m.deref a).last_real := by
        rw [hd]
      rw [hq, hr, hlast', hnext]
      congr 1
      congr 1
      · simp
      · apply List.map_congr_left
        intro k _
        simp only [Function.comp, Nat.succ_eq_add_one]
        push_cast
        congr 2 <;> ring
    · rw [hfin, hlast']
      push_cast
      ring

/-! ## Catch-up -/

/-- C2: catch-up.  A timer of period `p > 0` is added at clock reading `t0`
to a manager without timers, and the first dispatcher pass runs at the
constant clock reading `t0 + d` with `d >= 3p`.  With enough fuel the pass
returns; it appends to the log exactly `floor(d/p)` callbacks, all on the
timer's queue and for that timer, the one number `k` (from 0) with
`last_expected = t0 + k*p` and `current_expected = t0 + (k+1)*p`, so in
strictly increasing order of `current_expected`; and the pass sets
`sleep_end` to `t0 + (floor(d/p) + 1) * p`. -/
theorem catch_up {sort : SortFn} (hs : StdSortSpec sort) (m : TimerManager) (t0 p d : Int)
    (callback callback_queue : Nat) (tracked : VoidPtr) (fuel : Nat)
    (hm : m.timers_ = []) (hp : 0 < p) (hd : 3 * p ≤ d) (hfuel : (d / p).toNat < fuel) :
    ∃ (r : TimerManager × Time) (enqueued : List (Nat × TimerQueueCallback)),
      threadFuncPass sort fuel (fun _ => t0 + d)
        (add sort t0 m p callback callback_queue tracked).1 = some r ∧
      r.1.added_callbacks = m.added_callbacks ++ enqueued ∧
      (enqueued.length : Int) = d / p ∧
      enqueued = (List.range (d / p).toNat).map (fun k : Nat =>
        (callback_queue,
          ({ info_ := m.next_addr
             last_expected_ := t0 + k * p
             last_real_ := 0
             current_expected_ := t0 + (k + 1) * p
             called_ := false } : TimerQueueCallback))) ∧
      (enqueued.map (fun c => c.2.current_expected_)).Pairwise (fun x y => x < y) ∧
      r.2 = t0 + (d / p + 1) * p := by
  have hdp : 0 ≤ d / p := Int.ediv_nonneg (by linarith) (le_of_lt hp)
  have hn : ((d / p).toNat : Int) = d / p := Int.toNat_of_nonneg hdp
  obtain ⟨m2, hm2⟩ := add_timers sort t0 m p callback callback_queue tracked
  have htim : (add sort t0 m p callback callback_queue tracked).1.timers_ = [m.next_addr] := by
    have hperm := sort_timers_perm hs m2 (m.timers_ ++ [m.next_addr])
    rw [← hm2, hm, List.nil_append, List.perm_singleton] at hperm
    exact hperm
  have hper : ((add sort t0 m p callback callback_queue tracked).1.deref m.next_addr).period
      = p := by cases tracked <;> simp [add, TimerManager.deref]
  have hlast : ((add sort t0 m p callback callback_queue tracked).1.deref
      m.next_addr).last_expected = t0 := by cases tracked <;> simp [add, TimerManager.deref]
  have hnext : ((add sort t0 m p callback callback_queue tracked).1.deref
      m.next_addr).next_expected = t0 + p := by cases tracked <;> simp [add, TimerManager.deref]
  have hq : ((add sort t0 m p callback callback_queue tracked).1.deref
      m.next_addr).callback_queue = callback_queue := by
    cases tracked <;> simp [add, TimerManager.deref]
  have hreal : ((add sort t0 m p callback callback_queue tracked).1.deref
      m.next_addr).last_real = 0 := by cases tracked <;> simp [add, TimerManager.deref]
  have hlog : (add sort t0 m p callback callback_queue tracked).1.added_callbacks
      = m.added_callbacks := rfl
  obtain ⟨m', hloop, hcbs, hfin⟩ := loop_single hs m.next_addr p (t0 + d) hp (d / p).toNat
    (add sort t0 m p callback callback_queue tracked).1 fuel htim hper
    (by rw [hnext, hlast])
    (by rw [hlast, hn]; have := Int.ediv_mul_le d (ne_of_gt hp); linarith)
    (by rw [hlast, hn]; have := Int.lt_ediv_add_one_mul_self d hp; linarith)
    hfuel
  rw [hlast, hq, hreal, hlog] at hcbs
  rw [hlast, hn] at hfin
  refine ⟨(m', (m'.deref m.next_addr).next_expected), _, ?_, hcbs, ?_, rfl, ?_, hfin⟩
  · unfold threadFuncPass
    rw [htim]
    simp only [hloop]
  · rw [List.length_map, List.length_range, hn]
  · rw [List.map_map, List.pairwise_map]
    refine List.Pairwise.imp ?_ (List.pairwise_lt_range _)
    intro i j hij
    have hij2 : (i : Int) < (j : Int) := by exact_mod_cast hij
    simp only [Function.comp]
    nlinarith

theorem catch_up_witness :
    TimerManager.new.timers_ = [] ∧ (0 : Int) < 10 ∧ (3 : Int) * 10 ≤ 35 ∧
    ((35 : Int) / 10).toNat < 4 ∧
    ∃ (r : TimerManager × Time) (enqueued : List (Nat × TimerQueueCallback)),
      threadFuncPass insertionSort 4 (fun _ => 100 + 35)
        (add insertionSort 100 TimerManager.new 10 4 3 none).1 = some r ∧
      r.1.added_callbacks = TimerManager.new.added_callbacks ++ enqueued ∧
      (enqueued.length : Int) = 35 / 10 ∧
      enqueued = (List.range ((35 : Int) / 10).toNat).map (fun k : Nat =>
        (3,
          ({ info_ := TimerManager.new.next_addr
             last_expected_ := 100 + k * 10
             last_real_ := 0
             current_expected_ := 100 + (k + 1) * 10
             called_ := false } : TimerQueueCallback))) ∧
      (enqueued.map (fun c => c.2.current_expected_)).Pairwise (fun x y => x < y) ∧
      r.2 = 100 + (35 / 10 + 1) * 10 :=
  ⟨rfl, by decide, by decide, by decide,
    catch_up insertionSort_spec TimerManager.new 100 10 35 4 3 none 4 rfl (by decide)
      (by decide) (by decide)⟩

/-! ## Drift -/

theorem remove_frame (m : TimerManager) (handle : Int) :
    (remove m handle).added_callbacks = m.added_callbacks ∧
    (remove m handle).next_addr = m.next_addr ∧
    (∀ a, a ∈ (remove m handle).timers_ → a ∈ m.timers_) ∧
    (∀ q, ((remove m handle).deref q).period = (m.deref q).period ∧
      ((remove m handle).deref q).last_expected = (m.deref q).last_expected ∧
      ((remove m handle).deref q).next_expected = (m.deref q).next_expected) := by
  unfold remove
  cases hf : m.timers_.find? (fun it => decide ((m.deref it).handle = handle)) with
  | none => simp
  | some info =>
    refine ⟨rfl, rfl, ?_, ?_⟩
    · intro a ha
      exact List.mem_of_mem_eraseP ha
    · intro q
      by_cases hq : q = info <;>
        simp [TimerManager.release, TimerManager.store, TimerManager.deref, hq]

theorem call_frame (live : Nat → Bool) (now : Time) (cb_start cb_end : WallTime)
    (m : TimerManager) (cb : TimerQueueCallback) :
    (TimerQueueCallback.call live now cb_start cb_end m cb).mgr.added_callbacks =
      m.added_callbacks ∧
    (TimerQueueCallback.call live now cb_start cb_end m cb).mgr.next_addr = m.next_addr ∧
    (TimerQueueCallback.call live now cb_start cb_end m cb).mgr.timers_ = m.timers_ ∧
    (∀ q, ((TimerQueueCallback.call live now cb_start cb_end m cb).mgr.deref q).period =
        (m.deref q).period ∧
      ((TimerQueueCallback.call live now cb_start cb_end m cb).mgr.deref q).last_expected =
        (m.deref q).last_expected ∧
      ((TimerQueueCallback.call live now cb_start cb_end m cb).mgr.deref q).next_expected =
        (m.deref q).next_expected) := by
  unfold TimerQueueCallback.call
  cases hl : m.lock cb.info_ with
  | none => simp
  | some info =>
    have hd := ((lock_eq_some_iff m cb.info_ info).mp hl).2
    subst hd
    simp only
    split_ifs <;> refine ⟨rfl, rfl, rfl, ?_⟩ <;> intro q <;>
      by_cases hq : q = cb.info_ <;> simp [hq]

theorem destroy_frame (m : TimerManager) (cb : TimerQueueCallback) :
    (TimerQueueCallback.destroy m cb).added_callbacks = m.added_callbacks ∧
    (TimerQueueCallback.destroy m cb).next_addr = m.next_addr ∧
    (TimerQueueCallback.destroy m cb).timers_ = m.timers_ ∧
    (∀ q, ((TimerQueueCallback.destroy m cb).deref q).period = (m.deref q).period ∧
      ((TimerQueueCallback.destroy m cb).deref q).last_expected = (m.deref q).last_expected ∧
      ((TimerQueueCallback.destroy m cb).deref q).next_expected =
        (m.deref q).next_expected) := by
  unfold TimerQueueCallback.destroy
  cases hl : m.lock cb.info_ with
  | none => simp
  | some info =>
    have hd := ((lock_eq_some_iff m cb.info_ info).mp hl).2
    subst hd
    refine ⟨rfl, rfl, rfl, ?_⟩
    intro q
    by_cases hq : q = cb.info_ <;> simp [hq]

theorem driftInv_of_frame (a : Addr) (start p : Int) (m m' : TimerManager)
    (hlog : m'.added_callbacks = m.added_callbacks) (haddr : m.next_addr ≤ m'.next_addr)
    (htim : a ∈ m'.timers_ → a ∈ m.timers_)
    (hsched : (m'.deref a).period = (m.deref a).period ∧
      (m'.deref a).last_expected = (m.deref a).last_expected ∧
      (m'.deref a).next_expected = (m.deref a).next_expected)
    (h : DriftInv a start p m) : DriftInv a start p m' := by
  obtain ⟨h1, h2, h3⟩ := h
  have hc : callbacksOf m' a = callbacksOf m a := by unfold callbacksOf; rw [hlog]
  refine ⟨lt_of_lt_of_le h1 haddr, ?_, ?_⟩
  · rw [hc]; exact h2
  · intro ha
    rw [hc, hsched.1, hsched.2.1, hsched.2.2]
    exact h3 (htim ha)

theorem callbacksOf_dispatch (sort : SortFn) (m : TimerManager) (info a : Addr) :
    callbacksOf (threadFuncDispatch sort m info) a =
      callbacksOf m a ++
        (if info = a then
          [{ info_ := info
             last_expected_ := (m.deref info).last_expected
             last_real_ := (m.deref info).last_real
             current_expected_ := (m.deref info).next_expected
             called_ := false }]
        else []) := by
  unfold callbacksOf
  rw [dispatch_added_callbacks, List.map_append, List.filter_append]
  congr 1
  by_cases h : info = a <;> simp [h]

theorem dispatch_driftInv {sort : SortFn} (hs : StdSortSpec sort) (a : Addr) (start p : Int)
    (m : TimerManager) (info : Addr) (rest : List Addr) (hfront : m.timers_ = info :: rest)
    (h : DriftInv a start p m) : DriftInv a start p (threadFuncDispatch sort m info) := by
  obtain ⟨h1, h2, h3⟩ := h
  have hmem : ∀ x, x ∈ (threadFuncDispatch sort m info).timers_ ↔ x ∈ m.timers_ :=
    fun x => (dispatch_timers_perm hs m info).mem_iff
  by_cases hia : info = a
  · subst hia
    have hin : info ∈ m.timers_ := by rw [hfront]; exact List.mem_cons_self _ _
    obtain ⟨hper, hlast, hnext⟩ := h3 hin
    have hc := callbacksOf_dispatch sort m info info
    rw [if_pos rfl] at hc
    refine ⟨h1, ?_, ?_⟩
    · intro k c hk
      rw [hc] at hk
      by_cases hlt : k < (callbacksOf m info).length
      · rw [List.getElem?_append_left hlt] at hk
        exact h2 k c hk
      · have hge : (callbacksOf m info).length ≤ k := Nat.le_of_not_lt hlt
        rw [List.getElem?_append_right hge] at hk
        have hk0 : k - (callbacksOf m info).length = 0 := by
          by_contra hne
          obtain ⟨j, hj⟩ : ∃ j, k - (callbacksOf m info).length = j + 1 :=
            ⟨k - (callbacksOf m info).length - 1, by omega⟩
          rw [hj] at hk
          simp at hk
        rw [hk0] at hk
        have hkeq : k = (callbacksOf m info).length := by omega
        have hcv := Option.some.inj hk
        subst hcv
        rw [hkeq]
        exact ⟨hnext, hlast⟩
    · intro _
      rw [hc, dispatch_deref_self]
      simp only [List.length_append, List.length_singleton]
      refine ⟨hper, ?_, ?_⟩
      · rw [hnext]; push_cast; ring
      · rw [hnext, hper]; push_cast; ring
  · have hc := callbacksOf_dispatch sort m info a
    rw [if_neg hia, List.append_nil] at hc
    have hheap := dispatch_heap_other sort m info a (fun h => hia h.symm)
    have hd : (threadFuncDispatch sort m info).deref a = m.deref a := by
      unfold TimerManager.deref; rw [hheap]
    refine ⟨h1, ?_, ?_⟩
    · rw [hc]; exact h2
    · intro ha
      rw [hc, hd]
      exact h3 ((hmem a).mp ha)

theorem add_driftInv {sort : SortFn} (hs : StdSortSpec sort) (a : Addr) (start p : Int)
    (m : TimerManager) (now : Time) (period : Duration) (callback callback_queue : Nat)
    (tracked : VoidPtr) (h : DriftInv a start p m) :
    DriftInv a start p (add sort now m period callback callback_queue tracked).1 := by
  have hne : a ≠ m.next_addr := Nat.ne_of_lt h.1
  have hheap := add_heap sort now m period callback callback_queue tracked a hne
  obtain ⟨m2, hm2⟩ := add_timers sort now m period callback callback_queue tracked
  apply driftInv_of_frame a start p m (add sort now m period callback callback_queue tracked).1
    rfl (Nat.le_succ _) _ _ h
  · intro ha
    rw [hm2] at ha
    have := (sort_timers_perm hs m2 _).mem_iff.mp ha
    rcases List.mem_append.mp this with h1 | h1
    · exact h1
    · exact absurd (List.mem_singleton.mp h1) hne
  · unfold TimerManager.deref
    rw [hheap]
    exact ⟨rfl, rfl, rfl⟩

theorem step_driftInv {sort : SortFn} (hs : StdSortSpec sort) (a : Addr) (start p : Int)
    (m m' : TimerManager) (hstep : Step sort m m') (h : DriftInv a start p m) :
    DriftInv a start p m' := by
  cases hstep with
  | add now period callback callback_queue tracked =>
    exact add_driftInv hs a start p m now period callback callback_queue tracked h
  | remove handle =>
    obtain ⟨f1, f2, f3, f4⟩ := remove_frame m handle
    exact driftInv_of_frame a start p m _ f1 (le_of_eq f2.symm) (f3 a) (f4 a) h
  | dispatch now info rest r hfront _ hbody =>
    have hr : r.1 = threadFuncDispatch sort m info := by
      unfold threadFuncBody at hbody
      split at hbody
      · exact absurd hbody (by simp)
      · rw [← Option.some.inj hbody]
    rw [hr]
    exact dispatch_driftInv hs a start p m info rest hfront h
  | call live now cb_start cb_end q cb _ =>
    obtain ⟨f1, f2, f3, f4⟩ := call_frame live now cb_start cb_end m cb
    exact driftInv_of_frame a start p m _ f1 (le_of_eq f2.symm) (fun ha => f3 ▸ ha) (f4 a) h
  | destroy q cb _ =>
    obtain ⟨f1, f2, f3, f4⟩ := destroy_frame m cb
    exact driftInv_of_frame a start p m _ f1 (le_of_eq f2.symm) (fun ha => f3 ▸ ha) (f4 a) h

theorem reachable_driftInv {sort : SortFn} (hs : StdSortSpec sort) (a : Addr) (start p : Int)
    (m m' : TimerManager) (hreach : Reachable sort m m') (h : DriftInv a start p m) :
    DriftInv a start p m' := by
  induction hreach with
  | refl => exact h
  | tail _ hstep ih => exact step_driftInv hs a start p _ _ hstep ih

theorem add_establishes_driftInv (sort : SortFn) (m : TimerManager)
    (hwf : WellFormed m) (start p : Int) (callback callback_queue : Nat) (tracked : VoidPtr) :
    DriftInv m.next_addr start p (add sort start m p callback callback_queue tracked).1 := by
  have hc : callbacksOf (add sort start m p callback callback_queue tracked).1 m.next_addr
      = [] := by
    have hlog : (add sort start m p callback callback_queue tracked).1.added_callbacks
        = m.added_callbacks := rfl
    unfold callbacksOf
    rw [hlog, List.filter_eq_nil_iff]
    intro cb hcb
    obtain ⟨c, hc1, hc2⟩ := List.mem_map.mp hcb
    have := hwf.2 c hc1
    rw [hc2] at this
    simpa using Nat.ne_of_lt this
  refine ⟨Nat.lt_succ_self _, ?_, ?_⟩
  · intro k c hk
    rw [hc] at hk
    simp at hk
  · intro _
    rw [hc]
    cases tracked <;> simp [add, TimerManager.deref]

/-- C3: drift bound.  A timer of period `p` is added at clock reading `start`
to a manager `m0` in which every held address is allocated.  In every state
reachable afterwards by `add`, `remove`, dispatcher iterations at arbitrary
clock readings, `call()` and callback destruction, the `k`-th callback
(`k >= 1`) ever enqueued for that timer has `current_expected = start + k*p`
and `last_expected = start + (k-1)*p`. -/
theorem drift_bound {sort : SortFn} (hs : StdSortSpec sort) (m0 : TimerManager)
    (hwf : WellFormed m0) (start p : Int) (callback callback_queue : Nat) (tracked : VoidPtr)
    (m : TimerManager)
    (hreach : Reachable sort (add sort start m0 p callback callback_queue tracked).1 m)
    (k : Nat) (c : TimerQueueCallback) (hk : 1 ≤ k)
    (hc : (callbacksOf m m0.next_addr)[k - 1]? = some c) :
    c.current_expected_ = start + (k : Int) * p ∧
    c.last_expected_ = start + ((k : Int) - 1) * p := by
  have hinv := reachable_driftInv hs m0.next_addr start p _ m hreach
    (add_establishes_driftInv sort m0 hwf start p callback callback_queue tracked)
  have h := hinv.2.1 (k - 1) c hc
  have hcast : ((k - 1 : Nat) : Int) = (k : Int) - 1 := by omega
  rw [hcast] at h
  constructor
  · rw [h.1]; ring
  · rw [h.2]

/-! ## Dispatcher passes are sequences of steps -/

theorem body_front (sort : SortFn) (m : TimerManager) (info : Addr) (r : TimerManager × Addr)
    (h : threadFuncBody sort m info = some r) :
    r.1 = threadFuncDispatch sort m info ∧ ∃ tl, r.1.timers_ = r.2 :: tl := by
  unfold threadFuncBody at h
  split at h
  · exact absurd h (by simp)
  · rename_i front tl heq
    have hr := Option.some.inj h
    subst hr
    exact ⟨rfl, tl, heq⟩

theorem loop_reachable (sort : SortFn) :
    ∀ (fuel : Nat) (clock : Nat → Time) (m : TimerManager) (info : Addr) (rest : List Addr)
      (r : TimerManager × Addr), m.timers_ = info :: rest →
      threadFuncLoop sort fuel clock m info = some r → Reachable sort m r.1 := by
  intro fuel
  induction fuel with
  | zero =>
    intro clock m info rest r _ h
    simp [threadFuncLoop] at h
  | succ f ih =>
    intro clock m info rest r hfront h
    unfold threadFuncLoop at h
    by_cases hg : (m.deref info).next_expected ≤ clock 0
    · rw [if_pos hg] at h
      cases hb : threadFuncBody sort m info with
      | none => rw [hb] at h; simp at h
      | some r1 =>
        rw [hb] at h
        obtain ⟨_, tl, htl⟩ := body_front sort m info r1 hb
        have hstep : Step sort m r1.1 := Step.dispatch m (clock 0) info rest r1 hfront hg hb
        exact Relation.ReflTransGen.head hstep (ih _ r1.1 r1.2 tl r htl h)
    · rw [if_neg hg] at h
      rw [← Option.some.inj h]
      exact Relation.ReflTransGen.refl

theorem afterPass_reachable (sort : SortFn) (fuel : Nat) (clock : Nat → Time)
    (m : TimerManager) : Reachable sort m (afterPass sort fuel clock m) := by
  unfold afterPass threadFuncPass
  cases ht : m.timers_ with
  | nil => exact Relation.ReflTransGen.refl
  | cons info rest =>
    cases hl : threadFuncLoop sort fuel clock m info with
    | none => simp only [hl]; exact Relation.ReflTransGen.refl
    | some r => simp only [hl]; exact loop_reachable sort fuel clock m info rest r ht hl

/-! ## Allocated addresses -/

theorem wellFormed_new : WellFormed TimerManager.new := by
  unfold WellFormed
  decide

theorem step_wellFormed {sort : SortFn} (hs : StdSortSpec sort) (m m' : TimerManager)
    (hstep : Step sort m m') (h : WellFormed m) : WellFormed m' := by
  obtain ⟨h1, h2⟩ := h
  cases hstep with
  | add now period callback callback_queue tracked =>
    obtain ⟨m2, hm2⟩ := add_timers sort now m period callback callback_queue tracked
    constructor
    · intro a ha
      rw [hm2] at ha
      have hmem := (sort_timers_perm hs m2 _).mem_iff.mp ha
      have hna : (add sort now m period callback callback_queue tracked).1.next_addr
          = m.next_addr + 1 := rfl
      rw [hna]
      rcases List.mem_append.mp hmem with h3 | h3
      · exact Nat.lt_succ_of_lt (h1 a h3)
      · rw [List.mem_singleton.mp h3]; exact Nat.lt_succ_self _
    · intro c hc
      exact Nat.lt_succ_of_lt (h2 c hc)
  | remove handle =>
    obtain ⟨f1, f2, f3, _⟩ := remove_frame m handle
    constructor
    · intro a ha; rw [f2]; exact h1 a (f3 a ha)
    · intro c hc; rw [f1] at hc; rw [f2]; exact h2 c hc
  | dispatch now info rest r hfront _ hbody =>
    obtain ⟨hr, _⟩ := body_front sort m info r hbody
    rw [hr]
    have hin : info ∈ m.timers_ := by rw [hfront]; exact List.mem_cons_self _ _
    constructor
    · intro a ha
      rw [dispatch_next_addr]
      exact h1 a ((dispatch_timers_perm hs m info).mem_iff.mp ha)
    · intro c hc
      rw [dispatch_next_addr]
      rw [dispatch_added_callbacks] at hc
      rcases List.mem_append.mp hc with h3 | h3
      · exact h2 c h3
      · rw [List.mem_singleton.mp h3]; exact h1 info hin
  | call live now cb_start cb_end q cb _ =>
    obtain ⟨f1, f2, f3, _⟩ := call_frame live now cb_start cb_end m cb
    constructor
    · intro a ha; rw [f3] at ha; rw [f2]; exact h1 a ha
    · intro c hc; rw [f1] at hc; rw [f2]; exact h2 c hc
  | destroy q cb _ =>
    obtain ⟨f1, f2, f3, _⟩ := destroy_frame m cb
    constructor
    · intro a ha; rw [f3] at ha; rw [f2]; exact h1 a ha
    · intro c hc; rw [f1] at hc; rw [f2]; exact h2 c hc

theorem reachable_wellFormed {sort : SortFn} (hs : StdSortSpec sort) (m : TimerManager)
    (hreach : Reachable sort TimerManager.new m) : WellFormed m := by
  induction hreach with
  | refl => exact wellFormed_new
  | tail _ hstep ih => exact step_wellFormed hs _ _ hstep ih

theorem drift_bound_witness :
    WellFormed TimerManager.new ∧
    Reachable insertionSort (add insertionSort 0 TimerManager.new 10 4 3 none).1
      dispatchedExample ∧
    1 ≤ 2 ∧
    (callbacksOf dispatchedExample TimerManager.new.next_addr)[2 - 1]? = some secondCallback ∧
    secondCallback.current_expected_ = 0 + ((2 : Nat) : Int) * 10 ∧
    secondCallback.last_expected_ = 0 + (((2 : Nat) : Int) - 1) * 10 :=
  ⟨wellFormed_new, afterPass_reachable insertionSort 5 (fun _ => 25) _, by decide, by decide,
    drift_bound insertionSort_spec TimerManager.new wellFormed_new 0 10 4 3 none
      dispatchedExample (afterPass_reachable insertionSort 5 (fun _ => 25) _) 2 secondCallback
      (by decide) (by decide)⟩

/-! ## Rate: start, cycle time, reset -/

theorem sleep_start (now : Time) (r : Rate) :
    (Rate.sleep now r).rate.start_ = r.start_ + r.expected_cycle_time_ ∧
    (Rate.sleep now r).rate.expected_cycle_time_ = r.expected_cycle_time_ ∧
    (Rate.sleep now r).rate.actual_cycle_time_ = now - r.start_ := by
  unfold Rate.sleep
  simp only
  split_ifs <;> exact ⟨rfl, rfl, rfl⟩

/-- C11: every call of `Rate::sleep()` advances `start` by exactly
`expected_cycle_time`, whatever it returns and whatever the clock reads, and
leaves `expected_cycle_time` unchanged; so after `n` calls in a row, at any
clock readings, `start = start0 + n * expected_cycle_time`. -/
theorem sleep_advances_start (r : Rate) (readings : List Time) :
    (∀ now, (Rate.sleep now r).rate.start_ = r.start_ + r.expected_cycle_time_ ∧
      (Rate.sleep now r).rate.expected_cycle_time_ = r.expected_cycle_time_) ∧
    (Rate.sleepMany r readings).start_ =
      r.start_ + (readings.length : Int) * r.expected_cycle_time_ ∧
    (Rate.sleepMany r readings).expected_cycle_time_ = r.expected_cycle_time_ := by
  refine ⟨fun now => ⟨(sleep_start now r).1, (sleep_start now r).2.1⟩, ?_⟩
  induction readings generalizing r with
  | nil => simp [Rate.sleepMany]
  | cons now rest ih =>
    obtain ⟨h1, h2, _⟩ := sleep_start now r
    have := ih (Rate.sleep now r).rate
    rw [h1, h2] at this
    simp only [Rate.sleepMany, List.length_cons]
    refine ⟨?_, this.2⟩
    rw [this.1]
    push_cast
    ring

/-- C12: right after a `sleep()` made at clock reading `t` while `start` was
`s`, `cycleTime()` returns `t - s`, whether `sleep()` returned true or false;
on a newly constructed `Rate` it returns the zero duration. -/
theorem cycleTime_spec (t now0 : Time) (cycle : Duration) (r : Rate) :
    (Rate.sleep t r).rate.cycleTime = t - r.start_ ∧
    ((Rate.sleep t r).result = true → (Rate.sleep t r).rate.cycleTime = t - r.start_) ∧
    ((Rate.sleep t r).result = false → (Rate.sleep t r).rate.cycleTime = t - r.start_) ∧
    (Rate.new now0 cycle).cycleTime = 0 :=
  ⟨(sleep_start t r).2.2, fun _ => (sleep_start t r).2.2, fun _ => (sleep_start t r).2.2, rfl⟩

/-- C13: `Rate::reset()` and `WallRate::reset()` at clock reading `t` set
`start` to `t` and leave `expected_cycle_time` and the value `cycleTime()`
returns unchanged. -/
theorem reset_spec (t : Int) (r : Rate) (w : WallRate) :
    ((Rate.reset t r).start_ = t ∧
      (Rate.reset t r).expected_cycle_time_ = r.expected_cycle_time_ ∧
      (Rate.reset t r).cycleTime = r.cycleTime) ∧
    ((WallRate.reset t w).start_ = t ∧
      (WallRate.reset t w).expected_cycle_time_ = w.expected_cycle_time_ ∧
      (WallRate.reset t w).cycleTime = w.cycleTime) :=
  ⟨⟨rfl, rfl, rfl⟩, ⟨rfl, rfl, rfl⟩⟩

/-! ## PendingConnection::check -/

/-- C14: `PendingConnection::check()`.  When the weak reference to the parent
has expired it returns true and makes no call at all, neither a poll of the
RPC client nor `pendingConnectionDone`.  When the parent is alive it polls
the client once; if the client reports completion it calls the parent's
`pendingConnectionDone` exactly once, with this connection and the RPC
result, and returns true; otherwise it returns false and makes no further
call. -/
theorem check_spec (live : Nat → Bool) (executeCheckDone : Bool × XmlRpcValue)
    (pc : PendingConnection) :
    (lockParent live pc.parent_ = none →
      PendingConnection.check live executeCheckDone pc = { result := true, actions := [] }) ∧
    (∀ parent, lockParent live pc.parent_ = some parent → executeCheckDone.1 = true →
      PendingConnection.check live executeCheckDone pc =
        { result := true
          actions := [CheckAction.executeCheckDone pc.client_,
            CheckAction.pendingConnectionDone parent pc executeCheckDone.2] }) ∧
    (∀ parent, lockParent live pc.parent_ = some parent → executeCheckDone.1 = false →
      PendingConnection.check live executeCheckDone pc =
        { result := false, actions := [CheckAction.executeCheckDone pc.client_] }) := by
  unfold PendingConnection.check
  refine ⟨?_, ?_, ?_⟩
  · intro h; rw [h]
  · intro parent h hd; rw [h]; simp [hd]
  · intro parent h hd; rw [h]; simp [hd]

/-! ## Time and Duration as (sec, nsec) pairs -/

theorem normalizeSecNSec_spec (sec nsec : Int) :
    (normalizeSecNSec sec nsec).1 * 1000000000 + (normalizeSecNSec sec nsec).2 =
      sec * 1000000000 + nsec ∧
    0 ≤ (normalizeSecNSec sec nsec).2 ∧ (normalizeSecNSec sec nsec).2 < 1000000000 := by
  unfold normalizeSecNSec
  simp only
  omega

/-- C16: time normalisation.  For every `(s, n)` with `n >= 10^9`,
`Time(s, n)` has `sec = s + n div 10^9` and `nsec = n mod 10^9`, so
`0 <= nsec < 10^9`; and `Time(100, 2000003000)` has `sec = 102` and
`nsec = 3000`. -/
theorem time_normalization (s n : Int) (hn : 1000000000 ≤ n) :
    (TimeRep.new s n).sec = s + n / 1000000000 ∧
    (TimeRep.new s n).nsec = n % 1000000000 ∧
    0 ≤ (TimeRep.new s n).nsec ∧ (TimeRep.new s n).nsec < 1000000000 ∧
    TimeRep.new 100 2000003000 = { sec := 102, nsec := 3000 } := by
  have _ := hn
  refine ⟨rfl, rfl, ?_, ?_, by decide⟩
  · exact (normalizeSecNSec_spec s n).2.1
  · exact (normalizeSecNSec_spec s n).2.2

theorem time_normalization_witness :
    (1000000000 : Int) ≤ 2000003000 ∧
    (TimeRep.new 100 2000003000).sec = 100 + 2000003000 / 1000000000 ∧
    (TimeRep.new 100 2000003000).nsec = 2000003000 % 1000000000 :=
  ⟨by decide, (time_normalization 100 2000003000 (by decide)).1,
    (time_normalization 100 2000003000 (by decide)).2.1⟩

/-- C17: `Time + Duration` is exact and normalised.  The result `r = t + d`
has total nanosecond count equal to the sum of the counts of `t` and `d`,
and `0 <= r.nsec < 10^9`; `t += d` leaves `t` equal to `r`; and
`Time(0,0) + Duration(10, 2000003000) = Time(12, 3000)`. -/
theorem time_plus_duration (t : TimeRep) (d : DurationRep) :
    (t.add d).toNSec = t.toNSec + d.toNSec ∧
    0 ≤ (t.add d).nsec ∧ (t.add d).nsec < 1000000000 ∧
    t.addAssign d = t.add d ∧
    (TimeRep.new 0 0).add (DurationRep.new 10 2000003000) = TimeRep.new 12 3000 ∧
    TimeRep.new 12 3000 = { sec := 12, nsec := 3000 } := by
  obtain ⟨h1, h2, h3⟩ := normalizeSecNSec_spec (t.sec + d.sec) (t.nsec + d.nsec)
  refine ⟨?_, h2, h3, rfl, by decide, by decide⟩
  unfold TimeRep.add TimeRep.new TimeRep.toNSec DurationRep.toNSec
  simp only
  rw [h1]
  ring

/-- C18: `Time - Duration` is exact and normalised, borrowing from `sec`
when the nanosecond part would go negative.  The result `r = t - d` has
total nanosecond count equal to the count of `t` minus the count of `d`, and
`0 <= r.nsec < 10^9`; `t -= d` leaves `t` equal to `r`; and
`Time(30,0) - Duration(10, 2000003000) = Time(17, 999997000)`. -/
theorem time_minus_duration (t : TimeRep) (d : DurationRep) :
    (t.sub d).toNSec = t.toNSec - d.toNSec ∧
    0 ≤ (t.sub d).nsec ∧ (t.sub d).nsec < 1000000000 ∧
    t.subAssign d = t.sub d ∧
    (TimeRep.new 30 0).sub (DurationRep.new 10 2000003000) = TimeRep.new 17 999997000 ∧
    TimeRep.new 17 999997000 = { sec := 17, nsec := 999997000 } := by
  obtain ⟨h1, h2, h3⟩ := normalizeSecNSec_spec (t.sec - d.sec) (t.nsec - d.nsec)
  refine ⟨?_, h2, h3, rfl, by decide, by decide⟩
  unfold TimeRep.sub TimeRep.new TimeRep.toNSec DurationRep.toNSec
  simp only
  rw [h1]
  ring

theorem timeRep_order (a b : TimeRep) (ha : a.Normalized) (hb : b.Normalized) :
    (a.lt b = true ↔ a.toNSec < b.toNSec) ∧
    (a.eq b = true ↔ a.toNSec = b.toNSec) ∧
    (a.gt b = true ↔ b.lt a = true) ∧
    (a.le b = true ↔ ¬ b.lt a = true) ∧
    (a.ge b = true ↔ ¬ a.lt b = true) ∧
    (a.ne b = true ↔ ¬ a.eq b = true) := by
  unfold TimeRep.Normalized at ha hb
  unfold TimeRep.lt TimeRep.eq TimeRep.gt TimeRep.le TimeRep.ge TimeRep.ne TimeRep.toNSec
  refine ⟨?_, ?_, ?_, ?_, ?_, ?_⟩
  · split_ifs <;> simp <;> omega
  · simp only [decide_eq_true_eq]; omega
  · split_ifs <;> simp <;> omega
  · split_ifs <;> simp <;> omega
  · split_ifs <;> simp <;> omega
  · simp [TimeRep.eq]; tauto

theorem durationRep_order (a b : DurationRep) (ha : a.Normalized) (hb : b.Normalized) :
    (a.lt b = true ↔ a.toNSec < b.toNSec) ∧
    (a.eq b = true ↔ a.toNSec = b.toNSec) ∧
    (a.gt b = true ↔ b.lt a = true) ∧
    (a.le b = true ↔ ¬ b.lt a = true) ∧
    (a.ge b = true ↔ ¬ a.lt b = true) ∧
    (a.ne b = true ↔ ¬ a.eq b = true) := by
  unfold DurationRep.Normalized at ha hb
  unfold DurationRep.lt DurationRep.eq DurationRep.gt DurationRep.le DurationRep.ge
    DurationRep.ne DurationRep.toNSec
  refine ⟨?_, ?_, ?_, ?_, ?_, ?_⟩
  · split_ifs <;> simp <;> omega
  · simp only [decide_eq_true_eq]; omega
  · split_ifs <;> simp <;> omega
  · split_ifs <;> simp <;> omega
  · split_ifs <;> simp <;> omega
  · simp [DurationRep.eq]; tauto

/-- C19: the comparison operators on normalised `Time` values, and likewise
on normalised `Duration` values, agree with the order of the total
nanosecond count: `a < b` exactly when the count of `a` is smaller, `a == b`
exactly when the counts are equal, `a > b` iff `b < a`, `a <= b` iff not
`b < a`, `a >= b` iff not `a < b`, `a != b` iff not `a == b`; and exactly one
of `a < b`, `a == b`, `a > b` holds. -/
theorem comparison_total_order (a b : TimeRep) (c d : DurationRep) (ha : a.Normalized)
    (hb : b.Normalized) (hc : c.Normalized) (hd : d.Normalized) :
    ((a.lt b = true ↔ a.toNSec < b.toNSec) ∧
      (a.eq b = true ↔ a.toNSec = b.toNSec) ∧
      (a.gt b = true ↔ b.lt a = true) ∧
      (a.le b = true ↔ ¬ b.lt a = true) ∧
      (a.ge b = true ↔ ¬ a.lt b = true) ∧
      (a.ne b = true ↔ ¬ a.eq b = true) ∧
      ((a.lt b = true ∧ a.eq b = false ∧ a.gt b = false) ∨
        (a.lt b = false ∧ a.eq b = true ∧ a.gt b = false) ∨
        (a.lt b = false ∧ a.eq b = false ∧ a.gt b = true))) ∧
    ((c.lt d = true ↔ c.toNSec < d.toNSec) ∧
      (c.eq d = true ↔ c.toNSec = d.toNSec) ∧
      (c.gt d = true ↔ d.lt c = true) ∧
      (c.le d = true ↔ ¬ d.lt c = true) ∧
      (c.ge d = true ↔ ¬ c.lt d = true) ∧
      (c.ne d = true ↔ ¬ c.eq d = true) ∧
      ((c.lt d = true ∧ c.eq d = false ∧ c.gt d = false) ∨
        (c.lt d = false ∧ c.eq d = true ∧ c.gt d = false) ∨
        (c.lt d = false ∧ c.eq d = false ∧ c.gt d = true))) := by
  obtain ⟨t1, t2, t3, t4, t5, t6⟩ := timeRep_order a b ha hb
  obtain ⟨u1, _, _, _, _, _⟩ := timeRep_order b a hb ha
  obtain ⟨d1, d2, d3, d4, d5, d6⟩ := durationRep_order c d hc hd
  obtain ⟨e1, _, _, _, _, _⟩ := durationRep_order d c hd hc
  refine ⟨⟨t1, t2, t3, t4, t5, t6, ?_⟩, ⟨d1, d2, d3, d4, d5, d6, ?_⟩⟩
  · rcases lt_trichotomy a.toNSec b.toNSec with h | h | h
    · left
      refine ⟨t1.mpr h, ?_, ?_⟩
      · cases he : a.eq b
        · rfl
        · exact absurd (t2.mp he) (ne_of_lt h)
      · cases hg : a.gt b
        · rfl
        · exact absurd (u1.mp (t3.mp hg)) (not_lt_of_lt h)
    · right; left
      refine ⟨?_, t2.mpr h, ?_⟩
      · cases hl : a.lt b
        · rfl
        · exact absurd (t1.mp hl) (by rw [h]; exact lt_irrefl _)
      · cases hg : a.gt b
        · rfl
        · exact absurd (u1.mp (t3.mp hg)) (by rw [h]; exact lt_irrefl _)
    · right; right
      refine ⟨?_, ?_, t3.mpr (u1.mpr h)⟩
      · cases hl : a.lt b
        · rfl
        · exact absurd (t1.mp hl) (not_lt_of_lt h)
      · cases he : a.eq b
        · rfl
        · exact absurd (t2.mp he) (ne_of_gt h)
  · rcases lt_trichotomy c.toNSec d.toNSec with h | h | h
    · left
      refine ⟨d1.mpr h, ?_, ?_⟩
      · cases he : c.eq d
        · rfl
        · exact absurd (d2.mp he) (ne_of_lt h)
      · cases hg : c.gt d
        · rfl
        · exact absurd (e1.mp (d3.mp hg)) (not_lt_of_lt h)
    · right; left
      refine ⟨?_, d2.mpr h, ?_⟩
      · cases hl : c.lt d
        · rfl
        · exact absurd (d1.mp hl) (by rw [h]; exact lt_irrefl _)
      · cases hg : c.gt d
        · rfl
        · exact absurd (e1.mp (d3.mp hg)) (by rw [h]; exact lt_irrefl _)
    · right; right
      refine ⟨?_, ?_, d3.mpr (e1.mpr h)⟩
      · cases hl : c.lt d
        · rfl
        · exact absurd (d1.mp hl) (not_lt_of_lt h)
      · cases he : c.eq d
        · rfl
        · exact absurd (d2.mp he) (ne_of_gt h)

theorem comparison_total_order_witness :
    (TimeRep.new 1 999999999).Normalized ∧ (TimeRep.new 2 0).Normalized ∧
    (DurationRep.new (-1) 5).Normalized ∧ (DurationRep.new (-1) 5).Normalized ∧
    ((TimeRep.new 1 999999999).lt (TimeRep.new 2 0) = true ↔
      (TimeRep.new 1 999999999).toNSec < (TimeRep.new 2 0).toNSec) ∧
    ((DurationRep.new (-1) 5).eq (DurationRep.new (-1) 5) = true ↔
      (DurationRep.new (-1) 5).toNSec = (DurationRep.new (-1) 5).toNSec) :=
  ⟨⟨by decide, by decide⟩, ⟨by decide, by decide⟩, ⟨by decide, by decide⟩,
    ⟨by decide, by decide⟩,
    (comparison_total_order (TimeRep.new 1 999999999) (TimeRep.new 2 0) (DurationRep.new (-1) 5)
      (DurationRep.new (-1) 5) ⟨by decide, by decide⟩ ⟨by decide, by decide⟩
      ⟨by decide, by decide⟩ ⟨by decide, by decide⟩).1.1,
    (comparison_total_order (TimeRep.new 1 999999999) (TimeRep.new 2 0) (DurationRep.new (-1) 5)
      (DurationRep.new (-1) 5) ⟨by decide, by decide⟩ ⟨by decide, by decide⟩
      ⟨by decide, by decide⟩ ⟨by decide, by decide⟩).2.2.1⟩

/-! ## The bounded inbox -/

theorem handleMessage_threaded (s : Subscription) (msg : MessageInfo) (k : Nat)
    (hthr : s.threaded_ = true) (hdrop : s.dropped_ = false) (hk : 0 < k)
    (hmax : s.max_queue_ = (k : Int)) (hlen : s.inbox_.length ≤ k) :
    (s.handleMessage msg).2 = true ∧
    (s.handleMessage msg).1.threaded_ = true ∧
    (s.handleMessage msg).1.dropped_ = false ∧
    (s.handleMessage msg).1.max_queue_ = (k : Int) ∧
    (s.handleMessage msg).1.inbox_.length ≤ k ∧
    (s.handleMessage msg).1.inbox_ =
      (s.inbox_ ++ [msg]).drop ((s.inbox_ ++ [msg]).length - k) := by
  unfold Subscription.handleMessage
  rw [if_neg (by rw [hdrop]; simp), if_neg (by rw [hthr]; simp)]
  by_cases hfull : s.inbox_.length = k
  · have hcond : 0 < s.max_queue_ ∧ (s.inbox_.length : Int) = s.max_queue_ := by
      rw [hmax]; exact ⟨by exact_mod_cast hk, by exact_mod_cast hfull⟩
    have hne : s.inbox_ ≠ [] := by
      intro h; rw [h] at hfull; simp at hfull; omega
    obtain ⟨x, tl, hx⟩ := List.exists_cons_of_ne_nil hne
    have htl : tl.length + 1 = k := by rw [hx] at hfull; simpa using hfull
    simp only [if_pos hcond]
    refine ⟨trivial, hthr, hdrop, hmax, ?_, ?_⟩
    · rw [hx]; simp; omega
    · rw [hx]
      have h1 : (x :: tl ++ [msg]).length - k = 1 := by simp; omega
      rw [h1]
      rfl
  · have hcond : ¬ (0 < s.max_queue_ ∧ (s.inbox_.length : Int) = s.max_queue_) := by
      rw [hmax]; intro h; exact hfull (by exact_mod_cast h.2)
    simp only [if_neg hcond]
    refine ⟨trivial, hthr, hdrop, hmax, ?_, ?_⟩
    · simp; omega
    · have h1 : (s.inbox_ ++ [msg]).length - k = 0 := by simp; omega
      rw [h1]
      rfl

theorem drop_last_append (k : Nat) (l r : List MessageInfo) :
    ((l.drop (l.length - k)) ++ r).drop (((l.drop (l.length - k)) ++ r).length - k) =
      (l ++ r).drop ((l ++ r).length - k) := by
  by_cases h : l.length ≤ k
  · have h0 : l.length - k = 0 := by omega
    rw [h0, List.drop_zero]
  · have hle : l.length - k ≤ l.length := Nat.sub_le _ _
    rw [← List.drop_append_of_le_length hle, List.length_drop, List.drop_drop]
    congr 1
    simp only [List.length_append]
    omega

theorem handleMessages_threaded (k : Nat) (hk : 0 < k) :
    ∀ (msgs : List MessageInfo) (s : Subscription), s.threaded_ = true → s.dropped_ = false →
      s.max_queue_ = (k : Int) → s.inbox_.length ≤ k →
      (s.handleMessages msgs).1.inbox_ =
        (s.inbox_ ++ msgs).drop ((s.inbox_ ++ msgs).length - k) ∧
      (s.handleMessages msgs).2 = List.replicate msgs.length true := by
  intro msgs
  induction msgs with
  | nil =>
    intro s _ _ _ hlen
    have h0 : s.inbox_.length - k = 0 := by omega
    simp [Subscription.handleMessages, h0]
  | cons msg rest ih =>
    intro s hthr hdrop hmax hlen
    obtain ⟨h1, h2, h3, h4, h5, h6⟩ := handleMessage_threaded s msg k hthr hdrop hk hmax hlen
    obtain ⟨i1, i2⟩ := ih (s.handleMessage msg).1 h2 h3 h4 h5
    simp only [Subscription.handleMessages, List.length_cons, List.replicate_succ, h1, i2,
      and_true]
    rw [i1, h6, drop_last_append]
    simp

/-- C20: bounded inbox with oldest-drop.  A threaded subscription that is not
dropped has `max_queue = k > 0` and an inbox of at most `k` entries, and its
worker dequeues nothing.  After `handleMessage` has been called with
`m > k` messages in turn, the inbox holds exactly the last `k` of them in
their order of arrival, and every call returned true. -/
theorem inbox_keeps_last (s : Subscription) (k : Nat) (msgs : List MessageInfo)
    (hthr : s.threaded_ = true) (hdrop : s.dropped_ = false) (hk : 0 < k)
    (hmax : s.max_queue_ = (k : Int)) (hlen : s.inbox_.length ≤ k) (hm : k < msgs.length) :
    (s.handleMessages msgs).1.inbox_ = msgs.drop (msgs.length - k) ∧
    (s.handleMessages msgs).1.inbox_.length = k ∧
    (s.handleMessages msgs).2 = List.replicate msgs.length true := by
  obtain ⟨h1, h2⟩ := handleMessages_threaded k hk msgs s hthr hdrop hmax hlen
  have h3 : (s.handleMessages msgs).1.inbox_ = msgs.drop (msgs.length - k) := by
    rw [h1, List.length_append]
    have h4 : s.inbox_.length + msgs.length - k = s.inbox_.length + (msgs.length - k) := by
      omega
    rw [h4, List.drop_append]
  refine ⟨h3, ?_, h2⟩
  rw [h3, List.length_drop]
  omega

theorem inbox_keeps_last_witness :
    (0 : Nat) < 2 ∧ 2 < [(⟨1, 0⟩ : MessageInfo), ⟨2, 0⟩, ⟨3, 0⟩, ⟨4, 0⟩, ⟨5, 0⟩].length ∧
    inboxExample.1.inbox_ = [⟨4, 0⟩, ⟨5, 0⟩] ∧
    inboxExample.2 = [true, true, true, true, true] := by
  have h := inbox_keeps_last
    { dropped_ := false, threaded_ := true, max_queue_ := 2, inbox_ := [], queue_full_ := false
      invoked := [], notified := 0 } 2 [⟨1, 0⟩, ⟨2, 0⟩, ⟨3, 0⟩, ⟨4, 0⟩, ⟨5, 0⟩]
    rfl rfl (by decide) rfl (by decide) (by decide)
  exact ⟨by decide, by decide, h.1, h.2.2⟩

/-! ## Due ticks -/

theorem dueTicks_lt_iff (now next : Time) (period : Duration) (hp : 0 < period) (j : Nat) :
    j < dueTicks now next period ↔ next + (j : Int) * period ≤ now := by
  unfold dueTicks
  have hj : (0 : Int) ≤ (j : Int) * period :=
    mul_nonneg (Int.natCast_nonneg j) (le_of_lt hp)
  by_cases h : next ≤ now
  · rw [if_pos h]
    have hq : 0 ≤ (now - next) / period := Int.ediv_nonneg (sub_nonneg.mpr h) (le_of_lt hp)
    have hiff := Int.le_ediv_iff_mul_le (a := (j : Int)) (b := now - next) hp
    constructor
    · intro hlt
      have h1 : (j : Int) ≤ (now - next) / period := by
        have : (j : Int) < (((now - next) / period).toNat : Int) + 1 := by exact_mod_cast hlt
        rw [Int.toNat_of_nonneg hq] at this
        exact Int.lt_add_one_iff.mp this
      have := hiff.mp h1
      linarith
    · intro hle
      have h1 : (j : Int) ≤ (now - next) / period := hiff.mpr (by linarith)
      have : (j : Int) < (((now - next) / period).toNat : Int) + 1 := by
        rw [Int.toNat_of_nonneg hq]
        exact Int.lt_add_one_iff.mpr h1
      exact_mod_cast this
  · rw [if_neg h]
    constructor
    · intro hlt; exact absurd hlt (Nat.not_lt_zero _)
    · intro hle; exact absurd (by linarith : next ≤ now) h

theorem dueTicks_step (now next : Time) (period : Duration) (hp : 0 < period)
    (hdue : next ≤ now) :
    dueTicks now next period = dueTicks now (next + period) period + 1 := by
  have h0 : 0 < dueTicks now next period :=
    (dueTicks_lt_iff now next period hp 0).mpr (by simpa using hdue)
  have hshift : ∀ j : Nat, j < dueTicks now (next + period) period ↔
      j + 1 < dueTicks now next period := by
    intro j
    rw [dueTicks_lt_iff now _ period hp, dueTicks_lt_iff now _ period hp]
    push_cast
    constructor <;> intro h <;> linarith
  have h1 := hshift (dueTicks now (next + period) period)
  have h2 := hshift (dueTicks now (next + period) period - 1)
  omega

theorem dueTicks_eq_zero (now next : Time) (period : Duration) (h : now < next) :
    dueTicks now next period = 0 := by
  unfold dueTicks
  rw [if_neg (not_le.mpr h)]

theorem dueTickTimes_step (now next : Time) (period : Duration) (hp : 0 < period)
    (hdue : next ≤ now) :
    dueTickTimes now next period = next :: dueTickTimes now (next + period) period := by
  unfold dueTickTimes
  rw [dueTicks_step now next period hp hdue, List.range_succ_eq_map, List.map_cons,
    List.map_map]
  congr 1
  · simp
  · apply List.map_congr_left
    intro j _
    simp only [Function.comp, Nat.succ_eq_add_one]
    push_cast
    ring

/-! ## A dispatcher pass at a fixed clock reading -/

theorem dispatch_sorted {sort : SortFn} (hs : StdSortSpec sort) (m : TimerManager)
    (info : Addr) : SortedTimers (threadFuncDispatch sort m info) := by
  obtain ⟨m3, hm3, hd⟩ : ∃ m3 : TimerManager,
      (threadFuncDispatch sort m info).timers_ = sort (timerCompare m3) m3.timers_ ∧
      ∀ a, (threadFuncDispatch sort m info).deref a = m3.deref a := ⟨_, rfl, fun _ => rfl⟩
  unfold SortedTimers
  rw [hm3, timerCompare_eq]
  have h := hs.sorted (fun a => (m3.deref a).next_expected) m3.timers_
  refine List.Pairwise.imp ?_ h
  intro a b hab
  rw [hd a, hd b]
  exact hab

theorem dispatch_deref_other (sort : SortFn) (m : TimerManager) (info a : Addr)
    (h : a ≠ info) : (threadFuncDispatch sort m info).deref a = m.deref a := by
  unfold TimerManager.deref
  rw [dispatch_heap_other sort m info a h]

theorem dispatch_period (sort : SortFn) (m : TimerManager) (info a : Addr) :
    ((threadFuncDispatch sort m info).deref a).period = (m.deref a).period := by
  by_cases h : a = info
  · subst h; rw [dispatch_deref_self]
  · rw [dispatch_deref_other sort m info a h]

theorem dispatch_due_self (sort : SortFn) (now : Time) (m : TimerManager) (info : Addr)
    (hp : 0 < (m.deref info).period) (hdue : (m.deref info).next_expected ≤ now) :
    dueTicks now (m.deref info).next_expected (m.deref info).period =
      dueTicks now ((threadFuncDispatch sort m info).deref info).next_expected
        ((threadFuncDispatch sort m info).deref info).period + 1 := by
  rw [dispatch_deref_self]
  exact dueTicks_step now _ _ hp hdue

theorem dispatch_totalDue_lt {sort : SortFn} (hs : StdSortSpec sort) (now : Time)
    (m : TimerManager) (info : Addr) (hin : info ∈ m.timers_)
    (hp : 0 < (m.deref info).period) (hdue : (m.deref info).next_expected ≤ now) :
    totalDue now (threadFuncDispatch sort m info) < totalDue now m := by
  unfold totalDue
  rw [((dispatch_timers_perm hs m info).map _).sum_eq]
  apply List.sum_lt_sum
  · intro a _
    by_cases h : a = info
    · subst h
      rw [dispatch_due_self sort now m a hp hdue]
      exact Nat.le_succ _
    · rw [dispatch_deref_other sort m info a h]
  · refine ⟨info, hin, ?_⟩
    rw [dispatch_due_self sort now m info hp hdue]
    exact Nat.lt_succ_self _

theorem dispatch_ticks (sort : SortFn) (now : Time) (m : TimerManager) (info : Addr)
    (hp : 0 < (m.deref info).period) (hdue : (m.deref info).next_expected ≤ now) (a : Addr) :
    ∃ new : List TimerQueueCallback,
      callbacksOf (threadFuncDispatch sort m info) a = callbacksOf m a ++ new ∧
      new.map (fun c => c.current_expected_) ++
          dueTickTimes now ((threadFuncDispatch sort m info).deref a).next_expected
            ((threadFuncDispatch sort m info).deref a).period =
        dueTickTimes now (m.deref a).next_expected (m.deref a).period := by
  by_cases h : info = a
  · subst h
    refine ⟨_, by rw [callbacksOf_dispatch, if_pos rfl], ?_⟩
    rw [dispatch_deref_self, dueTickTimes_step now _ _ hp hdue]
    rfl
  · refine ⟨[], by rw [callbacksOf_dispatch, if_neg h], ?_⟩
    rw [dispatch_deref_other sort m info a (fun e => h e.symm)]
    rfl

theorem sorted_head_le (m : TimerManager) (info : Addr) (rest : List Addr)
    (hfront : m.timers_ = info :: rest) (hsorted : SortedTimers m) (a : Addr)
    (ha : a ∈ m.timers_) : (m.deref info).next_expected ≤ (m.deref a).next_expected := by
  unfold SortedTimers at hsorted
  rw [hfront] at hsorted ha
  rcases List.mem_cons.mp ha with h | h
  · rw [h]
  · exact (List.pairwise_cons.mp hsorted).1 a h

theorem loop_fixed_clock {sort : SortFn} (hs : StdSortSpec sort) (now : Time) :
    ∀ (n : Nat) (m : TimerManager) (info : Addr) (rest : List Addr) (fuel : Nat),
      m.timers_ = info :: rest → SortedTimers m → (∀ a ∈ m.timers_, 0 < (m.deref a).period) →
      totalDue now m ≤ n → n < fuel →
      ∃ r : TimerManager × Addr,
        threadFuncLoop sort fuel (fun _ => now) m info = some r ∧
        r.1.timers_.Perm m.timers_ ∧ SortedTimers r.1 ∧
        (∃ tl, r.1.timers_ = r.2 :: tl) ∧
        now < (r.1.deref r.2).next_expected ∧
        (∀ a, (r.1.deref a).period = (m.deref a).period) ∧
        (∀ a, ∃ new : List TimerQueueCallback,
          callbacksOf r.1 a = callbacksOf m a ++ new ∧
          new.map (fun c => c.current_expected_) ++
              dueTickTimes now (r.1.deref a).next_expected (r.1.deref a).period =
            dueTickTimes now (m.deref a).next_expected (m.deref a).period) := by
  intro n
  induction n with
  | zero =>
    intro m info rest fuel hfront hsorted hpos htot hfuel
    obtain ⟨f, rfl⟩ : ∃ f, fuel = f + 1 := ⟨fuel - 1, by omega⟩
    have hin : info ∈ m.timers_ := by rw [hfront]; exact List.mem_cons_self _ _
    have hnot : ¬ (m.deref info).next_expected ≤ now := by
      intro hdue
      have h0 : 0 < dueTicks now (m.deref info).next_expected (m.deref info).period :=
        (dueTicks_lt_iff now _ _ (hpos info hin) 0).mpr (by simpa using hdue)
      have hle : dueTicks now (m.deref info).next_expected (m.deref info).period ≤
          totalDue now m :=
        List.single_le_sum (fun _ _ => Nat.zero_le _) _
          (List.mem_map.mpr ⟨info, hin, rfl⟩)
      omega
    refine ⟨(m, info), ?_, List.Perm.refl _, hsorted, ⟨rest, hfront⟩, not_le.mp hnot,
      fun _ => rfl, fun a => ⟨[], by simp, by simp⟩⟩
    unfold threadFuncLoop
    rw [if_neg hnot]
  | succ n ih =>
    intro m info rest fuel hfront hsorted hpos htot hfuel
    obtain ⟨f, rfl⟩ : ∃ f, fuel = f + 1 := ⟨fuel - 1, by omega⟩
    have hin : info ∈ m.timers_ := by rw [hfront]; exact List.mem_cons_self _ _
    by_cases hdue : (m.deref info).next_expected ≤ now
    · have hperm := dispatch_timers_perm hs m info
      have hne : (threadFuncDispatch sort m info).timers_ ≠ [] := by
        intro h
        rw [h] at hperm
        have := hperm.length_eq
        rw [hfront] at this
        simp at this
      obtain ⟨front, tl, htl⟩ := List.exists_cons_of_ne_nil hne
      have hbody : threadFuncBody sort m info =
          some (threadFuncDispatch sort m info, front) := by
        unfold threadFuncBody
        rw [htl]
      have hlt := dispatch_totalDue_lt hs now m info hin (hpos info hin) hdue
      have hpos' : ∀ a ∈ (threadFuncDispatch sort m info).timers_,
          0 < ((threadFuncDispatch sort m info).deref a).period := by
        intro a ha
        rw [dispatch_period]
        exact hpos a (hperm.mem_iff.mp ha)
      obtain ⟨r, hr1, hr2, hr3, hr4, hr5, hr6, hr7⟩ :=
        ih (threadFuncDispatch sort m info) front tl f htl (dispatch_sorted hs m info) hpos'
          (by omega) (by omega)
      refine ⟨r, ?_, hr2.trans hperm, hr3, hr4, hr5, ?_, ?_⟩
      · unfold threadFuncLoop
        simp only [hdue, if_true, hbody]
        exact hr1
      · intro a
        rw [hr6 a, dispatch_period]
      · intro a
        obtain ⟨new1, hn1, hn2⟩ := dispatch_ticks sort now m info (hpos info hin) hdue a
        obtain ⟨new2, hn3, hn4⟩ := hr7 a
        refine ⟨new1 ++ new2, ?_, ?_⟩
        · rw [hn3, hn1, List.append_assoc]
        · rw [List.map_append, List.append_assoc, hn4, hn2]
    · refine ⟨(m, info), ?_, List.Perm.refl _, hsorted, ⟨rest, hfront⟩, not_le.mp hdue,
        fun _ => rfl, fun a => ⟨[], by simp, by simp⟩⟩
      unfold threadFuncLoop
      rw [if_neg hdue]

theorem pass_fixed_clock {sort : SortFn} (hs : StdSortSpec sort) (m : TimerManager)
    (now : Time) (fuel : Nat) (hsorted : SortedTimers m)
    (hpos : ∀ a ∈ m.timers_, 0 < (m.deref a).period) (hfuel : totalDue now m < fuel) :
    ∃ r : TimerManager × Time,
      threadFuncPass sort fuel (fun _ => now) m = some r ∧
      ∀ a ∈ m.timers_, ∃ enqueued : List TimerQueueCallback,
        callbacksOf r.1 a = callbacksOf m a ++ enqueued ∧
        enqueued.length = dueTicks now (m.deref a).next_expected (m.deref a).period ∧
        (∀ j : Nat, j < dueTicks now (m.deref a).next_expected (m.deref a).period ↔
          (m.deref a).next_expected + (j : Int) * (m.deref a).period ≤ now) ∧
        enqueued.map (fun c => c.current_expected_) =
          dueTickTimes now (m.deref a).next_expected (m.deref a).period := by
  cases hfront : m.timers_ with
  | nil =>
    refine ⟨(m, now + 100000000), ?_, ?_⟩
    · unfold threadFuncPass
      rw [hfront]
    · intro a ha
      exact absurd ha (List.not_mem_nil a)
  | cons info rest =>
    obtain ⟨r, hr1, hr2, hr3, ⟨tl, hr4⟩, hr5, _, hr7⟩ :=
      loop_fixed_clock hs now (totalDue now m) m info rest fuel hfront hsorted hpos
        (Nat.le_refl _) hfuel
    refine ⟨(r.1, (r.1.deref r.2).next_expected), ?_, ?_⟩
    · unfold threadFuncPass
      rw [hfront]
      simp only [hr1]
    · intro a ha
      rw [← hfront] at ha
      obtain ⟨new, hn1, hn2⟩ := hr7 a
      have ha' : a ∈ r.1.timers_ := hr2.mem_iff.mpr ha
      have hlate : now < (r.1.deref a).next_expected :=
        lt_of_lt_of_le hr5 (sorted_head_le r.1 r.2 tl hr4 hr3 a ha')
      have hnil : dueTickTimes now (r.1.deref a).next_expected (r.1.deref a).period = [] := by
        unfold dueTickTimes
        rw [dueTicks_eq_zero now _ _ hlate]
        rfl
      rw [hnil, List.append_nil] at hn2
      refine ⟨new, hn1, ?_, fun j => dueTicks_lt_iff now _ _ (hpos a ha) j, hn2⟩
      have := congrArg List.length hn2
      rw [List.length_map] at this
      rw [this]
      unfold dueTickTimes
      rw [List.length_map, List.length_range]

theorem add_sorted {sort : SortFn} (hs : StdSortSpec sort) (now : Time) (m : TimerManager)
    (period : Duration) (callback callback_queue : Nat) (tracked : VoidPtr) :
    SortedTimers (add sort now m period callback callback_queue tracked).1 := by
  obtain ⟨m2, hm2, hd⟩ : ∃ m2 : TimerManager,
      (add sort now m period callback callback_queue tracked).1.timers_ =
        sort (timerCompare m2) m2.timers_ ∧
      ∀ a, (add sort now m period callback callback_queue tracked).1.deref a = m2.deref a :=
    ⟨_, rfl, fun _ => rfl⟩
  unfold SortedTimers
  rw [hm2, timerCompare_eq]
  have h := hs.sorted (fun a => (m2.deref a).next_expected) m2.timers_
  refine List.Pairwise.imp ?_ h
  intro a b hab
  rw [hd a, hd b]
  exact hab

theorem add_deref_new (sort : SortFn) (now : Time) (m : TimerManager) (period : Duration)
    (callback callback_queue : Nat) (tracked : VoidPtr) :
    ((add sort now m period callback callback_queue tracked).1.deref m.next_addr).period
      = period ∧
    ((add sort now m period callback callback_queue tracked).1.deref m.next_addr).next_expected
      = now + period ∧
    ((add sort now m period callback callback_queue tracked).1.deref m.next_addr).last_expected
      = now := by
  cases tracked <;> simp [add, TimerManager.deref]

theorem add_deref_old (sort : SortFn) (now : Time) (m : TimerManager) (period : Duration)
    (callback callback_queue : Nat) (tracked : VoidPtr) (q : Addr) (hq : q ≠ m.next_addr) :
    (add sort now m period callback callback_queue tracked).1.deref q = m.deref q := by
  unfold TimerManager.deref
  rw [add_heap sort now m period callback callback_queue tracked q hq]

theorem add_timers_perm {sort : SortFn} (hs : StdSortSpec sort) (now : Time)
    (m : TimerManager) (period : Duration) (callback callback_queue : Nat)
    (tracked : VoidPtr) :
    (add sort now m period callback callback_queue tracked).1.timers_.Perm
      (m.timers_ ++ [m.next_addr]) := by
  obtain ⟨m2, hm2⟩ := add_timers sort now m period callback callback_queue tracked
  rw [hm2]
  exact sort_timers_perm hs m2 _

theorem dueTicks_shift (t0 a b : Int) (period : Duration) :
    dueTicks (t0 + a) (t0 + b) period = dueTicks a b period := by
  unfold dueTicks
  rw [add_sub_add_left_eq_sub]
  simp only [add_le_add_iff_left]

theorem dueTicks_fifth : dueTicks 1000000000 200000000 200000000 = 5 := by decide

theorem dueTicks_seventh : dueTicks 1000000000 142857142 142857142 = 7 := by decide

theorem two_timers_pass {sort : SortFn} (hs : StdSortSpec sort) (t0 : Time)
    (cb1 q1 cb2 q2 : Nat) (tr1 tr2 : VoidPtr) (fuel : Nat) (hfuel : 12 < fuel) :
    ∃ r : TimerManager × Time,
      threadFuncPass sort fuel (fun _ => t0 + 1000000000)
        (add sort t0 (add sort t0 TimerManager.new 200000000 cb1 q1 tr1).1
          142857142 cb2 q2 tr2).1 = some r ∧
      (callbacksOf r.1 0).map (fun c => c.current_expected_) =
        (List.range 5).map (fun k : Nat => t0 + ((k : Int) + 1) * 200000000) ∧
      (callbacksOf r.1 1).map (fun c => c.current_expected_) =
        (List.range 7).map (fun k : Nat => t0 + ((k : Int) + 1) * 142857142) := by
  have hperm1 := add_timers_perm hs t0 TimerManager.new 200000000 cb1 q1 tr1
  have htim1 : (add sort t0 TimerManager.new 200000000 cb1 q1 tr1).1.timers_ = [0] :=
    List.perm_singleton.mp hperm1
  have hperm2 := add_timers_perm hs t0 (add sort t0 TimerManager.new 200000000 cb1 q1 tr1).1
    142857142 cb2 q2 tr2
  rw [htim1] at hperm2
  have hperm2' : (add sort t0 (add sort t0 TimerManager.new 200000000 cb1 q1 tr1).1
      142857142 cb2 q2 tr2).1.timers_.Perm [0, 1] := hperm2
  obtain ⟨a1, a2, _⟩ := add_deref_new sort t0 TimerManager.new 200000000 cb1 q1 tr1
  obtain ⟨b1, b2, _⟩ := add_deref_new sort t0
    (add sort t0 TimerManager.new 200000000 cb1 q1 tr1).1 142857142 cb2 q2 tr2
  have hold := add_deref_old sort t0 (add sort t0 TimerManager.new 200000000 cb1 q1 tr1).1
    142857142 cb2 q2 tr2 0 (by show (0 : Nat) ≠ 0 + 1; decide)
  have c1 : ((add sort t0 (add sort t0 TimerManager.new 200000000 cb1 q1 tr1).1
      142857142 cb2 q2 tr2).1.deref 0).period = 200000000 := by rw [hold]; exact a1
  have c2 : ((add sort t0 (add sort t0 TimerManager.new 200000000 cb1 q1 tr1).1
      142857142 cb2 q2 tr2).1.deref 0).next_expected = t0 + 200000000 := by
    rw [hold]; exact a2
  have e1 : ((add sort t0 (add sort t0 TimerManager.new 200000000 cb1 q1 tr1).1
      142857142 cb2 q2 tr2).1.deref 1).period = 142857142 := b1
  have e2 : ((add sort t0 (add sort t0 TimerManager.new 200000000 cb1 q1 tr1).1
      142857142 cb2 q2 tr2).1.deref 1).next_expected = t0 + 142857142 := b2
  have hmem : ∀ a, a ∈ (add sort t0 (add sort t0 TimerManager.new 200000000 cb1 q1 tr1).1
      142857142 cb2 q2 tr2).1.timers_ ↔ a = 0 ∨ a = 1 := by
    intro a
    rw [hperm2'.mem_iff]
    simp
  have hpos : ∀ a ∈ (add sort t0 (add sort t0 TimerManager.new 200000000 cb1 q1 tr1).1
      142857142 cb2 q2 tr2).1.timers_,
      0 < ((add sort t0 (add sort t0 TimerManager.new 200000000 cb1 q1 tr1).1
        142857142 cb2 q2 tr2).1.deref a).period := by
    intro a ha
    rcases (hmem a).mp ha with h | h
    · rw [h, c1]; decide
    · rw [h, e1]; decide
  have htot : totalDue (t0 + 1000000000)
      (add sort t0 (add sort t0 TimerManager.new 200000000 cb1 q1 tr1).1
        142857142 cb2 q2 tr2).1 = 12 := by
    unfold totalDue
    rw [(hperm2'.map _).sum_eq]
    simp only [List.map_cons, List.map_nil, List.sum_cons, List.sum_nil, Nat.add_zero]
    rw [c1, c2, e1, e2, dueTicks_shift, dueTicks_shift, dueTicks_fifth, dueTicks_seventh]
  have hlog : (add sort t0 (add sort t0 TimerManager.new 200000000 cb1 q1 tr1).1
      142857142 cb2 q2 tr2).1.added_callbacks = [] := rfl
  have hnone : ∀ a, callbacksOf (add sort t0
      (add sort t0 TimerManager.new 200000000 cb1 q1 tr1).1 142857142 cb2 q2 tr2).1 a = [] := by
    intro a
    unfold callbacksOf
    rw [hlog]
    rfl
  obtain ⟨r, hr1, hr2⟩ := pass_fixed_clock hs _ (t0 + 1000000000) fuel
    (add_sorted hs t0 (add sort t0 TimerManager.new 200000000 cb1 q1 tr1).1
      142857142 cb2 q2 tr2) hpos (by rw [htot]; exact hfuel)
  refine ⟨r, hr1, ?_, ?_⟩
  · obtain ⟨enq, h1, _, _, h4⟩ := hr2 0 ((hmem 0).mpr (Or.inl rfl))
    rw [h1, hnone, List.nil_append, h4, c1, c2]
    unfold dueTickTimes
    rw [dueTicks_shift, dueTicks_fifth]
    apply List.map_congr_left
    intro k _
    ring
  · obtain ⟨enq, h1, _, _, h4⟩ := hr2 1 ((hmem 1).mpr (Or.inr rfl))
    rw [h1, hnone, List.nil_append, h4, e1, e2]
    unfold dueTickTimes
    rw [dueTicks_shift, dueTicks_seventh]
    apply List.map_congr_left
    intro k _
    ring

/-- C15: independent dispatch of several timers.  For a timer list that is
sorted by `next_expected` and has positive periods, a dispatcher pass at the
constant clock reading `now` returns when given enough fuel, and for each
timer the callbacks it enqueues are, one for one and in order, that timer's
own ticks `next_expected + j * period` (`j >= 0`) that are `<= now`, whatever
other timers are present.  In particular two timers of period 200000000 ns
(1/5 s) and 142857142 ns (1/7 s in whole nanoseconds) added at `t0` to a new
manager and dispatched at `t0 + 1 s` get exactly 5 and 7 callbacks, with
`current_expected = t0 + k * period` for `k = 1..5` and `k = 1..7`. -/
theorem independent_dispatch {sort : SortFn} (hs : StdSortSpec sort) :
    (∀ (m : TimerManager) (now : Time) (fuel : Nat), SortedTimers m →
      (∀ a ∈ m.timers_, 0 < (m.deref a).period) → totalDue now m < fuel →
      ∃ r : TimerManager × Time,
        threadFuncPass sort fuel (fun _ => now) m = some r ∧
        ∀ a ∈ m.timers_, ∃ enqueued : List TimerQueueCallback,
          callbacksOf r.1 a = callbacksOf m a ++ enqueued ∧
          enqueued.length = dueTicks now (m.deref a).next_expected (m.deref a).period ∧
          (∀ j : Nat, j < dueTicks now (m.deref a).next_expected (m.deref a).period ↔
            (m.deref a).next_expected + (j : Int) * (m.deref a).period ≤ now) ∧
          enqueued.map (fun c => c.current_expected_) =
            dueTickTimes now (m.deref a).next_expected (m.deref a).period) ∧
    (∀ (t0 : Time) (cb1 q1 cb2 q2 : Nat) (tr1 tr2 : VoidPtr) (fuel : Nat), 12 < fuel →
      ∃ r : TimerManager × Time,
        threadFuncPass sort fuel (fun _ => t0 + 1000000000)
          (add sort t0 (add sort t0 TimerManager.new 200000000 cb1 q1 tr1).1
            142857142 cb2 q2 tr2).1 = some r ∧
        (callbacksOf r.1 0).map (fun c => c.current_expected_) =
          (List.range 5).map (fun k : Nat => t0 + ((k : Int) + 1) * 200000000) ∧
        (callbacksOf r.1 1).map (fun c => c.current_expected_) =
          (List.range 7).map (fun k : Nat => t0 + ((k : Int) + 1) * 142857142)) :=
  ⟨fun m now fuel hsorted hpos hfuel => pass_fixed_clock hs m now fuel hsorted hpos hfuel,
    fun t0 cb1 q1 cb2 q2 tr1 tr2 fuel hfuel =>
      two_timers_pass hs t0 cb1 q1 cb2 q2 tr1 tr2 fuel hfuel⟩

theorem independent_dispatch_witness :
    ∃ r : TimerManager × Time,
      threadFuncPass insertionSort 13 (fun _ => 0 + 1000000000)
        (add insertionSort 0 (add insertionSort 0 TimerManager.new 200000000 4 3 none).1
          142857142 5 3 none).1 = some r ∧
      (callbacksOf r.1 0).map (fun c => c.current_expected_) =
        (List.range 5).map (fun k : Nat => 0 + ((k : Int) + 1) * 200000000) ∧
      (callbacksOf r.1 1).map (fun c => c.current_expected_) =
        (List.range 7).map (fun k : Nat => 0 + ((k : Int) + 1) * 142857142) :=
  (independent_dispatch insertionSort_spec).2 0 4 3 5 3 none none 13 (by decide)

/-! ## Sortedness in reachable states -/

theorem sorted_of_frame (m m' : TimerManager) (hsub : m'.timers_.Sublist m.timers_)
    (hnext : ∀ q, (m'.deref q).next_expected = (m.deref q).next_expected)
    (h : SortedTimers m) : SortedTimers m' := by
  unfold SortedTimers at *
  refine List.Pairwise.imp ?_ (h.sublist hsub)
  intro a b hab
  rw [hnext a, hnext b]
  exact hab

theorem remove_timers_sublist (m : TimerManager) (handle : Int) :
    (remove m handle).timers_.Sublist m.timers_ := by
  unfold remove
  cases hf : m.timers_.find? (fun it => decide ((m.deref it).handle = handle)) with
  | none => exact List.Sublist.refl _
  | some info => exact List.eraseP_sublist _

theorem step_sorted {sort : SortFn} (hs : StdSortSpec sort) (m m' : TimerManager)
    (hstep : Step sort m m') (h : SortedTimers m) : SortedTimers m' := by
  cases hstep with
  | add now period callback callback_queue tracked =>
    exact add_sorted hs now m period callback callback_queue tracked
  | remove handle =>
    exact sorted_of_frame m _ (remove_timers_sublist m handle)
      (fun q => ((remove_frame m handle).2.2.2 q).2.2) h
  | dispatch now info rest r _ _ hbody =>
    rw [(body_front sort m info r hbody).1]
    exact dispatch_sorted hs m info
  | call live now cb_start cb_end q cb _ =>
    obtain ⟨_, _, f3, f4⟩ := call_frame live now cb_start cb_end m cb
    exact sorted_of_frame m _ (by rw [f3]) (fun q => (f4 q).2.2) h
  | destroy q cb _ =>
    obtain ⟨_, _, f3, f4⟩ := destroy_frame m cb
    exact sorted_of_frame m _ (by rw [f3]) (fun q => (f4 q).2.2) h

theorem reachable_sorted {sort : SortFn} (hs : StdSortSpec sort) (m : TimerManager)
    (hreach : Reachable sort TimerManager.new m) : SortedTimers m := by
  induction hreach with
  | refl => exact List.Pairwise.nil
  | tail _ hstep ih => exact step_sorted hs _ _ hstep ih

/-! ## The sortedness invariant -/

theorem loop_sorted {sort : SortFn} (hs : StdSortSpec sort) :
    ∀ (fuel : Nat) (clock : Nat → Time) (m : TimerManager) (info : Addr)
      (r : TimerManager × Addr), SortedTimers m →
      threadFuncLoop sort fuel clock m info = some r → SortedTimers r.1 := by
  intro fuel
  induction fuel with
  | zero =>
    intro clock m info r _ h
    simp [threadFuncLoop] at h
  | succ f ih =>
    intro clock m info r hsorted h
    unfold threadFuncLoop at h
    by_cases hg : (m.deref info).next_expected ≤ clock 0
    · rw [if_pos hg] at h
      cases hb : threadFuncBody sort m info with
      | none => rw [hb] at h; simp at h
      | some r1 =>
        rw [hb] at h
        have hr1 : SortedTimers r1.1 := by
          rw [(body_front sort m info r1 hb).1]
          exact dispatch_sorted hs m info
        exact ih _ r1.1 r1.2 r hr1 h
    · rw [if_neg hg] at h
      rw [← Option.some.inj h]
      exact hsorted

theorem pass_sorted {sort : SortFn} (hs : StdSortSpec sort) (fuel : Nat) (clock : Nat → Time)
    (m : TimerManager) (r : TimerManager × Time) (hsorted : SortedTimers m)
    (h : threadFuncPass sort fuel clock m = some r) : SortedTimers r.1 := by
  unfold threadFuncPass at h
  cases ht : m.timers_ with
  | nil =>
    rw [ht] at h
    rw [← Option.some.inj h]
    exact hsorted
  | cons info rest =>
    rw [ht] at h
    cases hl : threadFuncLoop sort fuel clock m info with
    | none => simp [hl] at h
    | some r1 =>
      simp only [hl] at h
      rw [← Option.some.inj h]
      exact loop_sorted hs fuel clock m info r1 hsorted hl

/-- C21: sortedness of the timer list.  `timers_` is in non-decreasing order
of `next_expected` in the new (empty) manager, after every `add`, after a
`remove` on a sorted list, after every iteration of the dispatcher's inner
loop (which sorts again after advancing the front timer), after every
complete dispatcher pass on a sorted list, at any clock readings, and so in
every reachable state. -/
theorem sortedness_invariant {sort : SortFn} (hs : StdSortSpec sort) :
    SortedTimers TimerManager.new ∧
    (∀ (now : Time) (m : TimerManager) (period : Duration) (callback callback_queue : Nat)
      (tracked : VoidPtr), SortedTimers (add sort now m period callback callback_queue tracked).1) ∧
    (∀ (m : TimerManager) (handle : Int), SortedTimers m → SortedTimers (remove m handle)) ∧
    (∀ (m : TimerManager) (info : Addr), SortedTimers (threadFuncDispatch sort m info)) ∧
    (∀ (fuel : Nat) (clock : Nat → Time) (m : TimerManager) (r : TimerManager × Time),
      SortedTimers m → threadFuncPass sort fuel clock m = some r → SortedTimers r.1) ∧
    (∀ m : TimerManager, Reachable sort TimerManager.new m → SortedTimers m) :=
  ⟨List.Pairwise.nil,
    fun now m period callback callback_queue tracked =>
      add_sorted hs now m period callback callback_queue tracked,
    fun m handle h => sorted_of_frame m _ (remove_timers_sublist m handle)
      (fun q => ((remove_frame m handle).2.2.2 q).2.2) h,
    fun m info => dispatch_sorted hs m info,
    fun fuel clock m r hsorted h => pass_sorted hs fuel clock m r hsorted h,
    fun m hreach => reachable_sorted hs m hreach⟩

theorem sortedness_invariant_witness :
    SortedTimers (add insertionSort 5 trackedExample 3 8 9 none).1 ∧
    SortedTimers dispatchedExample :=
  ⟨(sortedness_invariant insertionSort_spec).2.1 5 trackedExample 3 8 9 none,
    (sortedness_invariant insertionSort_spec).2.2.2.2.2 dispatchedExample
      (Relation.ReflTransGen.head
        (Step.add TimerManager.new 0 10 4 3 none)
        (afterPass_reachable insertionSort 5 (fun _ => 25) _))⟩

/-! ## The scheduling invariant -/

theorem scheduleInv_of_frame (m m' : TimerManager) (htim : ∀ a, a ∈ m'.timers_ → a ∈ m.timers_)
    (hsched : ∀ q, (m'.deref q).period = (m.deref q).period ∧
      (m'.deref q).last_expected = (m.deref q).last_expected ∧
      (m'.deref q).next_expected = (m.deref q).next_expected)
    (h : ScheduleInv m) : ScheduleInv m' := by
  intro a ha
  obtain ⟨h1, h2, h3⟩ := hsched a
  rw [h1, h2, h3]
  exact h a (htim a ha)

theorem add_scheduleInv {sort : SortFn} (hs : StdSortSpec sort) (now : Time)
    (m : TimerManager) (period : Duration) (callback callback_queue : Nat) (tracked : VoidPtr)
    (h : ScheduleInv m) :
    ScheduleInv (add sort now m period callback callback_queue tracked).1 := by
  intro a ha
  by_cases hna : a = m.next_addr
  · subst hna
    obtain ⟨h1, h2, h3⟩ := add_deref_new sort now m period callback callback_queue tracked
    rw [h1, h2, h3]
  · rw [add_deref_old sort now m period callback callback_queue tracked a hna]
    have hmem := (add_timers_perm hs now m period callback callback_queue tracked).mem_iff.mp ha
    rcases List.mem_append.mp hmem with h1 | h1
    · exact h a h1
    · exact absurd (List.mem_singleton.mp h1) hna

theorem dispatch_scheduleInv {sort : SortFn} (hs : StdSortSpec sort) (m : TimerManager)
    (info : Addr) (h : ScheduleInv m) : ScheduleInv (threadFuncDispatch sort m info) := by
  intro a ha
  by_cases hai : a = info
  · subst hai
    rw [dispatch_deref_self]
  · rw [dispatch_deref_other sort m info a hai]
    exact h a ((dispatch_timers_perm hs m info).mem_iff.mp ha)

theorem step_scheduleInv {sort : SortFn} (hs : StdSortSpec sort) (m m' : TimerManager)
    (hstep : Step sort m m') (h : ScheduleInv m) : ScheduleInv m' := by
  cases hstep with
  | add now period callback callback_queue tracked =>
    exact add_scheduleInv hs now m period callback callback_queue tracked h
  | remove handle =>
    obtain ⟨_, _, f3, f4⟩ := remove_frame m handle
    exact scheduleInv_of_frame m _ f3 f4 h
  | dispatch now info rest r _ _ hbody =>
    rw [(body_front sort m info r hbody).1]
    exact dispatch_scheduleInv hs m info h
  | call live now cb_start cb_end q cb _ =>
    obtain ⟨_, _, f3, f4⟩ := call_frame live now cb_start cb_end m cb
    exact scheduleInv_of_frame m _ (fun a ha => f3 ▸ ha) f4 h
  | destroy q cb _ =>
    obtain ⟨_, _, f3, f4⟩ := destroy_frame m cb
    exact scheduleInv_of_frame m _ (fun a ha => f3 ▸ ha) f4 h

theorem reachable_scheduleInv {sort : SortFn} (hs : StdSortSpec sort) (m : TimerManager)
    (hreach : Reachable sort TimerManager.new m) : ScheduleInv m := by
  induction hreach with
  | refl => intro a ha; exact absurd ha (List.not_mem_nil a)
  | tail _ hstep ih => exact step_scheduleInv hs _ _ hstep ih

/-- C22: the scheduling invariant.  Right after `add` the new timer has
`next_expected = last_expected + period`.  An iteration of the dispatcher's
inner loop sets the front timer's `last_expected` to its old `next_expected`
and adds `period` to `next_expected`.  `add`, that iteration, `remove` and
`call()` all preserve "every timer in `timers_` has
`next_expected = last_expected + period`", which therefore holds in every
reachable state. -/
theorem scheduling_invariant {sort : SortFn} (hs : StdSortSpec sort) :
    (∀ (now : Time) (m : TimerManager) (period : Duration) (callback callback_queue : Nat)
      (tracked : VoidPtr),
      ((add sort now m period callback callback_queue tracked).1.deref
          m.next_addr).next_expected =
        ((add sort now m period callback callback_queue tracked).1.deref
          m.next_addr).last_expected +
        ((add sort now m period callback callback_queue tracked).1.deref m.next_addr).period ∧
      (ScheduleInv m → ScheduleInv (add sort now m period callback callback_queue tracked).1)) ∧
    (∀ (m : TimerManager) (info : Addr),
      ((threadFuncDispatch sort m info).deref info).last_expected =
        (m.deref info).next_expected ∧
      ((threadFuncDispatch sort m info).deref info).next_expected =
        (m.deref info).next_expected + (m.deref info).period ∧
      ((threadFuncDispatch sort m info).deref info).period = (m.deref info).period ∧
      (ScheduleInv m → ScheduleInv (threadFuncDispatch sort m info))) ∧
    (∀ (m : TimerManager) (handle : Int), ScheduleInv m → ScheduleInv (remove m handle)) ∧
    (∀ (live : Nat → Bool) (now : Time) (cb_start cb_end : WallTime) (m : TimerManager)
      (cb : TimerQueueCallback), ScheduleInv m →
      ScheduleInv (TimerQueueCallback.call live now cb_start cb_end m cb).mgr) ∧
    (∀ m : TimerManager, Reachable sort TimerManager.new m → ScheduleInv m) := by
  refine ⟨?_, ?_, ?_, ?_, fun m hreach => reachable_scheduleInv hs m hreach⟩
  · intro now m period callback callback_queue tracked
    obtain ⟨h1, h2, h3⟩ := add_deref_new sort now m period callback callback_queue tracked
    refine ⟨by rw [h1, h2, h3], add_scheduleInv hs now m period callback callback_queue tracked⟩
  · intro m info
    refine ⟨by rw [dispatch_deref_self], by rw [dispatch_deref_self],
      by rw [dispatch_deref_self], dispatch_scheduleInv hs m info⟩
  · intro m handle h
    obtain ⟨_, _, f3, f4⟩ := remove_frame m handle
    exact scheduleInv_of_frame m _ f3 f4 h
  · intro live now cb_start cb_end m cb h
    obtain ⟨_, _, f3, f4⟩ := call_frame live now cb_start cb_end m cb
    exact scheduleInv_of_frame m _ (fun a ha => f3 ▸ ha) f4 h

theorem scheduling_invariant_witness :
    ScheduleInv dispatchedExample ∧
    (dispatchedExample.deref 0).next_expected =
      (dispatchedExample.deref 0).last_expected + (dispatchedExample.deref 0).period :=
  ⟨(scheduling_invariant insertionSort_spec).2.2.2.2 dispatchedExample
      (Relation.ReflTransGen.head
        (Step.add TimerManager.new 0 10 4 3 none)
        (afterPass_reachable insertionSort 5 (fun _ => 25) _)),
    by decide⟩

/-! ## Overrun in Rate -/

theorem wallSleep_start (now : WallTime) (r : WallRate) :
    (WallRate.sleep now r).rate.start_ = r.start_ + r.expected_cycle_time_ ∧
    (WallRate.sleep now r).rate.expected_cycle_time_ = r.expected_cycle_time_ := by
  unfold WallRate.sleep
  simp only
  split_ifs <;> exact ⟨rfl, rfl⟩

theorem sleep_late (now : Time) (r : Rate) (h : r.start_ + r.expected_cycle_time_ < now) :
    (Rate.sleep now r).result = false ∧ (Rate.sleep now r).slept = none := by
  unfold Rate.sleep
  have h2 : r.start_ + r.expected_cycle_time_ - now < 0 := sub_neg.mpr h
  simp only [h2, if_true, and_self]

theorem wallSleep_late (now : WallTime) (r : WallRate)
    (h : r.start_ + r.expected_cycle_time_ < now) :
    (WallRate.sleep now r).result = false ∧ (WallRate.sleep now r).slept = none := by
  unfold WallRate.sleep
  have h2 : r.start_ + r.expected_cycle_time_ - now < 0 := sub_neg.mpr h
  simp only [h2, if_true, and_self]

theorem sleepResults_late :
    ∀ (readings : List Time) (r : Rate), 0 ≤ r.expected_cycle_time_ →
      (∀ t ∈ readings, r.start_ + (readings.length : Int) * r.expected_cycle_time_ < t) →
      r.sleepResults readings = List.replicate readings.length (false, none) := by
  intro readings
  induction readings with
  | nil => intro r _ _; rfl
  | cons t rest ih =>
    intro r hc hall
    have hlen : (0 : Int) ≤ (rest.length : Int) := Int.natCast_nonneg _
    have ht := hall t (List.mem_cons_self _ _)
    simp only [List.length_cons] at ht
    push_cast at ht
    have hlate : r.start_ + r.expected_cycle_time_ < t := by nlinarith
    obtain ⟨h1, h2⟩ := sleep_late t r hlate
    obtain ⟨s1, s2, _⟩ := sleep_start t r
    have hrest := ih (Rate.sleep t r).rate (by rw [s2]; exact hc) (by
      intro t' ht'
      have := hall t' (List.mem_cons_of_mem _ ht')
      simp only [List.length_cons] at this
      push_cast at this
      rw [s1, s2]
      linarith)
    simp only [Rate.sleepResults, h1, h2, hrest, List.length_cons, List.replicate_succ]

theorem wallSleepResults_late :
    ∀ (readings : List WallTime) (r : WallRate), 0 ≤ r.expected_cycle_time_ →
      (∀ t ∈ readings, r.start_ + (readings.length : Int) * r.expected_cycle_time_ < t) →
      r.sleepResults readings = List.replicate readings.length (false, none) := by
  intro readings
  induction readings with
  | nil => intro r _ _; rfl
  | cons t rest ih =>
    intro r hc hall
    have hlen : (0 : Int) ≤ (rest.length : Int) := Int.natCast_nonneg _
    have ht := hall t (List.mem_cons_self _ _)
    simp only [List.length_cons] at ht
    push_cast at ht
    have hlate : r.start_ + r.expected_cycle_time_ < t := by nlinarith
    obtain ⟨h1, h2⟩ := wallSleep_late t r hlate
    obtain ⟨s1, s2⟩ := wallSleep_start t r
    have hrest := ih (WallRate.sleep t r).rate (by rw [s2]; exact hc) (by
      intro t' ht'
      have := hall t' (List.mem_cons_of_mem _ ht')
      simp only [List.length_cons] at this
      push_cast at this
      rw [s1, s2]
      linarith)
    simp only [WallRate.sleepResults, h1, h2, hrest, List.length_cons, List.replicate_succ]

theorem head_le_of_sorted (t0 : Int) (rest : List Int)
    (hmono : (t0 :: rest).Pairwise (fun x y => x ≤ y)) (t : Int) (ht : t ∈ t0 :: rest) :
    t0 ≤ t := by
  rcases List.mem_cons.mp ht with h | h
  · rw [h]
  · exact (List.pairwise_cons.mp hmono).1 t h

/-- C27: overrun carries over in `Rate` (and in `WallRate`, whose code is the
same).  Let `k >= 1` and `expected_cycle_time > 0`.  If `sleep()` is called
`k` times in a row, with no `reset()` in between, at clock readings that
never go backwards, the first of them strictly later than
`start + k * expected_cycle_time`, then each of the `k` calls returns false
and does not sleep. -/
theorem overrun_carries_over (r : Rate) (w : WallRate) (k : Nat) (t0 : Int) (rest : List Int)
    (hk : 1 ≤ k) (hlen : (t0 :: rest).length = k)
    (hmono : (t0 :: rest).Pairwise (fun x y => x ≤ y)) :
    (0 < r.expected_cycle_time_ → r.start_ + (k : Int) * r.expected_cycle_time_ < t0 →
      r.sleepResults (t0 :: rest) = List.replicate k (false, none)) ∧
    (0 < w.expected_cycle_time_ → w.start_ + (k : Int) * w.expected_cycle_time_ < t0 →
      w.sleepResults (t0 :: rest) = List.replicate k (false, none)) := by
  have _ := hk
  constructor
  · intro hc hlate
    have h := sleepResults_late (t0 :: rest) r (le_of_lt hc) (by
      intro t ht
      rw [hlen]
      exact lt_of_lt_of_le hlate (head_le_of_sorted t0 rest hmono t ht))
    rw [hlen] at h
    exact h
  · intro hc hlate
    have h := wallSleepResults_late (t0 :: rest) w (le_of_lt hc) (by
      intro t ht
      rw [hlen]
      exact lt_of_lt_of_le hlate (head_le_of_sorted t0 rest hmono t ht))
    rw [hlen] at h
    exact h

theorem overrun_carries_over_witness :
    1 ≤ 3 ∧ ((35 : Int) :: [36, 36]).length = 3 ∧
    ((35 : Int) :: [36, 36]).Pairwise (fun x y => x ≤ y) ∧
    (0 : Int) < (Rate.new 0 10).expected_cycle_time_ ∧
    (Rate.new 0 10).start_ + ((3 : Nat) : Int) * (Rate.new 0 10).expected_cycle_time_ < 35 ∧
    (Rate.new 0 10).sleepResults (35 :: [36, 36]) = List.replicate 3 (false, none) :=
  ⟨by decide, by decide, by decide, by decide, by decide,
    (overrun_carries_over (Rate.new 0 10) (WallRate.new 0 10) 3 35 [36, 36] (by decide)
      (by decide) (by decide)).1 (by decide) (by decide)⟩

/-! ## The wake-up deadline -/

theorem pass_nil (sort : SortFn) (fuel : Nat) (clock : Nat → Time) (m : TimerManager)
    (h : m.timers_ = []) :
    threadFuncPass sort fuel clock m = some (m, clock 0 + 100000000) := by
  unfold threadFuncPass
  rw [h]

theorem pass_cons (sort : SortFn) (fuel : Nat) (clock : Nat → Time) (m : TimerManager)
    (info : Addr) (rest : List Addr) (h : m.timers_ = info :: rest) :
    threadFuncPass sort fuel clock m =
      (threadFuncLoop sort fuel clock m info).map
        (fun r => (r.1, (r.1.deref r.2).next_expected)) := by
  unfold threadFuncPass
  rw [h]
  cases hl : threadFuncLoop sort fuel clock m info with
  | none => simp only [hl, Option.map_none']
  | some r => simp only [hl, Option.map_some']

/-- C24: the wake-up deadline of a dispatcher pass at the constant clock
reading `now`.  With an empty timer list the pass leaves the state as it is,
so enqueues nothing, and sets `sleep_end = now + 0.1 s`.  With a non-empty
list that is sorted and has positive periods the pass returns when given
enough fuel; afterwards the timers are the same ones, each has
`next_expected > now`, and `sleep_end` is the `next_expected` of one of them
and not later than that of any of them, so `sleep_end > now`. -/
theorem wake_up_deadline {sort : SortFn} (hs : StdSortSpec sort) (m : TimerManager)
    (now : Time) (fuel : Nat) (hsorted : SortedTimers m)
    (hpos : ∀ a ∈ m.timers_, 0 < (m.deref a).period) (hfuel : totalDue now m < fuel) :
    (m.timers_ = [] →
      threadFuncPass sort fuel (fun _ => now) m = some (m, now + 100000000)) ∧
    (m.timers_ ≠ [] →
      ∃ r : TimerManager × Time,
        threadFuncPass sort fuel (fun _ => now) m = some r ∧
        r.1.timers_.Perm m.timers_ ∧
        (∀ a ∈ r.1.timers_, now < (r.1.deref a).next_expected) ∧
        (∃ a ∈ r.1.timers_, r.2 = (r.1.deref a).next_expected) ∧
        (∀ a ∈ r.1.timers_, r.2 ≤ (r.1.deref a).next_expected) ∧
        now < r.2) := by
  constructor
  · intro h
    exact pass_nil sort fuel (fun _ => now) m h
  · intro hne
    obtain ⟨info, rest, hfront⟩ := List.exists_cons_of_ne_nil hne
    obtain ⟨r, hr1, hr2, hr3, ⟨tl, hr4⟩, hr5, _, _⟩ :=
      loop_fixed_clock hs now (totalDue now m) m info rest fuel hfront hsorted hpos
        (Nat.le_refl _) hfuel
    have hmin : ∀ a ∈ r.1.timers_,
        (r.1.deref r.2).next_expected ≤ (r.1.deref a).next_expected :=
      fun a ha => sorted_head_le r.1 r.2 tl hr4 hr3 a ha
    refine ⟨(r.1, (r.1.deref r.2).next_expected), ?_, hr2, ?_, ?_, hmin, hr5⟩
    · rw [pass_cons sort fuel (fun _ => now) m info rest hfront, hr1]
      rfl
    · intro a ha
      exact lt_of_lt_of_le hr5 (hmin a ha)
    · exact ⟨r.2, by rw [hr4]; exact List.mem_cons_self _ _, rfl⟩

theorem sorted_twoTimerExample : SortedTimers twoTimerExample := by
  unfold SortedTimers
  decide

theorem wake_up_deadline_witness :
    SortedTimers twoTimerExample ∧
    (∀ a ∈ twoTimerExample.timers_, 0 < (twoTimerExample.deref a).period) ∧
    totalDue 1000000000 twoTimerExample < 13 ∧
    twoTimerExample.timers_ ≠ [] ∧
    ∃ r : TimerManager × Time,
      threadFuncPass insertionSort 13 (fun _ => 1000000000) twoTimerExample = some r ∧
      r.1.timers_.Perm twoTimerExample.timers_ ∧
      (∀ a ∈ r.1.timers_, 1000000000 < (r.1.deref a).next_expected) ∧
      (∃ a ∈ r.1.timers_, r.2 = (r.1.deref a).next_expected) ∧
      (∀ a ∈ r.1.timers_, r.2 ≤ (r.1.deref a).next_expected) ∧
      1000000000 < r.2 :=
  ⟨sorted_twoTimerExample, by decide, by decide, by decide,
    (wake_up_deadline insertionSort_spec twoTimerExample 1000000000 13 sorted_twoTimerExample
      (by decide) (by decide)).2 (by decide)⟩

/-! ## Deadline order within a pass -/

theorem loop_order {sort : SortFn} (hs : StdSortSpec sort) :
    ∀ (fuel : Nat) (clock : Nat → Time) (m : TimerManager) (info : Addr) (rest : List Addr)
      (r : TimerManager × Addr), m.timers_ = info :: rest → SortedTimers m →
      (∀ a ∈ m.timers_, 0 < (m.deref a).period) →
      threadFuncLoop sort fuel clock m info = some r →
      ∃ enqueued : List (Nat × TimerQueueCallback),
        r.1.added_callbacks = m.added_callbacks ++ enqueued ∧
        (enqueued.map (fun c => c.2.current_expected_)).Pairwise (fun x y => x ≤ y) ∧
        ∀ c ∈ enqueued, (m.deref info).next_expected ≤ c.2.current_expected_ := by
  intro fuel
  induction fuel with
  | zero =>
    intro clock m info rest r _ _ _ h
    simp [threadFuncLoop] at h
  | succ f ih =>
    intro clock m info rest r hfront hsorted hpos h
    unfold threadFuncLoop at h
    have hin : info ∈ m.timers_ := by rw [hfront]; exact List.mem_cons_self _ _
    by_cases hg : (m.deref info).next_expected ≤ clock 0
    · rw [if_pos hg] at h
      cases hb : threadFuncBody sort m info with
      | none => rw [hb] at h; simp at h
      | some r1 =>
        rw [hb] at h
        obtain ⟨hr1, tl, htl⟩ := body_front sort m info r1 hb
        have hperm := dispatch_timers_perm hs m info
        have hpos' : ∀ a ∈ r1.1.timers_, 0 < (r1.1.deref a).period := by
          intro a ha
          rw [hr1] at ha ⊢
          rw [dispatch_period]
          exact hpos a (hperm.mem_iff.mp ha)
        have hsorted' : SortedTimers r1.1 := by rw [hr1]; exact dispatch_sorted hs m info
        obtain ⟨enq, he1, he2, he3⟩ := ih _ r1.1 r1.2 tl r htl hsorted' hpos' h
        have hfront_in : r1.2 ∈ m.timers_ := by
          have : r1.2 ∈ r1.1.timers_ := by rw [htl]; exact List.mem_cons_self _ _
          rw [hr1] at this
          exact hperm.mem_iff.mp this
        have hmin : (m.deref info).next_expected ≤ (r1.1.deref r1.2).next_expected := by
          rw [hr1]
          by_cases he : r1.2 = info
          · rw [he, dispatch_deref_self]
            have := hpos info hin
            show (m.deref info).next_expected ≤
              (m.deref info).next_expected + (m.deref info).period
            linarith
          · rw [dispatch_deref_other sort m info r1.2 he]
            exact sorted_head_le m info rest hfront hsorted r1.2 hfront_in
        refine ⟨((m.deref info).callback_queue,
          { info_ := info
            last_expected_ := (m.deref info).last_expected
            last_real_ := (m.deref info).last_real
            current_expected_ := (m.deref info).next_expected
            called_ := false }) :: enq, ?_, ?_, ?_⟩
        · rw [he1, hr1, dispatch_added_callbacks, List.append_assoc, List.singleton_append]
        · rw [List.map_cons, List.pairwise_cons]
          refine ⟨?_, he2⟩
          intro x hx
          obtain ⟨c, hc1, hc2⟩ := List.mem_map.mp hx
          rw [← hc2]
          exact le_trans hmin (he3 c hc1)
        · intro c hc
          rcases List.mem_cons.mp hc with h1 | h1
          · rw [h1]
          · exact le_trans hmin (he3 c h1)
    · rw [if_neg hg] at h
      rw [← Option.some.inj h]
      exact ⟨[], by simp, by simp, by simp⟩

/-- C26: global deadline order within a pass.  On a timer list that is
sorted on entry and has positive periods, every dispatcher pass that
completes, at any clock readings, appends to the log callbacks whose
`current_expected` values are non-decreasing in enqueue order, across all
timers; and a pass at a constant clock reading does complete when given
enough fuel. -/
theorem pass_deadline_order {sort : SortFn} (hs : StdSortSpec sort) (m : TimerManager)
    (hsorted : SortedTimers m) (hpos : ∀ a ∈ m.timers_, 0 < (m.deref a).period) :
    (∀ (fuel : Nat) (clock : Nat → Time) (r : TimerManager × Time),
      threadFuncPass sort fuel clock m = some r →
      ∃ enqueued : List (Nat × TimerQueueCallback),
        r.1.added_callbacks = m.added_callbacks ++ enqueued ∧
        (enqueued.map (fun c => c.2.current_expected_)).Pairwise (fun x y => x ≤ y)) ∧
    (∀ (now : Time) (fuel : Nat), totalDue now m < fuel →
      ∃ r : TimerManager × Time, threadFuncPass sort fuel (fun _ => now) m = some r) := by
  constructor
  · intro fuel clock r h
    cases hfront : m.timers_ with
    | nil =>
      rw [pass_nil sort fuel clock m hfront] at h
      rw [← Option.some.inj h]
      exact ⟨[], by simp, by simp⟩
    | cons info rest =>
      rw [pass_cons sort fuel clock m info rest hfront] at h
      cases hl : threadFuncLoop sort fuel clock m info with
      | none => rw [hl] at h; simp at h
      | some r1 =>
        rw [hl] at h
        obtain ⟨enq, he1, he2, _⟩ := loop_order hs fuel clock m info rest r1 hfront hsorted hpos hl
        rw [← Option.some.inj h]
        exact ⟨enq, he1, he2⟩
  · intro now fuel hfuel
    obtain ⟨r, hr, _⟩ := pass_fixed_clock hs m now fuel hsorted hpos hfuel
    exact ⟨r, hr⟩

theorem pass_deadline_order_witness :
    SortedTimers twoTimerExample ∧
    (∀ a ∈ twoTimerExample.timers_, 0 < (twoTimerExample.deref a).period) ∧
    totalDue 1000000000 twoTimerExample < 13 ∧
    ∃ r : TimerManager × Time,
      threadFuncPass insertionSort 13 (fun _ => 1000000000) twoTimerExample = some r :=
  ⟨sorted_twoTimerExample, by decide, by decide,
    (pass_deadline_order insertionSort_spec twoTimerExample sorted_twoTimerExample
      (by decide)).2 1000000000 13 (by decide)⟩

/-! ## Termination of a pass -/

theorem sum_map_pred (f g : Addr → Nat) (b : Addr) :
    ∀ l : List Addr, l.Nodup → b ∈ l → (∀ a, a ≠ b → g a = f a) → g b + 1 = f b →
      (l.map g).sum + 1 = (l.map f).sum := by
  intro l
  induction l with
  | nil => intro _ hb; exact absurd hb (List.not_mem_nil b)
  | cons x xs ih =>
    intro hnd hb hoff hat
    obtain ⟨hx, hxs⟩ := List.nodup_cons.mp hnd
    simp only [List.map_cons, List.sum_cons]
    by_cases hxb : x = b
    · subst hxb
      have hsame : xs.map g = xs.map f := by
        apply List.map_congr_left
        intro a ha
        exact hoff a (fun h => hx (h ▸ ha))
      rw [hsame]
      omega
    · have hbx : b ∈ xs := by
        rcases List.mem_cons.mp hb with h | h
        · exact absurd h.symm hxb
        · exact h
      have := ih hxs hbx hoff hat
      rw [hoff x hxb]
      omega

theorem dispatch_totalDue_eq {sort : SortFn} (hs : StdSortSpec sort) (now : Time)
    (m : TimerManager) (info : Addr) (hnd : m.timers_.Nodup) (hin : info ∈ m.timers_)
    (hp : 0 < (m.deref info).period) (hdue : (m.deref info).next_expected ≤ now) :
    totalDue now (threadFuncDispatch sort m info) + 1 = totalDue now m := by
  unfold totalDue
  rw [((dispatch_timers_perm hs m info).map _).sum_eq]
  apply sum_map_pred _ _ info m.timers_ hnd hin
  · intro a ha
    rw [dispatch_deref_other sort m info a ha]
  · exact (dispatch_due_self sort now m info hp hdue).symm

theorem totalDue_eq_zero (now : Time) (m : TimerManager) (info : Addr) (rest : List Addr)
    (hfront : m.timers_ = info :: rest) (hsorted : SortedTimers m)
    (hlate : now < (m.deref info).next_expected) : totalDue now m = 0 := by
  unfold totalDue
  apply List.sum_eq_zero
  intro x hx
  obtain ⟨a, ha, rfl⟩ := List.mem_map.mp hx
  exact dueTicks_eq_zero now _ _
    (lt_of_lt_of_le hlate (sorted_head_le m info rest hfront hsorted a ha))

theorem totalDue_pos (now : Time) (m : TimerManager) (info : Addr)
    (hin : info ∈ m.timers_) (hp : 0 < (m.deref info).period)
    (hdue : (m.deref info).next_expected ≤ now) : 0 < totalDue now m := by
  have h0 : 0 < dueTicks now (m.deref info).next_expected (m.deref info).period :=
    (dueTicks_lt_iff now _ _ hp 0).mpr (by simpa using hdue)
  have hle : dueTicks now (m.deref info).next_expected (m.deref info).period ≤
      totalDue now m :=
    List.single_le_sum (fun _ _ => Nat.zero_le _) _ (List.mem_map.mpr ⟨info, hin, rfl⟩)
  omega

theorem loop_exact {sort : SortFn} (hs : StdSortSpec sort) (now : Time) :
    ∀ (n : Nat) (m : TimerManager) (info : Addr) (rest : List Addr),
      m.timers_ = info :: rest → SortedTimers m → m.timers_.Nodup →
      (∀ a ∈ m.timers_, 0 < (m.deref a).period) → totalDue now m = n →
      ∀ fuel : Nat,
        (n < fuel → ∃ r : TimerManager × Addr,
          threadFuncLoop sort fuel (fun _ => now) m info = some r ∧
          r.1.added_callbacks.length = m.added_callbacks.length + n) ∧
        (fuel ≤ n → threadFuncLoop sort fuel (fun _ => now) m info = none) := by
  intro n
  induction n with
  | zero =>
    intro m info rest hfront _ _ hpos htot fuel
    have hin : info ∈ m.timers_ := by rw [hfront]; exact List.mem_cons_self _ _
    have hnot : ¬ (m.deref info).next_expected ≤ now := by
      intro hdue
      have := totalDue_pos now m info hin (hpos info hin) hdue
      omega
    constructor
    · intro hfuel
      obtain ⟨f, rfl⟩ : ∃ f, fuel = f + 1 := ⟨fuel - 1, by omega⟩
      refine ⟨(m, info), ?_, rfl⟩
      unfold threadFuncLoop
      rw [if_neg hnot]
    · intro hfuel
      have h0 : fuel = 0 := by omega
      rw [h0]
      rfl
  | succ n ih =>
    intro m info rest hfront hsorted hnd hpos htot fuel
    have hin : info ∈ m.timers_ := by rw [hfront]; exact List.mem_cons_self _ _
    have hdue : (m.deref info).next_expected ≤ now := by
      by_contra hlate
      have := totalDue_eq_zero now m info rest hfront hsorted (not_le.mp hlate)
      omega
    have hperm := dispatch_timers_perm hs m info
    have hne : (threadFuncDispatch sort m info).timers_ ≠ [] := by
      intro h
      rw [h] at hperm
      have := hperm.length_eq
      rw [hfront] at this
      simp at this
    obtain ⟨front, tl, htl⟩ := List.exists_cons_of_ne_nil hne
    have hbody : threadFuncBody sort m info =
        some (threadFuncDispatch sort m info, front) := by
      unfold threadFuncBody
      rw [htl]
    have htot' : totalDue now (threadFuncDispatch sort m info) = n := by
      have := dispatch_totalDue_eq hs now m info hnd hin (hpos info hin) hdue
      omega
    have hpos' : ∀ a ∈ (threadFuncDispatch sort m info).timers_,
        0 < ((threadFuncDispatch sort m info).deref a).period := by
      intro a ha
      rw [dispatch_period]
      exact hpos a (hperm.mem_iff.mp ha)
    have hnd' : (threadFuncDispatch sort m info).timers_.Nodup := hperm.nodup_iff.mpr hnd
    cases fuel with
    | zero =>
      constructor
      · intro h; exact absurd h (Nat.not_lt_zero _)
      · intro _; rfl
    | succ f =>
      obtain ⟨i1, i2⟩ := ih (threadFuncDispatch sort m info) front tl htl
        (dispatch_sorted hs m info) hnd' hpos' htot' f
      have hunfold : threadFuncLoop sort (f + 1) (fun _ => now) m info =
          threadFuncLoop sort f (fun _ => now) (threadFuncDispatch sort m info) front := by
        conv_lhs => unfold threadFuncLoop
        simp only [hdue, if_true, hbody]
      rw [hunfold]
      constructor
      · intro hfuel
        obtain ⟨r, hr1, hr2⟩ := i1 (by omega)
        refine ⟨r, hr1, ?_⟩
        rw [hr2, dispatch_added_callbacks, List.length_append, List.length_singleton]
        omega
      · intro hfuel
        exact i2 (by omega)

theorem step_nodup {sort : SortFn} (hs : StdSortSpec sort) (m m' : TimerManager)
    (hstep : Step sort m m') (hwf : WellFormed m) (h : m.timers_.Nodup) :
    m'.timers_.Nodup := by
  cases hstep with
  | add now period callback callback_queue tracked =>
    have hperm := add_timers_perm hs now m period callback callback_queue tracked
    rw [hperm.nodup_iff]
    have hfresh : m.next_addr ∉ m.timers_ := fun hx => Nat.lt_irrefl _ (hwf.1 _ hx)
    rw [List.nodup_append]
    refine ⟨h, List.nodup_singleton _, ?_⟩
    intro a ha hb
    rw [List.mem_singleton.mp hb] at ha
    exact hfresh ha
  | remove handle => exact h.sublist (remove_timers_sublist m handle)
  | dispatch now info rest r _ _ hbody =>
    rw [(body_front sort m info r hbody).1]
    exact (dispatch_timers_perm hs m info).nodup_iff.mpr h
  | call live now cb_start cb_end q cb _ =>
    rw [(call_frame live now cb_start cb_end m cb).2.2.1]
    exact h
  | destroy q cb _ =>
    rw [(destroy_frame m cb).2.2.1]
    exact h

theorem reachable_nodup {sort : SortFn} (hs : StdSortSpec sort) (m : TimerManager)
    (hreach : Reachable sort TimerManager.new m) : WellFormed m ∧ m.timers_.Nodup := by
  induction hreach with
  | refl => exact ⟨wellFormed_new, List.nodup_nil⟩
  | tail _ hstep ih =>
    exact ⟨step_wellFormed hs _ _ hstep ih.1, step_nodup hs _ _ hstep ih.1 ih.2⟩

/-- C25: termination of a dispatcher pass.  On a list of distinct timers that
is sorted on entry and has strictly positive periods, at a constant clock
reading `now`, the inner loop of `threadFunc` runs exactly as many iterations
as there are due ticks summed over all timers: it returns as soon as the
fuel exceeds that number, having appended that many callbacks, one per
iteration, and it does not return with less fuel. -/
theorem pass_terminates {sort : SortFn} (hs : StdSortSpec sort) (m : TimerManager)
    (now : Time) (info : Addr) (rest : List Addr) (hfront : m.timers_ = info :: rest)
    (hsorted : SortedTimers m) (hnd : m.timers_.Nodup)
    (hpos : ∀ a ∈ m.timers_, 0 < (m.deref a).period) :
    (∀ fuel : Nat, totalDue now m < fuel →
      ∃ r : TimerManager × Addr,
        threadFuncLoop sort fuel (fun _ => now) m info = some r ∧
        r.1.added_callbacks.length = m.added_callbacks.length + totalDue now m ∧
        ∃ r' : TimerManager × Time, threadFuncPass sort fuel (fun _ => now) m = some r') ∧
    (∀ fuel : Nat, fuel ≤ totalDue now m →
      threadFuncLoop sort fuel (fun _ => now) m info = none) := by
  constructor
  · intro fuel hfuel
    obtain ⟨r, hr1, hr2⟩ :=
      (loop_exact hs now (totalDue now m) m info rest hfront hsorted hnd hpos rfl fuel).1 hfuel
    refine ⟨r, hr1, hr2, ?_⟩
    rw [pass_cons sort fuel (fun _ => now) m info rest hfront, hr1]
    exact ⟨_, rfl⟩
  · intro fuel hfuel
    exact (loop_exact hs now (totalDue now m) m info rest hfront hsorted hnd hpos rfl fuel).2
      hfuel

theorem pass_terminates_witness :
    twoTimerExample.timers_ = 1 :: [0] ∧ SortedTimers twoTimerExample ∧
    twoTimerExample.timers_.Nodup ∧
    (∀ a ∈ twoTimerExample.timers_, 0 < (twoTimerExample.deref a).period) ∧
    totalDue 1000000000 twoTimerExample = 12 ∧
    threadFuncLoop insertionSort 12 (fun _ => 1000000000) twoTimerExample 1 = none :=
  ⟨by decide, sorted_twoTimerExample, by decide, by decide, by decide,
    (pass_terminates insertionSort_spec twoTimerExample 1000000000 1 [0] (by decide)
      sorted_twoTimerExample (by decide) (by decide)).2 12 (by decide)⟩

/-! ## Callbacks in flight -/

theorem countP_erase_add (q : TimerQueueCallback → Bool) (cb : TimerQueueCallback) :
    ∀ l : List TimerQueueCallback, cb ∈ l →
      (l.erase cb).countP q + (if q cb then 1 else 0) = l.countP q := by
  intro l
  induction l with
  | nil => intro h; exact absurd h (List.not_mem_nil cb)
  | cons x xs ih =>
    intro h
    rw [List.erase_cons]
    by_cases hx : x = cb
    · subst hx
      simp only [beq_self_eq_true, if_true, List.countP_cons]
    · have hmem : cb ∈ xs := by
        rcases List.mem_cons.mp h with h1 | h1
        · exact absurd h1.symm hx
        · exact h1
      have hbeq : (x == cb) = false := by simpa using hx
      rw [hbeq]
      simp only [Bool.false_eq_true, if_false, List.countP_cons]
      have := ih hmem
      omega

theorem inFlight_erase (rt : Runtime) (m : TimerManager) (cb : TimerQueueCallback)
    (h : cb ∈ rt.callbacks) (a : Addr) :
    Runtime.inFlight { mgr := m, callbacks := rt.callbacks.erase cb } a +
        (if cb.info_ = a then 1 else 0) = rt.inFlight a := by
  unfold Runtime.inFlight
  have := countP_erase_add (fun c => decide (c.info_ = a)) cb rt.callbacks h
  simp only [decide_eq_true_eq] at this
  exact this

theorem inFlight_append (rt : Runtime) (m : TimerManager) (cb : TimerQueueCallback)
    (a : Addr) :
    Runtime.inFlight { mgr := m, callbacks := rt.callbacks ++ [cb] } a =
      rt.inFlight a + (if cb.info_ = a then 1 else 0) := by
  unfold Runtime.inFlight
  simp only [List.countP_append, List.countP_singleton, decide_eq_true_eq]

theorem create_waiting (m : TimerManager) (info : Addr) (le lr ce : Time) :
    ((TimerQueueCallback.create m info le lr ce).1.deref info).waiting_callbacks =
      u32inc (m.deref info).waiting_callbacks := by
  simp [TimerQueueCallback.create]

theorem dispatch_use_count (sort : SortFn) (m : TimerManager) (info a : Addr) :
    ((threadFuncDispatch sort m info).heap a).use_count = (m.heap a).use_count := by
  simp [threadFuncDispatch, TimerQueueCallback.create]

theorem remove_heap (m : TimerManager) (handle : Int) (q : Addr) :
    ((remove m handle).heap q).use_count ≤ (m.heap q).use_count ∧
    ((remove m handle).deref q).waiting_callbacks = (m.deref q).waiting_callbacks := by
  unfold remove
  cases hf : m.timers_.find? (fun it => decide ((m.deref it).handle = handle)) with
  | none => exact ⟨Nat.le_refl _, rfl⟩
  | some info =>
    by_cases hq : q = info
    · subst hq
      simp [TimerManager.release, TimerManager.store, TimerManager.deref]
    · simp [TimerManager.release, TimerManager.store, TimerManager.deref, hq]

theorem call_heap (live : Nat → Bool) (now : Time) (cb_start cb_end : WallTime)
    (m : TimerManager) (cb : TimerQueueCallback) :
    (TimerQueueCallback.call live now cb_start cb_end m cb).cb.info_ = cb.info_ ∧
    ∀ q, ((TimerQueueCallback.call live now cb_start cb_end m cb).mgr.heap q).use_count =
        (m.heap q).use_count ∧
      ((TimerQueueCallback.call live now cb_start cb_end m cb).mgr.deref q).waiting_callbacks =
        (m.deref q).waiting_callbacks := by
  unfold TimerQueueCallback.call
  cases hl : m.lock cb.info_ with
  | none => simp
  | some info =>
    have hd := ((lock_eq_some_iff m cb.info_ info).mp hl).2
    subst hd
    simp only
    split_ifs <;> refine ⟨rfl, ?_⟩ <;> intro q <;> by_cases hq : q = cb.info_ <;> simp [hq]

theorem destroy_heap (m : TimerManager) (cb : TimerQueueCallback) :
    (∀ q, ((TimerQueueCallback.destroy m cb).heap q).use_count = (m.heap q).use_count) ∧
    (∀ q, q ≠ cb.info_ →
      ((TimerQueueCallback.destroy m cb).deref q).waiting_callbacks =
        (m.deref q).waiting_callbacks) ∧
    ((m.heap cb.info_).use_count ≠ 0 →
      ((TimerQueueCallback.destroy m cb).deref cb.info_).waiting_callbacks =
        u32dec (m.deref cb.info_).waiting_callbacks) := by
  unfold TimerQueueCallback.destroy
  cases hl : m.lock cb.info_ with
  | none =>
    refine ⟨fun _ => rfl, fun _ _ => rfl, ?_⟩
    intro h
    exact absurd ((lock_eq_none_iff m cb.info_).mp hl) h
  | some info =>
    have hd := ((lock_eq_some_iff m cb.info_ info).mp hl).2
    subst hd
    refine ⟨?_, ?_, ?_⟩
    · intro q; simp
    · intro q hq; simp [hq]
    · intro _; simp

theorem u32inc_mod (n : Nat) : u32inc (n % 2 ^ 32) = (n + 1) % 2 ^ 32 := by
  unfold u32inc
  omega

theorem u32dec_mod (n : Nat) (h : 0 < n) : u32dec (n % 2 ^ 32) = (n - 1) % 2 ^ 32 := by
  unfold u32dec
  omega

theorem accounted_new : Accounted Runtime.new := by
  refine ⟨?_, ?_, ?_⟩
  · intro a ha; exact absurd ha (List.not_mem_nil a)
  · intro cb hcb; exact absurd hcb (List.not_mem_nil cb)
  · intro a ha; exact absurd rfl ha

theorem add_waiting_new (sort : SortFn) (now : Time) (m : TimerManager) (period : Duration)
    (callback callback_queue : Nat) (tracked : VoidPtr) :
    ((add sort now m period callback callback_queue tracked).1.deref
      m.next_addr).waiting_callbacks = 0 := by
  cases tracked <;> simp [add, TimerManager.deref]

theorem rstep_accounted {sort : SortFn} (hs : StdSortSpec sort) (rt rt' : Runtime)
    (hstep : RStep sort rt rt') (h : Accounted rt) : Accounted rt' := by
  obtain ⟨h1, h2, h3⟩ := h
  cases hstep with
  | add now period callback callback_queue tracked =>
    have hperm := add_timers_perm hs now rt.mgr period callback callback_queue tracked
    have hna : (add sort now rt.mgr period callback callback_queue tracked).1.next_addr
        = rt.mgr.next_addr + 1 := rfl
    refine ⟨?_, ?_, ?_⟩
    · intro a ha
      show a < (add sort now rt.mgr period callback callback_queue tracked).1.next_addr
      rw [hna]
      rcases List.mem_append.mp (hperm.mem_iff.mp ha) with h4 | h4
      · exact Nat.lt_succ_of_lt (h1 a h4)
      · rw [List.mem_singleton.mp h4]; exact Nat.lt_succ_self _
    · intro cb hcb
      show cb.info_ < (add sort now rt.mgr period callback callback_queue tracked).1.next_addr
      rw [hna]
      exact Nat.lt_succ_of_lt (h2 cb hcb)
    · intro a ha
      show ((add sort now rt.mgr period callback callback_queue tracked).1.deref
        a).waiting_callbacks = rt.inFlight a % 2 ^ 32
      by_cases hq : a = rt.mgr.next_addr
      · have hzero : rt.inFlight a = 0 := by
          unfold Runtime.inFlight
          rw [List.countP_eq_zero]
          intro cb hcb
          have := h2 cb hcb
          have hne : cb.info_ ≠ a := by rw [hq]; exact Nat.ne_of_lt this
          simpa using hne
        rw [hzero, hq, add_waiting_new, Nat.zero_mod]
      · have hheap := add_heap sort now rt.mgr period callback callback_queue tracked a hq
        have ha' : (rt.mgr.heap a).use_count ≠ 0 := by
          have : ((add sort now rt.mgr period callback callback_queue tracked).1.heap
            a).use_count ≠ 0 := ha
          rw [hheap] at this
          exact this
        rw [add_deref_old sort now rt.mgr period callback callback_queue tracked a hq]
        exact h3 a ha'
  | remove handle =>
    obtain ⟨_, f2, f3, _⟩ := remove_frame rt.mgr handle
    refine ⟨?_, ?_, ?_⟩
    · intro a ha
      show a < (remove rt.mgr handle).next_addr
      rw [f2]
      exact h1 a (f3 a ha)
    · intro cb hcb
      show cb.info_ < (remove rt.mgr handle).next_addr
      rw [f2]
      exact h2 cb hcb
    · intro a ha
      obtain ⟨g1, g2⟩ := remove_heap rt.mgr handle a
      have ha' : (rt.mgr.heap a).use_count ≠ 0 := by
        have : ((remove rt.mgr handle).heap a).use_count ≠ 0 := ha
        omega
      show ((remove rt.mgr handle).deref a).waiting_callbacks = rt.inFlight a % 2 ^ 32
      rw [g2]
      exact h3 a ha'
  | dispatch now info rest r hfront _ hbody =>
    obtain ⟨hr, _⟩ := body_front sort rt.mgr info r hbody
    have hin : info ∈ rt.mgr.timers_ := by rw [hfront]; exact List.mem_cons_self _ _
    refine ⟨?_, ?_, ?_⟩
    · intro a ha
      show a < r.1.next_addr
      rw [hr, dispatch_next_addr]
      have ha' : a ∈ (threadFuncDispatch sort rt.mgr info).timers_ := by rw [← hr]; exact ha
      exact h1 a ((dispatch_timers_perm hs rt.mgr info).mem_iff.mp ha')
    · intro cb hcb
      show cb.info_ < r.1.next_addr
      rw [hr, dispatch_next_addr]
      rcases List.mem_append.mp hcb with h4 | h4
      · exact h2 cb h4
      · rw [List.mem_singleton.mp h4]
        exact h1 info hin
    · intro a ha
      have ha' : (rt.mgr.heap a).use_count ≠ 0 := by
        have : (r.1.heap a).use_count ≠ 0 := ha
        rw [hr, dispatch_use_count] at this
        exact this
      show (r.1.deref a).waiting_callbacks = _
      rw [inFlight_append, hr]
      by_cases hai : a = info
      · subst hai
        rw [dispatch_deref_self]
        show u32inc (rt.mgr.deref a).waiting_callbacks = _
        rw [h3 a ha', u32inc_mod]
        simp [TimerQueueCallback.create]
      · rw [dispatch_deref_other sort rt.mgr info a hai, h3 a ha']
        have hne : ¬ (TimerQueueCallback.create rt.mgr info (rt.mgr.deref info).last_expected
            (rt.mgr.deref info).last_real (rt.mgr.deref info).next_expected).2.info_ = a :=
          fun e => hai e.symm
        rw [if_neg hne, Nat.add_zero]
  | call live now cb_start cb_end cb hcb =>
    obtain ⟨_, f2, f3, _⟩ := call_frame live now cb_start cb_end rt.mgr cb
    obtain ⟨g0, g1⟩ := call_heap live now cb_start cb_end rt.mgr cb
    refine ⟨?_, ?_, ?_⟩
    · intro a ha
      show a < (TimerQueueCallback.call live now cb_start cb_end rt.mgr cb).mgr.next_addr
      rw [f2]
      have ha' : a ∈ (TimerQueueCallback.call live now cb_start cb_end rt.mgr cb).mgr.timers_ :=
        ha
      rw [f3] at ha'
      exact h1 a ha'
    · intro c hc
      show c.info_ < (TimerQueueCallback.call live now cb_start cb_end rt.mgr cb).mgr.next_addr
      rw [f2]
      rcases List.mem_append.mp hc with h4 | h4
      · exact h2 c (List.mem_of_mem_erase h4)
      · rw [List.mem_singleton.mp h4, g0]
        exact h2 cb hcb
    · intro a ha
      have ha' : (rt.mgr.heap a).use_count ≠ 0 := by
        have : ((TimerQueueCallback.call live now cb_start cb_end rt.mgr cb).mgr.heap
          a).use_count ≠ 0 := ha
        rw [(g1 a).1] at this
        exact this
      show ((TimerQueueCallback.call live now cb_start cb_end rt.mgr cb).mgr.deref
        a).waiting_callbacks = _
      rw [(g1 a).2, h3 a ha']
      have e1 := inFlight_erase rt rt.mgr cb hcb a
      have e2 := inFlight_append { mgr := rt.mgr, callbacks := rt.callbacks.erase cb }
        (TimerQueueCallback.call live now cb_start cb_end rt.mgr cb).mgr
        (TimerQueueCallback.call live now cb_start cb_end rt.mgr cb).cb a
      rw [g0] at e2
      have e3 : Runtime.inFlight
          { mgr := (TimerQueueCallback.call live now cb_start cb_end rt.mgr cb).mgr
            callbacks := rt.callbacks.erase cb ++
              [(TimerQueueCallback.call live now cb_start cb_end rt.mgr cb).cb] } a =
          rt.inFlight a := by
        rw [e2, e1]
      rw [e3]
  | destroy cb hcb =>
    obtain ⟨_, f2, f3, _⟩ := destroy_frame rt.mgr cb
    obtain ⟨g1, g2, g3⟩ := destroy_heap rt.mgr cb
    refine ⟨?_, ?_, ?_⟩
    · intro a ha
      show a < (TimerQueueCallback.destroy rt.mgr cb).next_addr
      rw [f2]
      have ha' : a ∈ (TimerQueueCallback.destroy rt.mgr cb).timers_ := ha
      rw [f3] at ha'
      exact h1 a ha'
    · intro c hc
      show c.info_ < (TimerQueueCallback.destroy rt.mgr cb).next_addr
      rw [f2]
      exact h2 c (List.mem_of_mem_erase hc)
    · intro a ha
      have ha' : (rt.mgr.heap a).use_count ≠ 0 := by
        have : ((TimerQueueCallback.destroy rt.mgr cb).heap a).use_count ≠ 0 := ha
        rw [g1 a] at this
        exact this
      have e1 := inFlight_erase rt (TimerQueueCallback.destroy rt.mgr cb) cb hcb a
      show ((TimerQueueCallback.destroy rt.mgr cb).deref a).waiting_callbacks = _
      by_cases hai : a = cb.info_
      · subst hai
        rw [if_pos rfl] at e1
        rw [g3 ha', h3 _ ha', u32dec_mod _ (by omega)]
        congr 1
        omega
      · rw [if_neg (fun e => hai e.symm)] at e1
        rw [g2 a hai, h3 a ha']
        congr 1
        omega

theorem rreachable_accounted {sort : SortFn} (hs : StdSortSpec sort) (rt : Runtime)
    (hreach : RReachable sort Runtime.new rt) : Accounted rt := by
  induction hreach with
  | refl => exact accounted_new
  | tail _ hstep ih => exact rstep_accounted hs _ _ hstep ih

theorem loop_use_count (sort : SortFn) :
    ∀ (fuel : Nat) (clock : Nat → Time) (m : TimerManager) (info : Addr)
      (r : TimerManager × Addr), threadFuncLoop sort fuel clock m info = some r →
      ∀ a, (r.1.heap a).use_count = (m.heap a).use_count := by
  intro fuel
  induction fuel with
  | zero =>
    intro clock m info r h
    simp [threadFuncLoop] at h
  | succ f ih =>
    intro clock m info r h a
    unfold threadFuncLoop at h
    by_cases hg : (m.deref info).next_expected ≤ clock 0
    · rw [if_pos hg] at h
      cases hb : threadFuncBody sort m info with
      | none => rw [hb] at h; simp at h
      | some r1 =>
        rw [hb] at h
        rw [ih _ r1.1 r1.2 r h a, (body_front sort m info r1 hb).1, dispatch_use_count]
    · rw [if_neg hg] at h
      rw [← Option.some.inj h]

theorem loop_rreachable (sort : SortFn) :
    ∀ (fuel : Nat) (clock : Nat → Time) (m : TimerManager) (info : Addr) (rest : List Addr)
      (r : TimerManager × Addr) (cbs : List TimerQueueCallback), m.timers_ = info :: rest →
      threadFuncLoop sort fuel clock m info = some r →
      ∃ enqueued : List (Nat × TimerQueueCallback),
        r.1.added_callbacks = m.added_callbacks ++ enqueued ∧
        RReachable sort { mgr := m, callbacks := cbs }
          { mgr := r.1, callbacks := cbs ++ enqueued.map Prod.snd } := by
  intro fuel
  induction fuel with
  | zero =>
    intro clock m info rest r cbs _ h
    simp [threadFuncLoop] at h
  | succ f ih =>
    intro clock m info rest r cbs hfront h
    unfold threadFuncLoop at h
    by_cases hg : (m.deref info).next_expected ≤ clock 0
    · rw [if_pos hg] at h
      cases hb : threadFuncBody sort m info with
      | none => rw [hb] at h; simp at h
      | some r1 =>
        rw [hb] at h
        obtain ⟨hr1, tl, htl⟩ := body_front sort m info r1 hb
        have hstep : RStep sort { mgr := m, callbacks := cbs }
            { mgr := r1.1
              callbacks := cbs ++
                [(TimerQueueCallback.create m info (m.deref info).last_expected
                  (m.deref info).last_real (m.deref info).next_expected).2] } :=
          RStep.dispatch { mgr := m, callbacks := cbs } (clock 0) info rest r1 hfront hg hb
        obtain ⟨enq, he1, he2⟩ := ih _ r1.1 r1.2 tl r _ htl h
        refine ⟨((m.deref info).callback_queue,
          (TimerQueueCallback.create m info (m.deref info).last_expected
            (m.deref info).last_real (m.deref info).next_expected).2) :: enq, ?_, ?_⟩
        · rw [he1, hr1, dispatch_added_callbacks, List.append_assoc, List.singleton_append]
          rfl
        · have hcbs : cbs ++ List.map Prod.snd
              (((m.deref info).callback_queue,
                (TimerQueueCallback.create m info (m.deref info).last_expected
                  (m.deref info).last_real (m.deref info).next_expected).2) :: enq) =
              (cbs ++ [(TimerQueueCallback.create m info (m.deref info).last_expected
                (m.deref info).last_real (m.deref info).next_expected).2]) ++
                enq.map Prod.snd := by
            rw [List.map_cons, List.append_assoc, List.singleton_append]
          rw [hcbs]
          exact Relation.ReflTransGen.head hstep he2
    · rw [if_neg hg] at h
      rw [← Option.some.inj h]
      refine ⟨[], by rw [List.append_nil], ?_⟩
      rw [List.map_nil, List.append_nil]
      exact Relation.ReflTransGen.refl

theorem single_timer_runtime {sort : SortFn} (hs : StdSortSpec sort) (n fuel : Nat)
    (now : Time) (hnow : now = (n : Int)) (hfuel : n < fuel) :
    RReachable sort Runtime.new (singleTimerRun sort fuel now) ∧
    ((singleTimerRun sort fuel now).mgr.heap 0).use_count ≠ 0 ∧
    (singleTimerRun sort fuel now).inFlight 0 = n := by
  unfold singleTimerRun
  have htim : (add sort 0 TimerManager.new 1 0 0 none).1.timers_ = [0] :=
    List.perm_singleton.mp (add_timers_perm hs 0 TimerManager.new 1 0 0 none)
  obtain ⟨a1, a2, a3⟩ := add_deref_new sort 0 TimerManager.new 1 0 0 none
  have b1 : ((add sort 0 TimerManager.new 1 0 0 none).1.deref 0).period = 1 := a1
  have b2 : ((add sort 0 TimerManager.new 1 0 0 none).1.deref 0).next_expected = 0 + 1 := a2
  have b3 : ((add sort 0 TimerManager.new 1 0 0 none).1.deref 0).last_expected = 0 := a3
  obtain ⟨m', hloop, hlog, _⟩ := loop_single hs 0 1 now (by decide) n
    (add sort 0 TimerManager.new 1 0 0 none).1 fuel htim b1 (by rw [b2, b3])
    (by rw [b3, hnow]; simp) (by rw [b3, hnow]; simp) hfuel
  have hmgr : afterPass sort fuel (fun _ => now) (add sort 0 TimerManager.new 1 0 0 none).1
      = m' := by
    unfold afterPass
    rw [pass_cons sort fuel (fun _ => now) _ 0 [] htim, hloop]
    rfl
  rw [hmgr]
  have hlog0 : (add sort 0 TimerManager.new 1 0 0 none).1.added_callbacks = [] := rfl
  rw [hlog0, List.nil_append] at hlog
  refine ⟨?_, ?_, ?_⟩
  · obtain ⟨enq, he1, he2⟩ := loop_rreachable sort fuel (fun _ => now)
      (add sort 0 TimerManager.new 1 0 0 none).1 0 [] (m', 0) [] htim hloop
    rw [hlog0, List.nil_append] at he1
    rw [List.nil_append, ← he1] at he2
    exact Relation.ReflTransGen.head (RStep.add Runtime.new 0 1 0 0 none) he2
  · rw [loop_use_count sort fuel (fun _ => now) _ 0 (m', 0) hloop 0]
    have : ((add sort 0 TimerManager.new 1 0 0 none).1.heap 0).use_count = 1 := by
      simp [add, TimerManager.new]
    rw [this]
    decide
  · unfold Runtime.inFlight
    have hall : ∀ cb ∈ m'.added_callbacks.map Prod.snd,
        (fun cb : TimerQueueCallback => decide (cb.info_ = 0)) cb = true := by
      intro cb hcb
      rw [hlog, List.map_map] at hcb
      obtain ⟨k, _, hk⟩ := List.mem_map.mp hcb
      rw [← hk]
      rfl
    rw [List.countP_eq_length.mpr hall, hlog, List.length_map, List.length_map,
      List.length_range]

/-- C23, as stated, fails: a timer of period 1 ns is added at clock reading 0
and the first dispatcher pass runs at clock reading 4294967296.  In the state
reached, the timer is alive and 4294967296 callback objects exist for it, none
destroyed, while its `waiting_callbacks` is 0: the `uint32_t` counter has
wrapped. -/
theorem waiting_callbacks_wraps :
    RReachable insertionSort Runtime.new overflowExample ∧
    (overflowExample.mgr.heap 0).use_count ≠ 0 ∧
    overflowExample.inFlight 0 = 4294967296 ∧
    (overflowExample.mgr.deref 0).waiting_callbacks = 0 := by
  obtain ⟨h1, h2, h3⟩ := single_timer_runtime insertionSort_spec 4294967296 4294967297
    4294967296 (by norm_num) (by decide)
  have hex : overflowExample = singleTimerRun insertionSort 4294967297 4294967296 := rfl
  rw [hex]
  refine ⟨h1, h2, h3, ?_⟩
  rw [(rreachable_accounted insertionSort_spec _ h1).2.2 0 h2, h3]
  decide

/-- C23, amended: constructing a `TimerQueueCallback` increments the owner's
`waiting_callbacks` by 1 as a `uint32_t`, destroying it while the owner is
alive decrements it by 1 as a `uint32_t`, and `call()` never changes it.
Hence in every reachable state the `waiting_callbacks` of a live timer is
the number of callback objects that exist for it (constructed and not yet
destroyed) modulo 2^32; while fewer than 2^32 such objects exist it is that
number exactly, it is positive whenever one of them is about to be
destroyed, and the destruction leaves it one less, so the counter does not
underflow. -/
theorem in_flight_accounting {sort : SortFn} (hs : StdSortSpec sort) :
    (∀ (m : TimerManager) (info : Addr) (le lr ce : Time),
      ((TimerQueueCallback.create m info le lr ce).1.deref info).waiting_callbacks =
        u32inc (m.deref info).waiting_callbacks ∧
      ((m.deref info).waiting_callbacks + 1 < 2 ^ 32 →
        ((TimerQueueCallback.create m info le lr ce).1.deref info).waiting_callbacks =
          (m.deref info).waiting_callbacks + 1)) ∧
    (∀ (m : TimerManager) (cb : TimerQueueCallback), (m.heap cb.info_).use_count ≠ 0 →
      ((TimerQueueCallback.destroy m cb).deref cb.info_).waiting_callbacks =
        u32dec (m.deref cb.info_).waiting_callbacks ∧
      (0 < (m.deref cb.info_).waiting_callbacks → (m.deref cb.info_).waiting_callbacks < 2 ^ 32 →
        ((TimerQueueCallback.destroy m cb).deref cb.info_).waiting_callbacks =
          (m.deref cb.info_).waiting_callbacks - 1)) ∧
    (∀ (live : Nat → Bool) (now : Time) (cb_start cb_end : WallTime) (m : TimerManager)
      (cb : TimerQueueCallback) (a : Addr),
      ((TimerQueueCallback.call live now cb_start cb_end m cb).mgr.deref a).waiting_callbacks =
        (m.deref a).waiting_callbacks) ∧
    (∀ (rt : Runtime), RReachable sort Runtime.new rt →
      ∀ a, (rt.mgr.heap a).use_count ≠ 0 →
        (rt.mgr.deref a).waiting_callbacks = rt.inFlight a % 2 ^ 32 ∧
        (rt.inFlight a < 2 ^ 32 →
          (rt.mgr.deref a).waiting_callbacks = rt.inFlight a ∧
          ∀ cb ∈ rt.callbacks, cb.info_ = a →
            0 < (rt.mgr.deref a).waiting_callbacks ∧
            ((TimerQueueCallback.destroy rt.mgr cb).deref a).waiting_callbacks =
              rt.inFlight a - 1)) := by
  refine ⟨?_, ?_, ?_, ?_⟩
  · intro m info le lr ce
    refine ⟨create_waiting m info le lr ce, ?_⟩
    intro hlt
    rw [create_waiting]
    unfold u32inc
    exact Nat.mod_eq_of_lt hlt
  · intro m cb halive
    have h := (destroy_heap m cb).2.2 halive
    refine ⟨h, ?_⟩
    intro hpos hlt
    rw [h]
    unfold u32dec
    omega
  · intro live now cb_start cb_end m cb a
    exact ((call_heap live now cb_start cb_end m cb).2 a).2
  · intro rt hreach a halive
    have hacc := (rreachable_accounted hs rt hreach).2.2 a halive
    refine ⟨hacc, ?_⟩
    intro hlt
    have heq : (rt.mgr.deref a).waiting_callbacks = rt.inFlight a := by
      rw [hacc]
      exact Nat.mod_eq_of_lt hlt
    refine ⟨heq, ?_⟩
    intro cb hcb hcba
    have hpos : 0 < rt.inFlight a := by
      unfold Runtime.inFlight
      rw [List.countP_pos_iff]
      exact ⟨cb, hcb, by simpa using hcba⟩
    refine ⟨by rw [heq]; exact hpos, ?_⟩
    subst hcba
    rw [(destroy_heap rt.mgr cb).2.2 halive, heq]
    unfold u32dec
    omega

theorem in_flight_accounting_witness :
    RReachable insertionSort Runtime.new inFlightExample ∧
    (inFlightExample.mgr.heap 0).use_count ≠ 0 ∧
    (inFlightExample.mgr.deref 0).waiting_callbacks = inFlightExample.inFlight 0 % 2 ^ 32 ∧
    inFlightExample.inFlight 0 = 3 ∧
    (inFlightExample.mgr.deref 0).waiting_callbacks = 3 :=
  ⟨(single_timer_runtime insertionSort_spec 3 4 3 (by decide) (by decide)).1, by decide,
    ((in_flight_accounting insertionSort_spec).2.2.2 inFlightExample
      (single_timer_runtime insertionSort_spec 3 4 3 (by decide) (by decide)).1 0
      (by decide)).1,
    by decide, by decide⟩

end ros
